import Mathlib

/-!
# FP-growth: a shallow embedding of `include/fptree.hpp`

The C++ header defines a pointer-linked FP-tree (`FPNode`, `FPTree`) and the
recursive miner `fptree_growth`.  The embedding keeps the pointer structure:

* a `std::shared_ptr<FPNode>` / `std::weak_ptr<FPNode>` is an index into the
  list `nodes` of all nodes allocated by one `FPTree` constructor call
  (allocation order), the null pointer is `none`;
* `std::map` and `std::set` are strictly increasing lists under their
  comparison, with the insertion routines below;
* `uint64_t` counters are natural numbers (a counter can only wrap after
  `2 ^ 64` item occurrences have been scanned);
* a loop that follows pointers is a function with a step budget equal to the
  number of allocated nodes (a longer walk revisits a node, so the C++ loop
  would not terminate); running out of budget, dereferencing a null pointer
  and a failing `assert` all give `none`;
* the counter `auto i = 0` of the loop that repeats a transformed prefix path is an
  `int` compared with a `uint64_t`; the loop is modelled for frequencies below
  `2 ^ 31`, where it pushes the path `frequency` times;
* the recursion of `fptree_growth` carries an explicit nesting budget: the
  first argument of `fptree_growth` is the number of nested calls allowed.

The second half of the file proves that on every tree built by the constructor no
budget runs out, no null pointer is dereferenced and no `assert` fails, and
characterises the returned pattern set.
-/

namespace FPGrowth

/-! ## Containers -/

/-- Insertion into a `std::set<T, Compare>` kept as a strictly increasing list:
an element equivalent to `x` (neither one less than the other) blocks it. -/
def setInsert {α : Type} (lt : α → α → Bool) (x : α) : List α → List α
  | [] => [x]
  | y :: ys =>
    if lt x y then x :: y :: ys
    else if lt y x then y :: setInsert lt x ys
    else y :: ys

/-- Range insertion `s.insert(first, last)`. -/
def setInsertAll {α : Type} (lt : α → α → Bool) (xs : List α) (s : List α) : List α :=
  xs.foldl (fun acc x => setInsert lt x acc) s

section Model

variable {Item : Type} [LinearOrder Item]

/-- Lookup in a `std::map<Item, V>` (`count` / `find`). -/
def mapFind? {V : Type} (k : Item) : List (Item × V) → Option V
  | [] => none
  | (k', v) :: m => if k < k' then none else if k' < k then mapFind? k m else some v

/-- Assignment `m[k] = v` on a `std::map<Item, V>`. -/
def mapSet {V : Type} (k : Item) (v : V) : List (Item × V) → List (Item × V)
  | [] => [(k, v)]
  | (k', v') :: m =>
    if k < k' then (k, v) :: (k', v') :: m
    else if k' < k then (k', v') :: mapSet k v m
    else (k', v) :: m

/-- Increment `++m[k]` on a `std::map<Item, uint64_t>` (a missing key is
value-initialised to 0 first). -/
def mapIncr (k : Item) : List (Item × Nat) → List (Item × Nat)
  | [] => [(k, 0 + 1)]
  | (k', v) :: m =>
    if k < k' then (k, 0 + 1) :: (k', v) :: m
    else if k' < k then (k', v) :: mapIncr k m
    else (k', v + 1) :: m

/-- Comparison `operator<` of `Item`. -/
def itemLt (a b : Item) : Bool := decide (a < b)

/-- Comparison `operator<` of `std::set<Item>`: lexicographic over the
increasing element sequences. -/
def itemSetLt : List Item → List Item → Bool
  | _, [] => false
  | [], _ :: _ => true
  | a :: as, b :: bs => if a < b then true else if b < a then false else itemSetLt as bs

/-! ## Data model -/

/-- `Transaction<Item> = std::vector<Item>`. -/
abbrev Transaction (Item : Type) := List Item

/-- `TransformedPrefixPath<Item> = std::pair<std::vector<Item>, uint64_t>`. -/
abbrev TransformedPrefixPath (Item : Type) := List Item × Nat

/-- `Pattern<Item> = std::pair<std::set<Item>, uint64_t>`; the item set is its
increasing element list. -/
abbrev Pattern (Item : Type) := List Item × Nat

/-- Comparison `operator<` of `std::pair<std::set<Item>, uint64_t>`. -/
def patternLt (p q : Pattern Item) : Bool :=
  itemSetLt p.1 q.1 || (!itemSetLt q.1 p.1 && decide (p.2 < q.2))

/-- `struct FPNode`. -/
structure FPNode (Item : Type) where
  item : Item
  frequency : Nat
  node_link : Option Nat
  parent : Option Nat
  children : List Nat

/-- Constructor `FPNode(item, parent)`. -/
def FPNode.new (item : Item) (parent : Option Nat) : FPNode Item :=
  { item := item, frequency := 1, node_link := none, parent := parent, children := [] }

/-- `struct FPTree`: `nodes` is the heap of the nodes the constructor
allocated, `root` the index of the root node. -/
structure FPTree (Item : Type) where
  nodes : List (FPNode Item)
  root : Nat
  header_table : List (Item × Nat)
  minimum_support_threshold : Nat

/-- `FPTree::frequency_comparator`:
`std::tie(lhs.second, lhs.first) > std::tie(rhs.second, rhs.first)`. -/
def frequency_comparator (lhs rhs : Item × Nat) : Bool :=
  decide (rhs.2 < lhs.2) || (!decide (lhs.2 < rhs.2) && decide (rhs.1 < lhs.1))

variable [Inhabited Item]

instance : Inhabited (FPNode Item) := ⟨FPNode.new default none⟩

/-- Dereference of a node pointer.  A pointer outside the heap reads a fresh node; the
constructor and the walks over its trees only dereference allocated nodes
(`ShapeInv`, `LinkInv`). -/
def getNode (nodes : List (FPNode Item)) (i : Nat) : FPNode Item := nodes.getD i default

/-! ## `FPTree::FPTree` -/

/-- First scan: `++frequency_by_item[item]` for every item of every
transaction. -/
def count_items (transactions : List (Transaction Item)) : List (Item × Nat) :=
  transactions.foldl (fun m transaction => transaction.foldl (fun m item => mapIncr item m) m) []

/-- The erase loop: entries with `item_frequency < minimum_support_threshold`
are removed. -/
def frequent_items (transactions : List (Transaction Item)) (minimum_support_threshold : Nat) :
    List (Item × Nat) :=
  (count_items transactions).filter (fun p => !decide (p.2 < minimum_support_threshold))

/-- The set `items_ordered_by_frequency`, built from the range of the filtered map. -/
def items_ordered_by_frequency (transactions : List (Transaction Item))
    (minimum_support_threshold : Nat) : List (Item × Nat) :=
  setInsertAll frequency_comparator (frequent_items transactions minimum_support_threshold) []

/-- `while ( prev_fpnode->node_link ) { prev_fpnode = prev_fpnode->node_link; }`,
with a step budget.  On the states the constructor goes through the walk ends at the
last node of the chain before the budget is used up (`chain_tail_eq`). -/
def chain_tail (nodes : List (FPNode Item)) : Nat → Nat → Nat
  | 0, prev_fpnode => prev_fpnode
  | fuel + 1, prev_fpnode =>
    match (getNode nodes prev_fpnode).node_link with
    | some next => chain_tail nodes fuel next
    | none => prev_fpnode

/-- State of the construction loops. -/
structure Build (Item : Type) where
  nodes : List (FPNode Item)
  header_table : List (Item × Nat)
  curr_fpnode : Nat

/-- Body of `if ( std::find(transaction..., item) != transaction.cend() )`:
insert `item` below `curr_fpnode`. -/
def insert_item (item : Item) (b : Build Item) : Build Item :=
  let curr := getNode b.nodes b.curr_fpnode
  match curr.children.find? (fun c => decide ((getNode b.nodes c).item = item)) with
  | none =>
    let new_child := b.nodes.length
    let nodes1 := (b.nodes.set b.curr_fpnode { curr with children := curr.children ++ [new_child] })
      ++ [FPNode.new item (some b.curr_fpnode)]
    match mapFind? item b.header_table with
    | some head =>
      let prev_fpnode := chain_tail nodes1 nodes1.length head
      { nodes := nodes1.set prev_fpnode { getNode nodes1 prev_fpnode with node_link := some new_child }
        header_table := b.header_table
        curr_fpnode := new_child }
    | none =>
      { nodes := nodes1
        header_table := mapSet item new_child b.header_table
        curr_fpnode := new_child }
  | some child =>
    { nodes := b.nodes.set child
        { getNode b.nodes child with frequency := (getNode b.nodes child).frequency + 1 }
      header_table := b.header_table
      curr_fpnode := child }

/-- Body of the second scan for one transaction: start at the root and visit
`items_ordered_by_frequency` in order, inserting the items the transaction contains. -/
def insert_transaction (ordered : List (Item × Nat)) (root : Nat) (b : Build Item)
    (transaction : Transaction Item) : Build Item :=
  ordered.foldl (fun b pair => if pair.1 ∈ transaction then insert_item pair.1 b else b)
    { b with curr_fpnode := root }

/-- Constructor `FPTree(transactions, minimum_support_threshold)`. -/
def FPTree.new (transactions : List (Transaction Item)) (minimum_support_threshold : Nat) :
    FPTree Item :=
  let ordered := items_ordered_by_frequency transactions minimum_support_threshold
  let b := transactions.foldl (insert_transaction ordered 0)
    { nodes := [FPNode.new default none], header_table := [], curr_fpnode := 0 }
  { nodes := b.nodes, root := 0, header_table := b.header_table,
    minimum_support_threshold := minimum_support_threshold }

/-- `FPTree::empty`. -/
def FPTree.empty (fptree : FPTree Item) : Bool :=
  (getNode fptree.nodes fptree.root).children.length == 0

/-! ## `contains_single_path` -/

/-- `contains_single_path(const std::shared_ptr<FPNode<Item>>&)`. -/
def contains_single_path_node (nodes : List (FPNode Item)) : Nat → Nat → Option Bool
  | 0, _ => none
  | fuel + 1, fpnode =>
    match (getNode nodes fpnode).children with
    | [] => some true
    | [child] => contains_single_path_node nodes fuel child
    | _ :: _ :: _ => some false

/-- `contains_single_path(const FPTree<Item>&)`. -/
def contains_single_path (fptree : FPTree Item) : Option Bool :=
  if fptree.empty then some true
  else contains_single_path_node fptree.nodes fptree.nodes.length fptree.root

/-! ## `fptree_growth` -/

/-- The range-for over `single_path_patterns` that inserts into the set it
walks: `pattern` is the element under the iterator, and after the insertion the
iterator moves to the next larger element of the updated set (elements inserted
behind the iterator are visited in the same pass).  The first argument bounds the
number of iterations. -/
def extend_single_path (curr_fpnode_item : Item) (curr_fpnode_frequency : Nat) :
    Nat → List (Pattern Item) → Pattern Item → Option (List (Pattern Item))
  | 0, _, _ => none
  | fuel + 1, single_path_patterns, pattern =>
    if curr_fpnode_frequency ≤ pattern.2 then
      let new_pattern : Pattern Item := (setInsert itemLt curr_fpnode_item pattern.1, curr_fpnode_frequency)
      let updated := setInsert patternLt new_pattern single_path_patterns
      match updated.find? (fun p => patternLt pattern p) with
      | none => some updated
      | some next => extend_single_path curr_fpnode_item curr_fpnode_frequency fuel updated next
    else none

/-- The `while ( curr_fpnode )` loop of the single-path branch.  The range-for gets a
budget of twice the size of the set it starts on: it visits every element of the
final set at most once. -/
def single_path_loop (nodes : List (FPNode Item)) :
    Nat → Nat → List (Pattern Item) → Option (List (Pattern Item))
  | 0, _, _ => none
  | fuel + 1, curr_fpnode, single_path_patterns =>
    let curr_fpnode_item := (getNode nodes curr_fpnode).item
    let curr_fpnode_frequency := (getNode nodes curr_fpnode).frequency
    let inserted := setInsert patternLt ([curr_fpnode_item], curr_fpnode_frequency) single_path_patterns
    let extended :=
      match inserted with
      | [] => some inserted
      | first :: _ =>
        extend_single_path curr_fpnode_item curr_fpnode_frequency (2 * inserted.length) inserted first
    match extended with
    | none => none
    | some patterns =>
      match (getNode nodes curr_fpnode).children with
      | [] => some patterns
      | [child] => single_path_loop nodes fuel child patterns
      | _ :: _ :: _ => none

/-- The inner `while ( curr_path_fpnode->parent.lock() )` loop collecting a
transformed prefix path. -/
def path_items (nodes : List (FPNode Item)) (path_starting_fpnode_frequency : Nat) :
    Nat → Nat → List Item → Option (List Item)
  | 0, _, _ => none
  | fuel + 1, curr_path_fpnode, items =>
    match (getNode nodes curr_path_fpnode).parent with
    | none => some items
    | some parent =>
      if path_starting_fpnode_frequency ≤ (getNode nodes curr_path_fpnode).frequency then
        path_items nodes path_starting_fpnode_frequency fuel parent
          (items ++ [(getNode nodes curr_path_fpnode).item])
      else none

/-- The `while ( path_starting_fpnode )` loop building `conditional_pattern_base`. -/
def conditional_pattern_base (nodes : List (FPNode Item)) :
    Nat → Option Nat → List (TransformedPrefixPath Item) → Option (List (TransformedPrefixPath Item))
  | _, none, base => some base
  | 0, some _, _ => none
  | fuel + 1, some path_starting_fpnode, base =>
    let path_starting_fpnode_frequency := (getNode nodes path_starting_fpnode).frequency
    match (getNode nodes path_starting_fpnode).parent with
    | none => none
    | some curr_path_fpnode =>
      match (getNode nodes curr_path_fpnode).parent with
      | some _ =>
        match path_items nodes path_starting_fpnode_frequency (nodes.length + 1) curr_path_fpnode [] with
        | none => none
        | some items =>
          conditional_pattern_base nodes fuel (getNode nodes path_starting_fpnode).node_link
            (base ++ [(items, path_starting_fpnode_frequency)])
      | none =>
        conditional_pattern_base nodes fuel (getNode nodes path_starting_fpnode).node_link base

/-- The loop materialising `conditional_fptree_transactions`: every transformed
prefix path is pushed `frequency` times (the `int` loop counter is taken wide enough
for the frequency). -/
def conditional_transactions (base : List (TransformedPrefixPath Item)) : List (Transaction Item) :=
  base.foldl (fun transactions path => transactions ++ List.replicate path.2 path.1) []

/-- The `while ( fpnode )` loop summing the frequencies along a node-link chain. -/
def chain_frequency (nodes : List (FPNode Item)) : Nat → Option Nat → Nat → Option Nat
  | _, none, curr_item_frequency => some curr_item_frequency
  | 0, some _, _ => none
  | fuel + 1, some fpnode, curr_item_frequency =>
    chain_frequency nodes fuel (getNode nodes fpnode).node_link
      (curr_item_frequency + (getNode nodes fpnode).frequency)

/-- The loop adding `curr_item` to every conditional pattern. -/
def extend_conditional (curr_item : Item) (curr_item_frequency : Nat) :
    List (Pattern Item) → List (Pattern Item) → Option (List (Pattern Item))
  | [], curr_item_patterns => some curr_item_patterns
  | pattern :: rest, curr_item_patterns =>
    if pattern.2 ≤ curr_item_frequency then
      extend_conditional curr_item curr_item_frequency rest
        (setInsert patternLt (setInsert itemLt curr_item pattern.1, pattern.2) curr_item_patterns)
    else none

/-- Body of the loop over `fptree.header_table` up to the construction of
`curr_item_patterns`; `recurse` is the recursive call of `fptree_growth`. -/
def curr_item_patterns (recurse : FPTree Item → Option (List (Pattern Item)))
    (fptree : FPTree Item) (pair : Item × Nat) : Option (List (Pattern Item)) :=
  match conditional_pattern_base fptree.nodes fptree.nodes.length (some pair.2) [] with
  | none => none
  | some base =>
    let conditional_fptree : FPTree Item :=
      FPTree.new (conditional_transactions base) fptree.minimum_support_threshold
    match recurse conditional_fptree with
    | none => none
    | some conditional_patterns =>
      match chain_frequency fptree.nodes fptree.nodes.length (some pair.2) 0 with
      | none => none
      | some curr_item_frequency =>
        extend_conditional pair.1 curr_item_frequency conditional_patterns
          (setInsert patternLt ([pair.1], curr_item_frequency) [])

/-- Body of the loop over `fptree.header_table`: the patterns of the current
item are joined into `multi_path_patterns`. -/
def item_patterns (recurse : FPTree Item → Option (List (Pattern Item))) (fptree : FPTree Item)
    (multi_path_patterns : List (Pattern Item)) (pair : Item × Nat) : Option (List (Pattern Item)) :=
  match curr_item_patterns recurse fptree pair with
  | none => none
  | some patterns => some (setInsertAll patternLt patterns multi_path_patterns)

/-- Left-to-right loop over a container with a body that can fail. -/
def forEach {α β : Type} (f : β → α → Option β) : List α → β → Option β
  | [], acc => some acc
  | x :: xs, acc =>
    match f acc x with
    | none => none
    | some acc' => forEach f xs acc'

/-- `fptree_growth`; the first argument bounds the nesting of recursive calls. -/
def fptree_growth : Nat → FPTree Item → Option (List (Pattern Item))
  | 0, _ => none
  | fuel + 1, fptree =>
    if fptree.empty then some []
    else
      match contains_single_path fptree with
      | none => none
      | some true =>
        match (getNode fptree.nodes fptree.root).children with
        | [first] => single_path_loop fptree.nodes fptree.nodes.length first []
        | _ => none
      | some false =>
        forEach (item_patterns (fptree_growth fuel) fptree) fptree.header_table []

end Model

/-! ## Definitions used by the specification and its proofs -/

section Specification

variable {Item : Type} [LinearOrder Item] [Inhabited Item]

/-- A Boolean comparison that is a strict total order. -/
structure StrictTotal {α : Type} (lt : α → α → Bool) : Prop where
  irrefl : ∀ a, lt a a = false
  trans : ∀ a b c, lt a b = true → lt b c = true → lt a c = true
  tri : ∀ a b, lt a b = false → lt b a = false → a = b

/-- Number of occurrences of `x` over all transactions (repetitions inside a
transaction counted). -/
def tally (transactions : List (Transaction Item)) (x : Item) : Nat :=
  (transactions.map (fun transaction => transaction.count x)).sum

/-- Support of the item set `S`: the number of transactions that contain every
item of `S`. -/
def support (transactions : List (Transaction Item)) (S : List Item) : Nat :=
  transactions.countP (fun transaction => S.all (fun x => decide (x ∈ transaction)))

/-- The item sequence of `items_ordered_by_frequency`. -/
def ordered_items (transactions : List (Transaction Item)) (minimum_support_threshold : Nat) :
    List Item :=
  (items_ordered_by_frequency transactions minimum_support_threshold).map Prod.fst

/-- Option form of a counter: absent when zero. -/
def counter (n : Nat) : Option Nat := if n = 0 then none else some n

/-- The items of `ordered` that the transaction contains, in the order of `ordered`: the
sequence of insertions the second scan performs for the transaction. -/
def canonical (ordered : List Item) (transaction : Transaction Item) : List Item :=
  ordered.filter (fun x => decide (x ∈ transaction))

/-- The list `l` is the node-link chain that starts at `start`. -/
inductive IsChain (nodes : List (FPNode Item)) : Option Nat → List Nat → Prop
  | nil : IsChain nodes none []
  | cons (i : Nat) (l : List Nat) :
      IsChain nodes (getNode nodes i).node_link l → IsChain nodes (some i) (i :: l)

/-- The non-root nodes that carry item `x`, in allocation order. -/
def occurrences (nodes : List (FPNode Item)) (x : Item) : List Nat :=
  (List.range nodes.length).filter (fun i => decide (0 < i) && decide ((getNode nodes i).item = x))

/-- Representation invariant of the tree shape: `paths` gives for every allocated
node the item sequence from below the root down to it, and `seqs` are the
item sequences inserted so far. -/
structure ShapeInv (nodes : List (FPNode Item)) (seqs paths : List (List Item)) : Prop where
  length_eq : paths.length = nodes.length
  root_path : paths.head? = some []
  root_parent : (getNode nodes 0).parent = none
  parent_path : ∀ i, 0 < i → i < nodes.length →
    ∃ p, (getNode nodes i).parent = some p ∧ p < i ∧
      paths.getD i [] = paths.getD p [] ++ [(getNode nodes i).item]
  nodup : paths.Nodup
  children_iff : ∀ i j, i < nodes.length →
    (j ∈ (getNode nodes i).children ↔ j < nodes.length ∧ (getNode nodes j).parent = some i)
  children_nodup : ∀ i, i < nodes.length → (getNode nodes i).children.Nodup
  frequency_eq : ∀ i, 0 < i → i < nodes.length →
    (getNode nodes i).frequency = seqs.countP (fun s => decide (paths.getD i [] <+: s))
  mem_paths : ∀ q, q ∈ paths ↔ q = [] ∨ ∃ s ∈ seqs, q <+: s

/-- Representation invariant of the header table and the node links: the chain
of every item lists the non-root nodes carrying it, in allocation order. -/
structure LinkInv (nodes : List (FPNode Item)) (header : List (Item × Nat)) : Prop where
  header_sorted : header.Pairwise (fun a b => a.1 < b.1)
  chain : ∀ x, IsChain nodes (mapFind? x header) (occurrences nodes x)

/-- Representation invariant of the construction. -/
structure TreeInv (nodes : List (FPNode Item)) (header : List (Item × Nat))
    (seqs paths : List (List Item)) : Prop where
  shape : ShapeInv nodes seqs paths
  link : LinkInv nodes header

/-- The sequences the constructor inserts: one per transaction. -/
def sequences (transactions : List (Transaction Item)) (minimum_support_threshold : Nat) :
    List (List Item) :=
  transactions.map (canonical (ordered_items transactions minimum_support_threshold))

/-- The entry of the conditional pattern base contributed by the occurrence node `i`:
none when its parent is the root. -/
def base_entry (nodes : List (FPNode Item)) (paths : List (List Item)) (i : Nat) :
    Option (TransformedPrefixPath Item) :=
  if (paths.getD i []).dropLast = [] then none
  else some ((paths.getD i []).dropLast.reverse, (getNode nodes i).frequency)

/-- The items of `l` in front of the first occurrence of `x`. -/
def before (x : Item) (l : List Item) : List Item := l.takeWhile (fun y => decide (y ≠ x))

/-- The conditional transactions `fptree_growth` materialises for item `x`, read off the
representation: every occurrence node below a non-root parent contributes its
reversed path to the parent, repeated `frequency` times. -/
def conditional_txs (nodes : List (FPNode Item)) (paths : List (List Item)) (x : Item) :
    List (Transaction Item) :=
  conditional_transactions ((occurrences nodes x).filterMap (base_entry nodes paths))

/-- The pattern the single-path loop derives from `q` at a node with item `x` and
frequency `f`. -/
def extend_pattern (x : Item) (f : Nat) (q : Pattern Item) : Pattern Item :=
  (setInsert itemLt x q.1, f)

/-- The list `l` is the chain of nodes from `c` down to a leaf, every node of it
having at most one child. -/
inductive SinglePath (nodes : List (FPNode Item)) : Nat → List Nat → Prop
  | leaf (c : Nat) : (getNode nodes c).children = [] → SinglePath nodes c [c]
  | step (c c' : Nat) (l : List Nat) :
      (getNode nodes c).children = [c'] → SinglePath nodes c' l → SinglePath nodes c (c :: l)

/-- The pattern `q` is read off the chain `L` of (item, frequency) pairs: its support is
the frequency of a chain node whose item is in the item set, and the other items
of the set sit on nodes above it. -/
def ChainPattern (L : List (Item × Nat)) (q : Pattern Item) : Prop :=
  q.1.Pairwise (fun a b => a < b) ∧
    ∃ L1 x L2, L = L1 ++ (x, q.2) :: L2 ∧ x ∈ q.1 ∧ ∀ y ∈ q.1, y = x ∨ y ∈ L1.map Prod.fst

/-- The pattern the multi-path branch derives from the conditional pattern `p` of item `x`. -/
def anchor_pattern (x : Item) (p : Pattern Item) : Pattern Item := (setInsert itemLt x p.1, p.2)

/-- Specification of the mined pattern set for arbitrary transactions: the supports are
exact; the sets are the non-empty sets of surviving items, all of them on a single-path
tree, else the singletons and the sets that reach the threshold. -/
def MinedSpec (transactions : List (Transaction Item)) (t : Nat) (R : List (Pattern Item)) : Prop :=
  R.Pairwise (fun a b => patternLt a b = true) ∧
  ∀ q : Pattern Item, q ∈ R ↔
    q.1 ≠ [] ∧ q.1.Pairwise (fun a b => a < b) ∧
    (∀ y ∈ q.1, y ∈ ordered_items transactions t) ∧
    q.2 = support transactions q.1 ∧
    (contains_single_path (FPTree.new transactions t) = some true ∨ q.1.length = 1 ∨
      (t ≤ q.2 ∧ 1 ≤ q.2))

/-- The transactions of `test_1` (`src/main.cpp`), items `A` to `E` written 1 to 5. -/
def test_1_transactions : List (Transaction Nat) :=
  [[1, 2], [2, 3, 4], [1, 3, 4, 5], [1, 4, 5], [1, 2, 3], [1, 2, 3, 4], [1], [1, 2, 3],
    [1, 2, 4], [2, 3, 5]]

/-- The 19 patterns `test_1` asserts, in the order of `std::set<Pattern>`. -/
def test_1_patterns : List (Pattern Nat) :=
  [([1], 8), ([1, 2], 5), ([1, 2, 3], 3), ([1, 2, 4], 2), ([1, 3], 4), ([1, 3, 4], 2),
    ([1, 4], 4), ([1, 4, 5], 2), ([1, 5], 2), ([2], 7), ([2, 3], 5), ([2, 3, 4], 2),
    ([2, 4], 3), ([3], 6), ([3, 4], 3), ([3, 5], 2), ([4], 5), ([4, 5], 2), ([5], 3)]

/-- The item sequence on the path from just below the root down to node `i`, read by
following the `parent` references from `i` up to the node that has no parent. -/
def path_to (nodes : List (FPNode Item)) : Nat → Nat → List Item
  | 0, _ => []
  | fuel + 1, i =>
    match (getNode nodes i).parent with
    | none => []
    | some p => path_to nodes fuel p ++ [(getNode nodes i).item]

/-- The list `l` is a downward path below `p`: its first node is a child of `p` and
every further node is a child of the node before it. -/
inductive DownPath (nodes : List (FPNode Item)) : Nat → List Nat → Prop
  | last (p c : Nat) : c ∈ (getNode nodes p).children → DownPath nodes p [c]
  | cons (p c : Nat) (l : List Nat) :
      c ∈ (getNode nodes p).children → DownPath nodes c l → DownPath nodes p (c :: l)

/-- Node `v` lies in the sub-tree rooted at `c` (`c` included): it is reached from `c`
through `children`. -/
inductive InSubtree (nodes : List (FPNode Item)) : Nat → Nat → Prop
  | root (c : Nat) : InSubtree nodes c c
  | child (c j v : Nat) :
      j ∈ (getNode nodes c).children → InSubtree nodes j v → InSubtree nodes c v

/-- The walk `while ( curr_path_fpnode->parent.lock() )` from `curr_path_fpnode`: the
nodes it visits (each of them has a parent) and the node without parent at which it stops. -/
def parent_walk (nodes : List (FPNode Item)) : Nat → Nat → Option (List Nat × Nat)
  | 0, _ => none
  | fuel + 1, curr_path_fpnode =>
    match (getNode nodes curr_path_fpnode).parent with
    | none => some ([], curr_path_fpnode)
    | some parent =>
      match parent_walk nodes fuel parent with
      | none => none
      | some (visited, last) => some (curr_path_fpnode :: visited, last)

/-- One iteration of the `while ( curr_fpnode )` loop of the single-path branch, up to the
end of the range-for: the part of `single_path_loop` in front of the advance to the child. -/
def single_path_pass (nodes : List (FPNode Item)) (curr_fpnode : Nat)
    (single_path_patterns : List (Pattern Item)) : Option (List (Pattern Item)) :=
  let curr_fpnode_item := (getNode nodes curr_fpnode).item
  let curr_fpnode_frequency := (getNode nodes curr_fpnode).frequency
  let inserted := setInsert patternLt ([curr_fpnode_item], curr_fpnode_frequency) single_path_patterns
  match inserted with
  | [] => some inserted
  | first :: _ =>
    extend_single_path curr_fpnode_item curr_fpnode_frequency (2 * inserted.length) inserted first

/-- The `while ( curr_fpnode )` loop that starts at node `first` with the empty pattern set
is at node `curr_fpnode` with the pattern set `single_path_patterns` at the top of an
iteration. -/
inductive Reaches (nodes : List (FPNode Item)) (first : Nat) : Nat → List (Pattern Item) → Prop
  | start : Reaches nodes first first []
  | step (curr_fpnode : Nat) (single_path_patterns : List (Pattern Item)) (child : Nat)
      (patterns : List (Pattern Item)) :
      Reaches nodes first curr_fpnode single_path_patterns →
      single_path_pass nodes curr_fpnode single_path_patterns = some patterns →
      (getNode nodes curr_fpnode).children = [child] →
      Reaches nodes first child patterns

/-- The range-for of `extend_single_path`, with the iterator at `pattern` on the set
`single_path_patterns`, visits `q` now or later in the same pass. -/
inductive Visited (curr_fpnode_item : Item) (curr_fpnode_frequency : Nat) :
    List (Pattern Item) → Pattern Item → Pattern Item → Prop
  | here (single_path_patterns : List (Pattern Item)) (pattern : Pattern Item) :
      Visited curr_fpnode_item curr_fpnode_frequency single_path_patterns pattern pattern
  | later (single_path_patterns : List (Pattern Item)) (pattern next q : Pattern Item) :
      (setInsert patternLt (setInsert itemLt curr_fpnode_item pattern.1, curr_fpnode_frequency)
        single_path_patterns).find? (fun p => patternLt pattern p) = some next →
      Visited curr_fpnode_item curr_fpnode_frequency
        (setInsert patternLt (setInsert itemLt curr_fpnode_item pattern.1, curr_fpnode_frequency)
          single_path_patterns) next q →
      Visited curr_fpnode_item curr_fpnode_frequency single_path_patterns pattern q

/-- The variant of `fptree_growth` without the single-path branch: every non-empty tree
goes through the loop over the header table, and the conditional trees are mined by the
variant as well. -/
def fptree_growth_multi_path : Nat → FPTree Item → Option (List (Pattern Item))
  | 0, _ => none
  | fuel + 1, fptree =>
    if fptree.empty then some []
    else forEach (item_patterns (fptree_growth_multi_path fuel) fptree) fptree.header_table []

/-- Specification of the pattern set of the multi-path procedure for arbitrary
transactions: exact supports; the singletons of the surviving items and the sets of
surviving items that reach the threshold. -/
def MultiSpec (transactions : List (Transaction Item)) (t : Nat) (R : List (Pattern Item)) : Prop :=
  R.Pairwise (fun a b => patternLt a b = true) ∧
  ∀ q : Pattern Item, q ∈ R ↔
    q.1 ≠ [] ∧ q.1.Pairwise (fun a b => a < b) ∧
    (∀ y ∈ q.1, y ∈ ordered_items transactions t) ∧
    q.2 = support transactions q.1 ∧
    (q.1.length = 1 ∨ (t ≤ q.2 ∧ 1 ≤ q.2))

end Specification

/-! ## Containers -/

section Containers

set_option linter.unusedSectionVars false

variable {α : Type} {lt : α → α → Bool}

theorem mem_setInsert_imp {x p : α} {l : List α} (h : p ∈ setInsert lt x l) : p = x ∨ p ∈ l := by
  induction l with
  | nil => simpa [setInsert] using h
  | cons y ys ih =>
    simp only [setInsert] at h
    split_ifs at h with h1 h2
    · simpa using h
    · rcases List.mem_cons.1 h with h | h
      · exact Or.inr (h ▸ List.mem_cons_self _ _)
      · rcases ih h with h | h
        · exact Or.inl h
        · exact Or.inr (List.mem_cons_of_mem _ h)
    · exact Or.inr h

theorem mem_setInsert_of_mem {x p : α} {l : List α} (h : p ∈ l) : p ∈ setInsert lt x l := by
  induction l with
  | nil => simp at h
  | cons y ys ih =>
    simp only [setInsert]
    split_ifs with h1 h2
    · exact List.mem_cons_of_mem _ h
    · rcases List.mem_cons.1 h with h | h
      · exact h ▸ List.mem_cons_self _ _
      · exact List.mem_cons_of_mem _ (ih h)
    · exact h

theorem self_mem_setInsert (st : StrictTotal lt) (x : α) (l : List α) : x ∈ setInsert lt x l := by
  induction l with
  | nil => simp [setInsert]
  | cons y ys ih =>
    simp only [setInsert]
    split_ifs with h1 h2
    · exact List.mem_cons_self _ _
    · exact List.mem_cons_of_mem _ ih
    · have := st.tri x y (by simpa using h1) (by simpa using h2)
      exact this ▸ List.mem_cons_self _ _

theorem mem_setInsert (st : StrictTotal lt) {x p : α} {l : List α} :
    p ∈ setInsert lt x l ↔ p = x ∨ p ∈ l :=
  ⟨mem_setInsert_imp, fun h => h.elim (fun e => e ▸ self_mem_setInsert st x l) mem_setInsert_of_mem⟩

theorem sorted_setInsert (st : StrictTotal lt) (x : α) {l : List α}
    (hl : l.Pairwise (fun a b => lt a b = true)) :
    (setInsert lt x l).Pairwise (fun a b => lt a b = true) := by
  induction l with
  | nil => simp [setInsert]
  | cons y ys ih =>
    simp only [setInsert]
    have hy := List.pairwise_cons.1 hl
    split_ifs with h1 h2
    · refine List.pairwise_cons.2 ⟨?_, hl⟩
      intro a ha
      rcases List.mem_cons.1 ha with ha | ha
      · exact ha ▸ h1
      · exact st.trans _ _ _ h1 (hy.1 a ha)
    · refine List.pairwise_cons.2 ⟨?_, ih hy.2⟩
      intro a ha
      rcases mem_setInsert_imp ha with ha | ha
      · exact ha ▸ h2
      · exact hy.1 a ha
    · exact hl

theorem mem_setInsertAll (st : StrictTotal lt) {xs s : List α} {p : α} :
    p ∈ setInsertAll lt xs s ↔ p ∈ xs ∨ p ∈ s := by
  induction xs generalizing s with
  | nil => simp [setInsertAll]
  | cons x xs ih =>
    have := @ih (setInsert lt x s)
    simp only [setInsertAll, List.foldl_cons] at this ⊢
    rw [this, mem_setInsert st]
    simp only [List.mem_cons]
    tauto

theorem sorted_setInsertAll (st : StrictTotal lt) (xs : List α) {s : List α}
    (hs : s.Pairwise (fun a b => lt a b = true)) :
    (setInsertAll lt xs s).Pairwise (fun a b => lt a b = true) := by
  induction xs generalizing s with
  | nil => simpa [setInsertAll] using hs
  | cons x xs ih =>
    have := @ih (setInsert lt x s) (sorted_setInsert st x hs)
    simpa only [setInsertAll, List.foldl_cons] using this

theorem nodup_of_sorted (st : StrictTotal lt) {l : List α}
    (hl : l.Pairwise (fun a b => lt a b = true)) : l.Nodup := by
  refine hl.imp ?_
  intro a b hab e
  subst e
  simp [st.irrefl a] at hab

end Containers

/-! ## The constructor, the walks and the miner -/

section Theory

set_option linter.unusedSectionVars false

set_option maxRecDepth 1000000

variable {Item : Type} [LinearOrder Item] [Inhabited Item]

theorem strictTotal_itemLt : StrictTotal (itemLt : Item → Item → Bool) where
  irrefl a := by simp [itemLt]
  trans a b c := by
    simp only [itemLt, decide_eq_true_eq]
    exact lt_trans
  tri a b := by
    simp only [itemLt, decide_eq_false_iff_not, not_lt]
    exact fun h1 h2 => le_antisymm h2 h1

theorem itemSetLt_irrefl (a : List Item) : itemSetLt a a = false := by
  induction a with
  | nil => rfl
  | cons x xs ih => simp [itemSetLt, ih]

theorem itemSetLt_cons (x y : Item) (xs ys : List Item) :
    itemSetLt (x :: xs) (y :: ys) = true ↔ x < y ∨ (x = y ∧ itemSetLt xs ys = true) := by
  simp only [itemSetLt]
  rcases lt_trichotomy x y with h | h | h
  · simp [h]
  · subst h; simp
  · simp [h, not_lt_of_lt h, ne_of_gt h]

theorem itemSetLt_trans (a b c : List Item) :
    itemSetLt a b = true → itemSetLt b c = true → itemSetLt a c = true := by
  induction a generalizing b c with
  | nil =>
    cases b with
    | nil => simp [itemSetLt]
    | cons y ys =>
      cases c with
      | nil => simp [itemSetLt]
      | cons z zs => simp [itemSetLt]
  | cons x xs ih =>
    cases b with
    | nil => simp [itemSetLt]
    | cons y ys =>
      cases c with
      | nil => simp [itemSetLt]
      | cons z zs =>
        rw [itemSetLt_cons, itemSetLt_cons, itemSetLt_cons]
        rintro (h1 | ⟨rfl, h1⟩) (h2 | ⟨rfl, h2⟩)
        · exact Or.inl (lt_trans h1 h2)
        · exact Or.inl h1
        · exact Or.inl h2
        · exact Or.inr ⟨rfl, ih _ _ h1 h2⟩

theorem itemSetLt_tri (a b : List Item) :
    itemSetLt a b = false → itemSetLt b a = false → a = b := by
  induction a generalizing b with
  | nil =>
    cases b with
    | nil => simp
    | cons y ys => simp [itemSetLt]
  | cons x xs ih =>
    cases b with
    | nil => simp [itemSetLt]
    | cons y ys =>
      rw [← Bool.not_eq_true, ← Bool.not_eq_true, itemSetLt_cons, itemSetLt_cons]
      intro h1 h2
      rcases lt_trichotomy x y with h | h | h
      · exact absurd (Or.inl h) h1
      · subst h
        have e := ih ys (by simpa using fun h => h1 (Or.inr ⟨rfl, h⟩))
          (by simpa using fun h => h2 (Or.inr ⟨rfl, h⟩))
        rw [e]
      · exact absurd (Or.inl h) h2

theorem strictTotal_itemSetLt : StrictTotal (itemSetLt : List Item → List Item → Bool) :=
  ⟨itemSetLt_irrefl, itemSetLt_trans, itemSetLt_tri⟩

theorem strictTotal_patternLt : StrictTotal (patternLt : Pattern Item → Pattern Item → Bool) where
  irrefl a := by simp [patternLt, itemSetLt_irrefl]
  trans a b c := by
    simp only [patternLt, Bool.or_eq_true, Bool.and_eq_true, Bool.not_eq_true', decide_eq_true_eq]
    rintro (h1 | ⟨h1, h1'⟩) (h2 | ⟨h2, h2'⟩)
    · exact Or.inl (itemSetLt_trans _ _ _ h1 h2)
    · by_cases h3 : itemSetLt b.1 c.1 = true
      · exact Or.inl (itemSetLt_trans _ _ _ h1 h3)
      · have := itemSetLt_tri _ _ (by simpa using h3) h2
        exact Or.inl (this ▸ h1)
    · by_cases h3 : itemSetLt a.1 b.1 = true
      · exact Or.inl (itemSetLt_trans _ _ _ h3 h2)
      · have := itemSetLt_tri _ _ (by simpa using h3) h1
        exact Or.inl (this ▸ h2)
    · by_cases h3 : itemSetLt a.1 b.1 = true
      · by_cases h4 : itemSetLt b.1 c.1 = true
        · exact Or.inl (itemSetLt_trans _ _ _ h3 h4)
        · have := itemSetLt_tri _ _ (by simpa using h4) h2
          exact Or.inl (this ▸ h3)
      · have e1 := itemSetLt_tri _ _ (by simpa using h3) h1
        by_cases h4 : itemSetLt b.1 c.1 = true
        · exact Or.inl (e1 ▸ h4)
        · have e2 := itemSetLt_tri _ _ (by simpa using h4) h2
          refine Or.inr ⟨?_, lt_trans h1' h2'⟩
          rw [e1, e2]; exact itemSetLt_irrefl _
  tri a b := by
    simp only [patternLt, Bool.or_eq_false_iff, Bool.and_eq_false_imp, Bool.not_eq_true',
      decide_eq_false_iff_not, not_lt]
    rintro ⟨h1, h1'⟩ ⟨h2, h2'⟩
    have e := itemSetLt_tri _ _ h1 h2
    exact Prod.ext e (le_antisymm (h2' h1) (h1' h2))

theorem strictTotal_frequency_comparator :
    StrictTotal (frequency_comparator : Item × Nat → Item × Nat → Bool) where
  irrefl a := by simp [frequency_comparator]
  trans a b c := by
    simp only [frequency_comparator, Bool.or_eq_true, Bool.and_eq_true, Bool.not_eq_true',
      decide_eq_true_eq, decide_eq_false_iff_not, not_lt]
    rintro (h1 | ⟨h1, h1'⟩) (h2 | ⟨h2, h2'⟩)
    · exact Or.inl (lt_trans h2 h1)
    · exact Or.inl (lt_of_le_of_lt h2 h1)
    · exact Or.inl (lt_of_lt_of_le h2 h1)
    · exact Or.inr ⟨le_trans h2 h1, lt_trans h2' h1'⟩
  tri a b := by
    simp only [frequency_comparator, Bool.or_eq_false_iff, Bool.and_eq_false_imp,
      Bool.not_eq_true', decide_eq_false_iff_not, not_lt]
    rintro ⟨h1, h1'⟩ ⟨h2, h2'⟩
    exact Prod.ext (le_antisymm (h1' h2) (h2' h1)) (le_antisymm h1 h2)

theorem mapFind?_mapIncr (k x : Item) (m : List (Item × Nat)) :
    mapFind? x (mapIncr k m) =
      if x = k then some ((mapFind? k m).getD 0 + 1) else mapFind? x m := by
  induction m with
  | nil =>
    simp only [mapIncr, mapFind?]
    rcases lt_trichotomy x k with h | h | h
    · simp [h, ne_of_lt h]
    · subst h; simp
    · simp [h, not_lt_of_lt h, ne_of_gt h]
  | cons p m ih =>
    obtain ⟨k', v⟩ := p
    simp only [mapIncr]
    rcases lt_trichotomy k k' with h | h | h
    · simp only [h, if_true, mapFind?]
      rcases lt_trichotomy x k with h2 | h2 | h2
      · simp [h2, ne_of_lt h2, lt_trans h2 h]
      · subst h2; simp [h]
      · simp [h2, not_lt_of_lt h2, ne_of_gt h2]
    · subst h
      simp only [lt_irrefl, if_false, mapFind?]
      rcases lt_trichotomy x k with h2 | h2 | h2
      · simp [h2, ne_of_lt h2]
      · subst h2; simp
      · simp [h2, not_lt_of_lt h2, ne_of_gt h2]
    · simp only [not_lt_of_lt h, h, if_false, if_true, mapFind?, ih]
      rcases lt_trichotomy x k' with h2 | h2 | h2
      · simp [h2, ne_of_lt (lt_trans h2 h)]
      · subst h2; simp [ne_of_lt h]
      · simp [h2, not_lt_of_lt h2]

theorem mapIncr_keys (k : Item) (m : List (Item × Nat)) {p : Item × Nat}
    (hp : p ∈ mapIncr k m) : p.1 = k ∨ ∃ q ∈ m, q.1 = p.1 := by
  induction m with
  | nil => simp only [mapIncr, List.mem_singleton] at hp; exact Or.inl (by rw [hp])
  | cons q m ih =>
    obtain ⟨k', v⟩ := q
    simp only [mapIncr] at hp
    split_ifs at hp with h1 h2
    · rcases List.mem_cons.1 hp with hp | hp
      · exact Or.inl (by rw [hp])
      · exact Or.inr ⟨p, hp, rfl⟩
    · rcases List.mem_cons.1 hp with hp | hp
      · exact Or.inr ⟨(k', v), List.mem_cons_self _ _, by rw [hp]⟩
      · rcases ih hp with h | ⟨q, hq, e⟩
        · exact Or.inl h
        · exact Or.inr ⟨q, List.mem_cons_of_mem _ hq, e⟩
    · rcases List.mem_cons.1 hp with hp | hp
      · exact Or.inr ⟨(k', v), List.mem_cons_self _ _, by rw [hp]⟩
      · exact Or.inr ⟨p, List.mem_cons_of_mem _ hp, rfl⟩

theorem mapIncr_sorted (k : Item) {m : List (Item × Nat)}
    (hm : m.Pairwise (fun a b => a.1 < b.1)) :
    (mapIncr k m).Pairwise (fun a b => a.1 < b.1) := by
  induction m with
  | nil => simp [mapIncr]
  | cons q m ih =>
    obtain ⟨k', v⟩ := q
    have hq := List.pairwise_cons.1 hm
    simp only [mapIncr]
    split_ifs with h1 h2
    · refine List.pairwise_cons.2 ⟨?_, hm⟩
      intro a ha
      rcases List.mem_cons.1 ha with ha | ha
      · rw [ha]; exact h1
      · exact lt_trans h1 (hq.1 a ha)
    · refine List.pairwise_cons.2 ⟨?_, ih hq.2⟩
      intro a ha
      rcases mapIncr_keys k m ha with h | ⟨q, hq', e⟩
      · show k' < a.1
        rw [h]; exact h2
      · show k' < a.1
        rw [← e]; exact hq.1 q hq'
    · exact List.pairwise_cons.2 ⟨fun a ha => hq.1 a ha, hq.2⟩

theorem mem_iff_mapFind? {V : Type} {m : List (Item × V)}
    (hm : m.Pairwise (fun a b => a.1 < b.1)) (x : Item) (v : V) :
    (x, v) ∈ m ↔ mapFind? x m = some v := by
  induction m with
  | nil => simp [mapFind?]
  | cons q m ih =>
    obtain ⟨k', v'⟩ := q
    have hq := List.pairwise_cons.1 hm
    simp only [mapFind?, List.mem_cons, Prod.mk.injEq]
    rcases lt_trichotomy x k' with h | h | h
    · simp only [h, if_true, ne_of_lt h, false_and, false_or]
      constructor
      · intro hx
        exact absurd (hq.1 _ hx) (not_lt_of_lt h)
      · intro hx; cases hx
    · subst h
      simp only [lt_irrefl, if_false, true_and, Option.some.injEq]
      constructor
      · rintro (h | h)
        · exact h.symm
        · exact absurd (hq.1 _ h) (lt_irrefl _)
      · intro h; exact Or.inl h.symm
    · simp only [not_lt_of_lt h, h, if_false, if_true, ne_of_gt h, false_and, false_or]
      exact ih hq.2

theorem foldl_mapIncr_sorted (l : List Item) {m : List (Item × Nat)}
    (hm : m.Pairwise (fun a b => a.1 < b.1)) :
    (l.foldl (fun m item => mapIncr item m) m).Pairwise (fun a b => a.1 < b.1) := by
  induction l generalizing m with
  | nil => exact hm
  | cons a l ih => exact ih (mapIncr_sorted a hm)

theorem foldl_mapIncr_find (l : List Item) (m : List (Item × Nat)) (c : Item → Nat)
    (hm : ∀ x, mapFind? x m = counter (c x)) (x : Item) :
    mapFind? x (l.foldl (fun m item => mapIncr item m) m) = counter (c x + l.count x) := by
  induction l generalizing m c with
  | nil => simpa using hm x
  | cons a l ih =>
    rw [List.foldl_cons, ih (mapIncr a m) (fun y => c y + if y = a then 1 else 0)]
    · congr 1
      rw [List.count_cons]
      by_cases h : x = a
      · subst h; simp; omega
      · have : ¬ (a == x) = true := by simpa using fun e => h e.symm
        simp [h, this]
    · intro y
      rw [mapFind?_mapIncr]
      by_cases h : y = a
      · subst h
        simp only [if_true, hm]
        unfold counter
        by_cases h0 : c y = 0 <;> simp [h0]
      · simp [h, hm]

theorem count_items_sorted_gen (txs : List (Transaction Item)) {m : List (Item × Nat)}
    (hm : m.Pairwise (fun a b => a.1 < b.1)) :
    (txs.foldl (fun m transaction => transaction.foldl (fun m item => mapIncr item m) m) m).Pairwise
      (fun a b => a.1 < b.1) := by
  induction txs generalizing m with
  | nil => exact hm
  | cons tx txs ih => exact ih (foldl_mapIncr_sorted tx hm)

theorem count_items_find_gen (txs : List (Transaction Item)) (m : List (Item × Nat))
    (c : Item → Nat) (hm : ∀ x, mapFind? x m = counter (c x)) (x : Item) :
    mapFind? x (txs.foldl (fun m transaction => transaction.foldl (fun m item => mapIncr item m) m) m)
      = counter (c x + tally txs x) := by
  induction txs generalizing m c with
  | nil => simpa [tally] using hm x
  | cons tx txs ih =>
    rw [List.foldl_cons, ih _ (fun y => c y + tx.count y) (fun y => foldl_mapIncr_find tx m c hm y)]
    simp [tally, Nat.add_assoc]

theorem count_items_sorted (txs : List (Transaction Item)) :
    (count_items txs).Pairwise (fun a b => a.1 < b.1) :=
  count_items_sorted_gen txs List.Pairwise.nil

theorem mem_count_items (txs : List (Transaction Item)) (x : Item) (n : Nat) :
    (x, n) ∈ count_items txs ↔ n = tally txs x ∧ 0 < n := by
  rw [mem_iff_mapFind? (count_items_sorted txs)]
  have := count_items_find_gen txs [] (fun _ => 0) (fun y => by simp [mapFind?, counter]) x
  simp only [Nat.zero_add] at this
  rw [count_items, this, counter]
  split_ifs with h
  · simp; omega
  · simp; omega

theorem mem_frequent_items (txs : List (Transaction Item)) (t : Nat) (x : Item) (n : Nat) :
    (x, n) ∈ frequent_items txs t ↔ n = tally txs x ∧ 0 < n ∧ t ≤ n := by
  simp [frequent_items, List.mem_filter, mem_count_items, and_assoc]

theorem mem_items_ordered_by_frequency (txs : List (Transaction Item)) (t : Nat) (x : Item)
    (n : Nat) :
    (x, n) ∈ items_ordered_by_frequency txs t ↔ n = tally txs x ∧ 0 < n ∧ t ≤ n := by
  rw [items_ordered_by_frequency, mem_setInsertAll strictTotal_frequency_comparator]
  simp [mem_frequent_items]

theorem mem_ordered_items (txs : List (Transaction Item)) (t : Nat) (x : Item) :
    x ∈ ordered_items txs t ↔ 0 < tally txs x ∧ t ≤ tally txs x := by
  simp only [ordered_items, List.mem_map, Prod.exists, exists_and_right, exists_eq_right,
    mem_items_ordered_by_frequency]
  constructor
  · rintro ⟨n, rfl, h⟩; exact h
  · intro h; exact ⟨_, rfl, h⟩

theorem nodup_ordered_items (txs : List (Transaction Item)) (t : Nat) :
    (ordered_items txs t).Nodup := by
  have hs : (items_ordered_by_frequency txs t).Nodup :=
    nodup_of_sorted strictTotal_frequency_comparator
      (sorted_setInsertAll strictTotal_frequency_comparator _ List.Pairwise.nil)
  refine (List.nodup_map_iff_inj_on hs).2 ?_
  rintro ⟨x, n⟩ hx ⟨y, m⟩ hy e
  simp only at e
  subst e
  rw [mem_items_ordered_by_frequency] at hx hy
  rw [hx.1, hy.1]

theorem tally_pos_iff (txs : List (Transaction Item)) (x : Item) :
    0 < tally txs x ↔ ∃ tx ∈ txs, x ∈ tx := by
  induction txs with
  | nil => simp [tally]
  | cons tx txs ih =>
    have : tally (tx :: txs) x = tx.count x + tally txs x := by simp [tally]
    rw [this, Nat.add_pos_iff_pos_or_pos, ih, List.count_pos_iff]
    simp

theorem getNode_set (nodes : List (FPNode Item)) (i j : Nat) (v : FPNode Item) :
    getNode (nodes.set i v) j = if i = j ∧ i < nodes.length then v else getNode nodes j := by
  simp only [getNode, List.getD_eq_getElem?_getD, List.getElem?_set]
  by_cases h : i = j
  · subst h
    by_cases h2 : i < nodes.length
    · simp [h2]
    · simp [h2, List.getElem?_eq_none (not_lt.1 h2)]
  · simp [h]

theorem getNode_append_left (nodes : List (FPNode Item)) (v : FPNode Item) {j : Nat}
    (h : j < nodes.length) : getNode (nodes ++ [v]) j = getNode nodes j := by
  simp [getNode, List.getD_eq_getElem?_getD, List.getElem?_append, h]

theorem getNode_append_right (nodes : List (FPNode Item)) (v : FPNode Item) :
    getNode (nodes ++ [v]) nodes.length = v := by
  simp [getNode, List.getD_eq_getElem?_getD, List.getElem?_append]

theorem getD_append_left {α : Type} (l : List α) (v d : α) {j : Nat} (h : j < l.length) :
    (l ++ [v]).getD j d = l.getD j d := by
  simp [List.getD_eq_getElem?_getD, List.getElem?_append, h]

theorem getD_append_right {α : Type} (l : List α) (v d : α) :
    (l ++ [v]).getD l.length d = v := by
  simp [List.getD_eq_getElem?_getD, List.getElem?_append]

theorem getD_mem {α : Type} (l : List α) (d : α) {j : Nat} (h : j < l.length) :
    l.getD j d ∈ l := by
  rw [List.getD_eq_getElem?_getD, List.getElem?_eq_getElem h]
  exact List.getElem_mem h

theorem getD_inj_of_nodup {α : Type} {l : List α} (hl : l.Nodup) (d : α) {i j : Nat}
    (hi : i < l.length) (hj : j < l.length) (e : l.getD i d = l.getD j d) : i = j := by
  rw [List.getD_eq_getElem?_getD, List.getD_eq_getElem?_getD, List.getElem?_eq_getElem hi,
    List.getElem?_eq_getElem hj] at e
  exact (List.Nodup.getElem_inj_iff hl).1 (by simpa using e)

theorem exists_getD_of_mem {α : Type} {l : List α} (d : α) {a : α} (h : a ∈ l) :
    ∃ i, i < l.length ∧ l.getD i d = a := by
  obtain ⟨i, hi, e⟩ := List.getElem_of_mem h
  exact ⟨i, hi, by rw [List.getD_eq_getElem?_getD, List.getElem?_eq_getElem hi]; simpa using e⟩

theorem IsChain.frame {nodes nodes' : List (FPNode Item)} {start : Option Nat} {l : List Nat}
    (h : IsChain nodes start l)
    (hl : ∀ i ∈ l, (getNode nodes' i).node_link = (getNode nodes i).node_link) :
    IsChain nodes' start l := by
  induction h with
  | nil => exact IsChain.nil
  | cons i l _ ih =>
    refine IsChain.cons i l ?_
    rw [hl i (List.mem_cons_self _ _)]
    exact ih (fun j hj => hl j (List.mem_cons_of_mem _ hj))

theorem IsChain.start_eq {nodes : List (FPNode Item)} {start : Option Nat} {l : List Nat}
    (h : IsChain nodes start l) : start = l.head? := by
  cases h <;> rfl

theorem chain_tail_eq {nodes : List (FPNode Item)} (l : List Nat) (h : Nat) (fuel : Nat)
    (hc : IsChain nodes (some h) l) (hf : l.length ≤ fuel + 1) :
    ∃ init, l = init ++ [chain_tail nodes fuel h] := by
  induction fuel generalizing l h with
  | zero =>
    cases hc with
    | cons i l' hc' =>
      cases l' with
      | nil => exact ⟨[], rfl⟩
      | cons a l'' => simp at hf
  | succ fuel ih =>
    cases hc with
    | cons i l' hc' =>
      simp only [chain_tail]
      cases hlink : (getNode nodes h).node_link with
      | none =>
        rw [hlink] at hc'
        cases hc'
        exact ⟨[], rfl⟩
      | some next =>
        rw [hlink] at hc'
        obtain ⟨init, e⟩ := ih l' next hc' (by simpa using hf)
        exact ⟨h :: init, by rw [e]; rfl⟩

theorem IsChain.snoc {nodes nodes' : List (FPNode Item)} (init : List Nat) (last n : Nat)
    (h : Nat) (hc : IsChain nodes (some h) (init ++ [last]))
    (hnd : (init ++ [last]).Nodup)
    (hframe : ∀ j, j ≠ last → (getNode nodes' j).node_link = (getNode nodes j).node_link)
    (hlast : (getNode nodes' last).node_link = some n)
    (hn : (getNode nodes' n).node_link = none) :
    IsChain nodes' (some h) (init ++ [last] ++ [n]) := by
  induction init generalizing h with
  | nil =>
    cases hc with
    | cons i l hc' =>
      refine IsChain.cons _ _ ?_
      rw [hlast]
      refine IsChain.cons _ _ ?_
      rw [hn]
      exact IsChain.nil
  | cons a init ih =>
    cases hc with
    | cons i l hc' =>
      have hne : a ≠ last := by
        intro e
        have := (List.nodup_cons.1 hnd).1
        simp [e] at this
      refine IsChain.cons _ _ ?_
      rw [hframe a hne]
      have hs := hc'.start_eq
      cases hlink : (getNode nodes a).node_link with
      | none =>
        rw [hlink] at hs
        cases init <;> simp at hs
      | some next =>
        rw [hlink] at hc'
        exact ih next hc' (List.nodup_cons.1 hnd).2

theorem mapFind?_mapSet {V : Type} (k x : Item) (v : V) (m : List (Item × V)) :
    mapFind? x (mapSet k v m) = if x = k then some v else mapFind? x m := by
  induction m with
  | nil =>
    simp only [mapSet, mapFind?]
    rcases lt_trichotomy x k with h | h | h
    · simp [h, ne_of_lt h]
    · subst h; simp
    · simp [h, not_lt_of_lt h, ne_of_gt h]
  | cons p m ih =>
    obtain ⟨k', v'⟩ := p
    simp only [mapSet]
    rcases lt_trichotomy k k' with h | h | h
    · simp only [h, if_true, mapFind?]
      rcases lt_trichotomy x k with h2 | h2 | h2
      · simp [h2, ne_of_lt h2, lt_trans h2 h]
      · subst h2; simp [h]
      · simp [h2, not_lt_of_lt h2, ne_of_gt h2]
    · subst h
      simp only [lt_irrefl, if_false, mapFind?]
      rcases lt_trichotomy x k with h2 | h2 | h2
      · simp [h2, ne_of_lt h2]
      · subst h2; simp
      · simp [h2, not_lt_of_lt h2, ne_of_gt h2]
    · simp only [not_lt_of_lt h, h, if_false, if_true, mapFind?, ih]
      rcases lt_trichotomy x k' with h2 | h2 | h2
      · simp [h2, ne_of_lt (lt_trans h2 h)]
      · subst h2; simp [ne_of_lt h]
      · simp [h2, not_lt_of_lt h2]

theorem mapSet_keys {V : Type} (k : Item) (v : V) (m : List (Item × V)) {p : Item × V}
    (hp : p ∈ mapSet k v m) : p.1 = k ∨ ∃ q ∈ m, q.1 = p.1 := by
  induction m with
  | nil => simp only [mapSet, List.mem_singleton] at hp; exact Or.inl (by rw [hp])
  | cons q m ih =>
    obtain ⟨k', v'⟩ := q
    simp only [mapSet] at hp
    split_ifs at hp with h1 h2
    · rcases List.mem_cons.1 hp with hp | hp
      · exact Or.inl (by rw [hp])
      · exact Or.inr ⟨p, hp, rfl⟩
    · rcases List.mem_cons.1 hp with hp | hp
      · exact Or.inr ⟨(k', v'), List.mem_cons_self _ _, by rw [hp]⟩
      · rcases ih hp with h | ⟨q, hq, e⟩
        · exact Or.inl h
        · exact Or.inr ⟨q, List.mem_cons_of_mem _ hq, e⟩
    · rcases List.mem_cons.1 hp with hp | hp
      · exact Or.inr ⟨(k', v'), List.mem_cons_self _ _, by rw [hp]⟩
      · exact Or.inr ⟨p, List.mem_cons_of_mem _ hp, rfl⟩

theorem mapSet_sorted {V : Type} (k : Item) (v : V) {m : List (Item × V)}
    (hm : m.Pairwise (fun a b => a.1 < b.1)) :
    (mapSet k v m).Pairwise (fun a b => a.1 < b.1) := by
  induction m with
  | nil => simp [mapSet]
  | cons q m ih =>
    obtain ⟨k', v'⟩ := q
    have hq := List.pairwise_cons.1 hm
    simp only [mapSet]
    split_ifs with h1 h2
    · refine List.pairwise_cons.2 ⟨?_, hm⟩
      intro a ha
      rcases List.mem_cons.1 ha with ha | ha
      · rw [ha]; exact h1
      · exact lt_trans h1 (hq.1 a ha)
    · refine List.pairwise_cons.2 ⟨?_, ih hq.2⟩
      intro a ha
      rcases mapSet_keys k v m ha with h | ⟨q, hq', e⟩
      · show k' < a.1
        rw [h]; exact h2
      · show k' < a.1
        rw [← e]; exact hq.1 q hq'
    · exact List.pairwise_cons.2 ⟨fun a ha => hq.1 a ha, hq.2⟩

theorem ShapeInv.congr_shape {nodes nodes' : List (FPNode Item)} {seqs paths : List (List Item)}
    (h : ShapeInv nodes seqs paths) (hlen : nodes'.length = nodes.length)
    (hi : ∀ j, (getNode nodes' j).item = (getNode nodes j).item)
    (hf : ∀ j, (getNode nodes' j).frequency = (getNode nodes j).frequency)
    (hp : ∀ j, (getNode nodes' j).parent = (getNode nodes j).parent)
    (hc : ∀ j, (getNode nodes' j).children = (getNode nodes j).children) :
    ShapeInv nodes' seqs paths where
  length_eq := by rw [hlen]; exact h.length_eq
  root_path := h.root_path
  root_parent := by rw [hp]; exact h.root_parent
  parent_path i h0 hlt := by
    rw [hp, hi]; exact h.parent_path i h0 (hlen ▸ hlt)
  nodup := h.nodup
  children_iff i j hlt := by
    rw [hc, hp, hlen]; exact h.children_iff i j (hlen ▸ hlt)
  children_nodup i hlt := by
    rw [hc]; exact h.children_nodup i (hlen ▸ hlt)
  frequency_eq i h0 hlt := by
    rw [hf]; exact h.frequency_eq i h0 (hlen ▸ hlt)
  mem_paths := h.mem_paths

theorem occurrences_congr {nodes nodes' : List (FPNode Item)} (hlen : nodes'.length = nodes.length)
    (hi : ∀ j, (getNode nodes' j).item = (getNode nodes j).item) (x : Item) :
    occurrences nodes' x = occurrences nodes x := by
  simp only [occurrences, hlen, hi]

theorem LinkInv.congr_link {nodes nodes' : List (FPNode Item)} {header : List (Item × Nat)}
    (h : LinkInv nodes header) (hlen : nodes'.length = nodes.length)
    (hi : ∀ j, (getNode nodes' j).item = (getNode nodes j).item)
    (hl : ∀ j, (getNode nodes' j).node_link = (getNode nodes j).node_link) :
    LinkInv nodes' header where
  header_sorted := h.header_sorted
  chain x := by
    rw [occurrences_congr hlen hi]
    exact (h.chain x).frame (fun j _ => hl j)

theorem ShapeInv.path_root {nodes : List (FPNode Item)} {seqs paths : List (List Item)}
    (h : ShapeInv nodes seqs paths) : 0 < nodes.length ∧ paths.getD 0 [] = [] := by
  have := h.root_path
  cases hp : paths with
  | nil => rw [hp] at this; simp at this
  | cons q ps =>
    rw [hp] at this
    simp only [List.head?_cons, Option.some.injEq] at this
    refine ⟨?_, by simp [this]⟩
    rw [← h.length_eq, hp]; simp

theorem ShapeInv.child_path {nodes : List (FPNode Item)} {seqs paths : List (List Item)}
    (h : ShapeInv nodes seqs paths) {curr c : Nat} (hcurr : curr < nodes.length)
    (hc : c ∈ (getNode nodes curr).children) :
    0 < c ∧ c < nodes.length ∧ (getNode nodes c).parent = some curr ∧
      paths.getD c [] = paths.getD curr [] ++ [(getNode nodes c).item] := by
  obtain ⟨hlt, hpar⟩ := (h.children_iff curr c hcurr).1 hc
  have h0 : 0 < c := by
    rcases Nat.eq_zero_or_pos c with e | e
    · rw [e, h.root_parent] at hpar; cases hpar
    · exact e
  obtain ⟨p, hp, _, hpath⟩ := h.parent_path c h0 hlt
  rw [hpar] at hp
  cases hp
  exact ⟨h0, hlt, hpar, hpath⟩

theorem ShapeInv.path_ne_nil {nodes : List (FPNode Item)} {seqs paths : List (List Item)}
    (h : ShapeInv nodes seqs paths) {i : Nat} (h0 : 0 < i) (hlt : i < nodes.length) :
    paths.getD i [] ≠ [] := by
  obtain ⟨p, _, _, hpath⟩ := h.parent_path i h0 hlt
  rw [hpath]; simp

/-- A node whose path is `path curr ++ [a]` is a child of `curr` carrying `a`. -/
theorem ShapeInv.child_of_path {nodes : List (FPNode Item)} {seqs paths : List (List Item)}
    (h : ShapeInv nodes seqs paths) {curr j : Nat} {a : Item} (hcurr : curr < nodes.length)
    (hj : j < nodes.length) (e : paths.getD j [] = paths.getD curr [] ++ [a]) :
    j ∈ (getNode nodes curr).children ∧ (getNode nodes j).item = a := by
  have h0 : 0 < j := by
    rcases Nat.eq_zero_or_pos j with e0 | e0
    · rw [e0, h.path_root.2] at e; simp at e
    · exact e0
  obtain ⟨p, hp, hpj, hpath⟩ := h.parent_path j h0 hj
  rw [e] at hpath
  have := List.append_inj' hpath (by simp)
  have hpc : curr = p :=
    getD_inj_of_nodup h.nodup [] (h.length_eq ▸ hcurr) (h.length_eq ▸ (lt_trans hpj hj)) this.1
  subst hpc
  refine ⟨(h.children_iff curr j hcurr).2 ⟨hj, hp⟩, ?_⟩
  simpa using this.2.symm

theorem countP_step {done : List Item} {a : Item}
    (prev : List (List Item)) (q : List Item) (hq : q ≠ done ++ [a]) :
    ((done ++ [a]) :: prev).countP (fun s => decide (q <+: s)) =
      (done :: prev).countP (fun s => decide (q <+: s)) := by
  have : q <+: done ++ [a] ↔ q <+: done := by
    rw [List.prefix_concat_iff]
    simp [hq]
  simp only [List.countP_cons, decide_eq_true_eq, this]

theorem ShapeInv.increment {nodes : List (FPNode Item)} {done : List Item}
    {prev paths : List (List Item)} (a : Item) (curr c : Nat)
    (h : ShapeInv nodes (done :: prev) paths) (hcurr : curr < nodes.length)
    (hpath : paths.getD curr [] = done) (hc : c ∈ (getNode nodes curr).children)
    (hitem : (getNode nodes c).item = a) :
    ShapeInv (nodes.set c { getNode nodes c with frequency := (getNode nodes c).frequency + 1 })
      ((done ++ [a]) :: prev) paths ∧ c < nodes.length ∧ paths.getD c [] = done ++ [a] := by
  obtain ⟨h0, hlt, hpar, hcp⟩ := h.child_path hcurr hc
  rw [hpath, hitem] at hcp
  refine ⟨?_, hlt, hcp⟩
  have hget : ∀ j, getNode (nodes.set c
      { getNode nodes c with frequency := (getNode nodes c).frequency + 1 }) j =
      if c = j then { getNode nodes c with frequency := (getNode nodes c).frequency + 1 }
      else getNode nodes j := by
    intro j; rw [getNode_set]; simp [hlt]
  have hi : ∀ j, (getNode (nodes.set c
      { getNode nodes c with frequency := (getNode nodes c).frequency + 1 }) j).item
      = (getNode nodes j).item := by
    intro j; rw [hget]; split_ifs with e <;> simp [e]
  have hp : ∀ j, (getNode (nodes.set c
      { getNode nodes c with frequency := (getNode nodes c).frequency + 1 }) j).parent
      = (getNode nodes j).parent := by
    intro j; rw [hget]; split_ifs with e
    · subst e; rfl
    · rfl
  have hch : ∀ j, (getNode (nodes.set c
      { getNode nodes c with frequency := (getNode nodes c).frequency + 1 }) j).children
      = (getNode nodes j).children := by
    intro j; rw [hget]; split_ifs with e
    · subst e; rfl
    · rfl
  have hlen : (nodes.set c
      { getNode nodes c with frequency := (getNode nodes c).frequency + 1 }).length
      = nodes.length := List.length_set _ _ _
  refine
    { length_eq := by rw [hlen]; exact h.length_eq
      root_path := h.root_path
      root_parent := by rw [hp]; exact h.root_parent
      parent_path := fun i hi0 hil => by
        rw [hp, hi]; exact h.parent_path i hi0 (hlen ▸ hil)
      nodup := h.nodup
      children_iff := fun i j hil => by
        rw [hch, hp, hlen]; exact h.children_iff i j (hlen ▸ hil)
      children_nodup := fun i hil => by
        rw [hch]; exact h.children_nodup i (hlen ▸ hil)
      frequency_eq := ?_
      mem_paths := ?_ }
  · intro i hi0 hil
    rw [hlen] at hil
    rw [hget]
    by_cases e : c = i
    · subst e
      simp only [if_true]
      rw [h.frequency_eq c hi0 hil, hcp]
      have : ¬ (done ++ [a] <+: done) := by
        intro hpre
        have := hpre.length_le
        simp at this
      simp [List.countP_cons, this]
    · simp only [e, if_false]
      rw [h.frequency_eq i hi0 hil]
      refine (countP_step prev _ ?_).symm
      intro e2
      rw [← hcp] at e2
      exact e (getD_inj_of_nodup h.nodup [] (h.length_eq ▸ hil) (h.length_eq ▸ hlt) e2).symm
  · intro q
    rw [h.mem_paths]
    constructor
    · rintro (e | ⟨s, hs, hq⟩)
      · exact Or.inl e
      · rcases List.mem_cons.1 hs with e | hs'
        · subst e
          exact Or.inr ⟨_, List.mem_cons_self _ _, hq.trans (List.prefix_append _ _)⟩
        · exact Or.inr ⟨s, List.mem_cons_of_mem _ hs', hq⟩
    · rintro (e | ⟨s, hs, hq⟩)
      · exact Or.inl e
      · rcases List.mem_cons.1 hs with e | hs'
        · subst e
          rcases List.prefix_concat_iff.1 hq with e2 | hq'
          · rw [e2, ← hcp]
            exact (h.mem_paths _).1 (getD_mem _ _ (h.length_eq ▸ hlt))
          · exact Or.inr ⟨done, List.mem_cons_self _ _, hq'⟩
        · exact Or.inr ⟨s, List.mem_cons_of_mem _ hs', hq⟩

theorem ShapeInv.allocate {nodes : List (FPNode Item)} {done : List Item}
    {prev paths : List (List Item)} (a : Item) (curr : Nat)
    (h : ShapeInv nodes (done :: prev) paths) (hcurr : curr < nodes.length)
    (hpath : paths.getD curr [] = done)
    (hnone : ∀ c ∈ (getNode nodes curr).children, (getNode nodes c).item ≠ a) :
    ShapeInv
      ((nodes.set curr { getNode nodes curr with
          children := (getNode nodes curr).children ++ [nodes.length] })
        ++ [FPNode.new a (some curr)])
      ((done ++ [a]) :: prev) (paths ++ [done ++ [a]]) := by
  have hnew : done ++ [a] ∉ paths := by
    intro hmem
    obtain ⟨j, hj, e⟩ := exists_getD_of_mem [] hmem
    rw [← hpath] at e
    obtain ⟨hjc, hja⟩ := h.child_of_path hcurr (h.length_eq ▸ hj) e
    exact hnone j hjc hja
  have hlen1 : (nodes.set curr { getNode nodes curr with
      children := (getNode nodes curr).children ++ [nodes.length] }).length = nodes.length :=
    List.length_set _ _ _
  have hold : ∀ j, j < nodes.length →
      getNode ((nodes.set curr { getNode nodes curr with
          children := (getNode nodes curr).children ++ [nodes.length] })
        ++ [FPNode.new a (some curr)]) j =
      if curr = j then { getNode nodes curr with
          children := (getNode nodes curr).children ++ [nodes.length] }
      else getNode nodes j := by
    intro j hj
    rw [getNode_append_left _ _ (by rw [hlen1]; exact hj), getNode_set]
    simp [hcurr]
  have hnewnode : getNode ((nodes.set curr { getNode nodes curr with
          children := (getNode nodes curr).children ++ [nodes.length] })
        ++ [FPNode.new a (some curr)]) nodes.length = FPNode.new a (some curr) := by
    have := getNode_append_right (nodes.set curr { getNode nodes curr with
          children := (getNode nodes curr).children ++ [nodes.length] }) (FPNode.new a (some curr))
    rwa [hlen1] at this
  generalize hn1 : (nodes.set curr { getNode nodes curr with
          children := (getNode nodes curr).children ++ [nodes.length] })
        ++ [FPNode.new a (some curr)] = nodes1 at hold hnewnode
  have hlen : nodes1.length = nodes.length + 1 := by
    rw [← hn1, List.length_append, hlen1]; rfl
  have hi : ∀ j, j < nodes.length → (getNode nodes1 j).item = (getNode nodes j).item := by
    intro j hj; rw [hold j hj]; split_ifs with e
    · subst e; rfl
    · rfl
  have hp : ∀ j, j < nodes.length → (getNode nodes1 j).parent = (getNode nodes j).parent := by
    intro j hj; rw [hold j hj]; split_ifs with e
    · subst e; rfl
    · rfl
  have hf : ∀ j, j < nodes.length → (getNode nodes1 j).frequency = (getNode nodes j).frequency := by
    intro j hj; rw [hold j hj]; split_ifs with e
    · subst e; rfl
    · rfl
  have hpl : paths.length = nodes.length := h.length_eq
  have hpo : ∀ j, j < nodes.length → (paths ++ [done ++ [a]]).getD j [] = paths.getD j [] :=
    fun j hj => getD_append_left _ _ _ (hpl ▸ hj)
  have hpn : (paths ++ [done ++ [a]]).getD nodes.length [] = done ++ [a] := by
    rw [← hpl]; exact getD_append_right _ _ _
  have hold_ne : ∀ j, j < nodes.length → paths.getD j [] ≠ done ++ [a] :=
    fun j hj e => hnew (e ▸ getD_mem _ _ (hpl ▸ hj))
  refine
    { length_eq := by rw [hlen, List.length_append, hpl]; rfl
      root_path := ?_
      root_parent := by rw [hp 0 h.path_root.1]; exact h.root_parent
      parent_path := ?_
      nodup := ?_
      children_iff := ?_
      children_nodup := ?_
      frequency_eq := ?_
      mem_paths := ?_ }
  · have := h.root_path
    cases paths with
    | nil => simp at this
    | cons q ps => simpa using this
  · intro i hi0 hil
    rw [hlen] at hil
    rcases Nat.lt_succ_iff_lt_or_eq.1 hil with hlt | e
    · obtain ⟨p, hpp, hpi, hpath'⟩ := h.parent_path i hi0 hlt
      refine ⟨p, ?_, hpi, ?_⟩
      · rw [hp i hlt]; exact hpp
      · rw [hpo i hlt, hpo p (lt_trans hpi hlt), hi i hlt]; exact hpath'
    · subst e
      refine ⟨curr, ?_, hcurr, ?_⟩
      · rw [hnewnode]; rfl
      · rw [hpn, hpo curr hcurr, hpath, hnewnode]; rfl
  · exact List.Nodup.append h.nodup (List.nodup_singleton _) (by simpa using hnew)
  · intro i j hil
    rw [hlen] at hil
    rw [hlen]
    rcases Nat.lt_succ_iff_lt_or_eq.1 hil with hlt | e
    · rw [hold i hlt]
      by_cases ec : curr = i
      · subst ec
        simp only [if_true, List.mem_append, List.mem_singleton]
        constructor
        · rintro (hj | hj)
          · obtain ⟨hjl, hjp⟩ := (h.children_iff curr j hcurr).1 hj
            exact ⟨Nat.lt_succ_of_lt hjl, by rw [hp j hjl]; exact hjp⟩
          · subst hj
            exact ⟨Nat.lt_succ_self _, by rw [hnewnode]; rfl⟩
        · rintro ⟨hjl, hjp⟩
          rcases Nat.lt_succ_iff_lt_or_eq.1 hjl with hjlt | e
          · rw [hp j hjlt] at hjp
            exact Or.inl ((h.children_iff curr j hcurr).2 ⟨hjlt, hjp⟩)
          · exact Or.inr e
      · simp only [ec, if_false]
        rw [h.children_iff i j hlt]
        constructor
        · rintro ⟨hjl, hjp⟩
          exact ⟨Nat.lt_succ_of_lt hjl, by rw [hp j hjl]; exact hjp⟩
        · rintro ⟨hjl, hjp⟩
          rcases Nat.lt_succ_iff_lt_or_eq.1 hjl with hjlt | e
          · rw [hp j hjlt] at hjp
            exact ⟨hjlt, hjp⟩
          · subst e
            rw [hnewnode] at hjp
            simp only [FPNode.new, Option.some.injEq] at hjp
            exact absurd hjp ec
    · subst e
      rw [hnewnode]
      simp only [FPNode.new, List.not_mem_nil, false_iff, not_and]
      intro hjl hjp
      rcases Nat.lt_succ_iff_lt_or_eq.1 hjl with hjlt | e
      · rw [hp j hjlt] at hjp
        rcases Nat.eq_zero_or_pos j with e0 | e0
        · rw [e0, h.root_parent] at hjp; cases hjp
        · obtain ⟨p, hpp, hpj, _⟩ := h.parent_path j e0 hjlt
          rw [hjp] at hpp
          cases hpp
          omega
      · subst e
        rw [hnewnode] at hjp
        simp only [FPNode.new, Option.some.injEq] at hjp
        omega
  · intro i hil
    rw [hlen] at hil
    rcases Nat.lt_succ_iff_lt_or_eq.1 hil with hlt | e
    · rw [hold i hlt]
      by_cases ec : curr = i
      · subst ec
        simp only [if_true]
        refine List.Nodup.append (h.children_nodup curr hcurr) (List.nodup_singleton _) ?_
        intro x hmem hx
        rw [List.mem_singleton] at hx
        subst hx
        have := ((h.children_iff curr _ hcurr).1 hmem).1
        omega
      · simp only [ec, if_false]
        exact h.children_nodup i hlt
    · subst e
      rw [hnewnode]
      exact List.nodup_nil
  · intro i hi0 hil
    rw [hlen] at hil
    rcases Nat.lt_succ_iff_lt_or_eq.1 hil with hlt | e
    · rw [hf i hlt, hpo i hlt, h.frequency_eq i hi0 hlt]
      exact (countP_step prev _ (hold_ne i hlt)).symm
    · subst e
      rw [hnewnode, hpn]
      have hz : prev.countP (fun s => decide (done ++ [a] <+: s)) = 0 := by
        rw [List.countP_eq_zero]
        intro s hs
        simp only [decide_eq_true_eq]
        intro hpre
        exact hnew ((h.mem_paths _).2 (Or.inr ⟨s, List.mem_cons_of_mem _ hs, hpre⟩))
      simp [List.countP_cons, hz, FPNode.new]
  · intro q
    rw [List.mem_append, h.mem_paths, List.mem_singleton]
    constructor
    · rintro ((e | ⟨s, hs, hq⟩) | e)
      · exact Or.inl e
      · rcases List.mem_cons.1 hs with e | hs'
        · subst e
          exact Or.inr ⟨_, List.mem_cons_self _ _, hq.trans (List.prefix_append _ _)⟩
        · exact Or.inr ⟨s, List.mem_cons_of_mem _ hs', hq⟩
      · exact Or.inr ⟨_, List.mem_cons_self _ _, e ▸ List.prefix_refl _⟩
    · rintro (e | ⟨s, hs, hq⟩)
      · exact Or.inl (Or.inl e)
      · rcases List.mem_cons.1 hs with e | hs'
        · subst e
          rcases List.prefix_concat_iff.1 hq with e2 | hq'
          · exact Or.inr e2
          · exact Or.inl (Or.inr ⟨done, List.mem_cons_self _ _, hq'⟩)
        · exact Or.inl (Or.inr ⟨s, List.mem_cons_of_mem _ hs', hq⟩)

theorem mem_occurrences {nodes : List (FPNode Item)} {x : Item} {i : Nat} :
    i ∈ occurrences nodes x ↔ i < nodes.length ∧ 0 < i ∧ (getNode nodes i).item = x := by
  simp [occurrences, List.mem_filter]

theorem nodup_occurrences (nodes : List (FPNode Item)) (x : Item) :
    (occurrences nodes x).Nodup :=
  (List.nodup_range _).filter _

theorem length_occurrences_le (nodes : List (FPNode Item)) (x : Item) :
    (occurrences nodes x).length ≤ nodes.length := by
  have := List.length_filter_le
    (fun i => decide (0 < i) && decide ((getNode nodes i).item = x)) (List.range nodes.length)
  simpa [occurrences] using this

theorem occurrences_allocate {nodes nodes1 : List (FPNode Item)} (a : Item)
    (hpos : 0 < nodes.length) (hlen : nodes1.length = nodes.length + 1)
    (hi : ∀ j, j < nodes.length → (getNode nodes1 j).item = (getNode nodes j).item)
    (hn : (getNode nodes1 nodes.length).item = a) (x : Item) :
    occurrences nodes1 x = occurrences nodes x ++ (if x = a then [nodes.length] else []) := by
  simp only [occurrences, hlen, List.range_succ, List.filter_append]
  congr 1
  · apply List.filter_congr
    intro j hj
    rw [hi j (List.mem_range.1 hj)]
  · by_cases e : x = a
    · subst e
      simp [List.filter_cons, hn, hpos]
    · have : ¬ a = x := fun e' => e e'.symm
      simp [List.filter_cons, hn, e, this]

theorem LinkInv.allocate_first {nodes nodes1 : List (FPNode Item)} {header : List (Item × Nat)}
    {a : Item} (h : LinkInv nodes header)
    (hpos : 0 < nodes.length) (hlen : nodes1.length = nodes.length + 1)
    (hi : ∀ j, j < nodes.length → (getNode nodes1 j).item = (getNode nodes j).item)
    (hl : ∀ j, j < nodes.length → (getNode nodes1 j).node_link = (getNode nodes j).node_link)
    (hn : (getNode nodes1 nodes.length).item = a)
    (hnl : (getNode nodes1 nodes.length).node_link = none)
    (hfind : mapFind? a header = none) :
    LinkInv nodes1 (mapSet a nodes.length header) where
  header_sorted := mapSet_sorted _ _ h.header_sorted
  chain x := by
    rw [mapFind?_mapSet, occurrences_allocate a hpos hlen hi hn]
    by_cases e : x = a
    · subst e
      have hc := h.chain x
      rw [hfind] at hc
      cases hoc : occurrences nodes x with
      | nil =>
        simp only [if_true, List.nil_append]
        refine IsChain.cons _ _ ?_
        rw [hnl]
        exact IsChain.nil
      | cons i l => rw [hoc] at hc; cases hc
    · simp only [e, if_false, List.append_nil]
      exact (h.chain x).frame (fun j hj => hl j (mem_occurrences.1 hj).1)

theorem LinkInv.allocate_next {nodes nodes1 : List (FPNode Item)} {header : List (Item × Nat)}
    {a : Item} {head : Nat} (h : LinkInv nodes header)
    (hpos : 0 < nodes.length) (hlen : nodes1.length = nodes.length + 1)
    (hi : ∀ j, j < nodes.length → (getNode nodes1 j).item = (getNode nodes j).item)
    (hl : ∀ j, j < nodes.length → (getNode nodes1 j).node_link = (getNode nodes j).node_link)
    (hn : (getNode nodes1 nodes.length).item = a)
    (hnl : (getNode nodes1 nodes.length).node_link = none)
    (hfind : mapFind? a header = some head) :
    chain_tail nodes1 nodes1.length head < nodes.length ∧
    LinkInv (nodes1.set (chain_tail nodes1 nodes1.length head)
      { getNode nodes1 (chain_tail nodes1 nodes1.length head) with
        node_link := some nodes.length }) header := by
  have hc := h.chain a
  rw [hfind] at hc
  have hc1 : IsChain nodes1 (some head) (occurrences nodes a) :=
    hc.frame (fun j hj => hl j (mem_occurrences.1 hj).1)
  obtain ⟨init, hinit⟩ := chain_tail_eq _ head nodes1.length hc1
    (by have := length_occurrences_le nodes a; omega)
  generalize chain_tail nodes1 nodes1.length head = last at hinit ⊢
  have hlast_mem : last ∈ occurrences nodes a := by rw [hinit]; simp
  obtain ⟨hlast_lt, _, hlast_item⟩ := mem_occurrences.1 hlast_mem
  refine ⟨hlast_lt, ?_⟩
  have hget : ∀ j, getNode (nodes1.set last
      { getNode nodes1 last with node_link := some nodes.length }) j =
      if last = j then { getNode nodes1 last with node_link := some nodes.length }
      else getNode nodes1 j := by
    intro j; rw [getNode_set]
    have : last < nodes1.length := by omega
    simp [this]
  have hlen2 : (nodes1.set last
      { getNode nodes1 last with node_link := some nodes.length }).length = nodes.length + 1 := by
    rw [List.length_set, hlen]
  have hi2 : ∀ j, (getNode (nodes1.set last
      { getNode nodes1 last with node_link := some nodes.length }) j).item
      = (getNode nodes1 j).item := by
    intro j; rw [hget]; split_ifs with e
    · subst e; rfl
    · rfl
  have hl2 : ∀ j, j ≠ last → (getNode (nodes1.set last
      { getNode nodes1 last with node_link := some nodes.length }) j).node_link
      = (getNode nodes1 j).node_link := by
    intro j hj; rw [hget]
    have : ¬ last = j := fun e => hj e.symm
    simp [this]
  refine ⟨h.header_sorted, fun x => ?_⟩
  rw [occurrences_allocate a hpos hlen2 (fun j hj => by rw [hi2, hi j hj])
    (by rw [hi2]; exact hn)]
  by_cases e : x = a
  · subst e
    rw [hfind]
    simp only [if_true]
    rw [hinit]
    refine IsChain.snoc init last nodes.length head (hinit ▸ hc1)
      (hinit ▸ nodup_occurrences nodes x) hl2 ?_ ?_
    · rw [hget]; simp
    · rw [hl2 _ (by omega)]; exact hnl
  · simp only [e, if_false, List.append_nil]
    refine (h.chain x).frame (fun j hj => ?_)
    obtain ⟨hjl, _, hji⟩ := mem_occurrences.1 hj
    rw [hl2 j (fun e2 => e (by rw [← hji, e2, hlast_item])), hl j hjl]

/-- One insertion step of the second scan keeps the representation invariant:
the sequence inserted so far for the current transaction grows by the item. -/
theorem insert_item_inv {b : Build Item} {done : List Item} {prev paths : List (List Item)}
    (a : Item) (hinv : TreeInv b.nodes b.header_table (done :: prev) paths)
    (hcurr : b.curr_fpnode < b.nodes.length) (hpath : paths.getD b.curr_fpnode [] = done) :
    ∃ paths', TreeInv (insert_item a b).nodes (insert_item a b).header_table
        ((done ++ [a]) :: prev) paths' ∧
      (insert_item a b).curr_fpnode < (insert_item a b).nodes.length ∧
      paths'.getD (insert_item a b).curr_fpnode [] = done ++ [a] := by
  unfold insert_item
  simp only
  cases hfind : (getNode b.nodes b.curr_fpnode).children.find?
      (fun c => decide ((getNode b.nodes c).item = a)) with
  | some child =>
    simp only
    have hitem : (getNode b.nodes child).item = a := by
      simpa using List.find?_some hfind
    have hmem := List.mem_of_find?_eq_some hfind
    obtain ⟨hs, hlt, hp⟩ := hinv.shape.increment a b.curr_fpnode child hcurr hpath hmem hitem
    refine ⟨paths, ⟨hs, ?_⟩, by rw [List.length_set]; exact hlt, hp⟩
    have hget : ∀ j, getNode (b.nodes.set child
        { getNode b.nodes child with frequency := (getNode b.nodes child).frequency + 1 }) j =
        if child = j then
          { getNode b.nodes child with frequency := (getNode b.nodes child).frequency + 1 }
        else getNode b.nodes j := by
      intro j; rw [getNode_set]; simp [hlt]
    refine hinv.link.congr_link (List.length_set _ _ _) ?_ ?_
    · intro j; rw [hget]; split_ifs with e
      · subst e; rfl
      · rfl
    · intro j; rw [hget]; split_ifs with e
      · subst e; rfl
      · rfl
  | none =>
    simp only
    have hnone : ∀ c ∈ (getNode b.nodes b.curr_fpnode).children, (getNode b.nodes c).item ≠ a := by
      intro c hc
      simpa using List.find?_eq_none.1 hfind c hc
    have hs1 := hinv.shape.allocate a b.curr_fpnode hcurr hpath hnone
    have hlen0 : (b.nodes.set b.curr_fpnode { getNode b.nodes b.curr_fpnode with
        children := (getNode b.nodes b.curr_fpnode).children ++ [b.nodes.length] }).length
        = b.nodes.length := List.length_set _ _ _
    have hold : ∀ j, j < b.nodes.length →
        getNode ((b.nodes.set b.curr_fpnode { getNode b.nodes b.curr_fpnode with
            children := (getNode b.nodes b.curr_fpnode).children ++ [b.nodes.length] })
          ++ [FPNode.new a (some b.curr_fpnode)]) j =
        if b.curr_fpnode = j then { getNode b.nodes b.curr_fpnode with
            children := (getNode b.nodes b.curr_fpnode).children ++ [b.nodes.length] }
        else getNode b.nodes j := by
      intro j hj
      rw [getNode_append_left _ _ (by rw [hlen0]; exact hj), getNode_set]
      simp [hcurr]
    have hnewnode : getNode ((b.nodes.set b.curr_fpnode { getNode b.nodes b.curr_fpnode with
            children := (getNode b.nodes b.curr_fpnode).children ++ [b.nodes.length] })
          ++ [FPNode.new a (some b.curr_fpnode)]) b.nodes.length
          = FPNode.new a (some b.curr_fpnode) := by
      have := getNode_append_right (b.nodes.set b.curr_fpnode { getNode b.nodes b.curr_fpnode with
            children := (getNode b.nodes b.curr_fpnode).children ++ [b.nodes.length] })
          (FPNode.new a (some b.curr_fpnode))
      rwa [hlen0] at this
    generalize hn1 : (b.nodes.set b.curr_fpnode { getNode b.nodes b.curr_fpnode with
            children := (getNode b.nodes b.curr_fpnode).children ++ [b.nodes.length] })
          ++ [FPNode.new a (some b.curr_fpnode)] = nodes1 at hold hnewnode hs1
    have hlen : nodes1.length = b.nodes.length + 1 := by
      rw [← hn1, List.length_append, hlen0]; rfl
    have hi : ∀ j, j < b.nodes.length → (getNode nodes1 j).item = (getNode b.nodes j).item := by
      intro j hj; rw [hold j hj]; split_ifs with e
      · subst e; rfl
      · rfl
    have hl : ∀ j, j < b.nodes.length →
        (getNode nodes1 j).node_link = (getNode b.nodes j).node_link := by
      intro j hj; rw [hold j hj]; split_ifs with e
      · subst e; rfl
      · rfl
    have hpos := hinv.shape.path_root.1
    have hpn : (paths ++ [done ++ [a]]).getD b.nodes.length [] = done ++ [a] := by
      rw [← hinv.shape.length_eq]; exact getD_append_right _ _ _
    cases hhead : mapFind? a b.header_table with
    | none =>
      simp only
      refine ⟨paths ++ [done ++ [a]], ⟨hs1, ?_⟩, by omega, hpn⟩
      exact hinv.link.allocate_first hpos hlen hi hl (by rw [hnewnode]; rfl)
        (by rw [hnewnode]; rfl) hhead
    | some head =>
      simp only
      obtain ⟨hlast, hlink⟩ := hinv.link.allocate_next hpos hlen hi hl (by rw [hnewnode]; rfl)
        (by rw [hnewnode]; rfl) hhead
      refine ⟨paths ++ [done ++ [a]], ⟨?_, hlink⟩, by rw [List.length_set]; omega, hpn⟩
      have hget : ∀ j, getNode (nodes1.set (chain_tail nodes1 nodes1.length head)
          { getNode nodes1 (chain_tail nodes1 nodes1.length head) with
            node_link := some b.nodes.length }) j =
          if chain_tail nodes1 nodes1.length head = j then
            { getNode nodes1 (chain_tail nodes1 nodes1.length head) with
              node_link := some b.nodes.length }
          else getNode nodes1 j := by
        intro j; rw [getNode_set]
        have : chain_tail nodes1 nodes1.length head < nodes1.length := by omega
        simp [this]
      refine hs1.congr_shape (List.length_set _ _ _) ?_ ?_ ?_ ?_ <;>
      · intro j; rw [hget]; split_ifs with e
        · subst e; rfl
        · rfl

theorem ShapeInv.of_perm {nodes : List (FPNode Item)} {seqs seqs' paths : List (List Item)}
    (h : ShapeInv nodes seqs paths) (hp : seqs.Perm seqs') : ShapeInv nodes seqs' paths :=
  { h with
    frequency_eq := fun i h0 hl => by rw [h.frequency_eq i h0 hl]; exact hp.countP_eq _
    mem_paths := fun q => by
      rw [h.mem_paths]
      constructor
      · rintro (e | ⟨s, hs, hq⟩)
        · exact Or.inl e
        · exact Or.inr ⟨s, hp.mem_iff.1 hs, hq⟩
      · rintro (e | ⟨s, hs, hq⟩)
        · exact Or.inl e
        · exact Or.inr ⟨s, hp.mem_iff.2 hs, hq⟩ }

/-- Starting a new transaction at the root: the empty sequence has been inserted. -/
theorem ShapeInv.start {nodes : List (FPNode Item)} {seqs paths : List (List Item)}
    (h : ShapeInv nodes seqs paths) : ShapeInv nodes ([] :: seqs) paths :=
  { h with
    frequency_eq := fun i h0 hl => by
      rw [h.frequency_eq i h0 hl]
      have : decide (paths.getD i [] <+: []) = false := by
        rw [decide_eq_false_iff_not, List.prefix_nil]
        exact h.path_ne_nil h0 hl
      rw [List.countP_cons, this]
      rfl
    mem_paths := fun q => by
      rw [h.mem_paths]
      constructor
      · rintro (e | ⟨s, hs, hq⟩)
        · exact Or.inl e
        · exact Or.inr ⟨s, List.mem_cons_of_mem _ hs, hq⟩
      · rintro (e | ⟨s, hs, hq⟩)
        · exact Or.inl e
        · rcases List.mem_cons.1 hs with e | hs'
          · subst e
            exact Or.inl (List.prefix_nil.1 hq)
          · exact Or.inr ⟨s, hs', hq⟩ }

theorem insert_fold_inv (transaction : Transaction Item) {prev : List (List Item)}
    (l : List (Item × Nat)) (b : Build Item) (done : List Item) (paths : List (List Item))
    (hinv : TreeInv b.nodes b.header_table (done :: prev) paths)
    (hcurr : b.curr_fpnode < b.nodes.length) (hpath : paths.getD b.curr_fpnode [] = done) :
    ∃ paths',
      TreeInv (l.foldl (fun b pair => if pair.1 ∈ transaction then insert_item pair.1 b else b) b).nodes
        (l.foldl (fun b pair => if pair.1 ∈ transaction then insert_item pair.1 b else b) b).header_table
        ((done ++ canonical (l.map Prod.fst) transaction) :: prev) paths' := by
  induction l generalizing b done paths with
  | nil => exact ⟨paths, by simpa [canonical] using hinv⟩
  | cons p l ih =>
    rw [List.foldl_cons]
    by_cases hmem : p.1 ∈ transaction
    · simp only [hmem, if_true]
      obtain ⟨paths1, h1, hc1, hp1⟩ := insert_item_inv p.1 hinv hcurr hpath
      obtain ⟨paths2, h2⟩ := ih _ _ paths1 h1 hc1 hp1
      refine ⟨paths2, ?_⟩
      simpa [canonical, List.filter_cons, hmem] using h2
    · simp only [hmem, if_false]
      obtain ⟨paths2, h2⟩ := ih b done paths hinv hcurr hpath
      refine ⟨paths2, ?_⟩
      simpa [canonical, List.filter_cons, hmem] using h2

theorem insert_transaction_inv (ordered : List (Item × Nat)) (b : Build Item)
    (transaction : Transaction Item) {seqs paths : List (List Item)}
    (hinv : TreeInv b.nodes b.header_table seqs paths) :
    ∃ paths',
      TreeInv (insert_transaction ordered 0 b transaction).nodes
        (insert_transaction ordered 0 b transaction).header_table
        (canonical (ordered.map Prod.fst) transaction :: seqs) paths' := by
  have := insert_fold_inv transaction ordered { b with curr_fpnode := 0 } [] paths
    ⟨hinv.shape.start, hinv.link⟩ hinv.shape.path_root.1 hinv.shape.path_root.2
  simpa [insert_transaction] using this

theorem build_inv (ordered : List (Item × Nat)) (transactions : List (Transaction Item))
    (b : Build Item) {seqs paths : List (List Item)}
    (hinv : TreeInv b.nodes b.header_table seqs paths) :
    ∃ paths',
      TreeInv (transactions.foldl (insert_transaction ordered 0) b).nodes
        (transactions.foldl (insert_transaction ordered 0) b).header_table
        ((transactions.map (canonical (ordered.map Prod.fst))).reverse ++ seqs) paths' := by
  induction transactions generalizing b seqs paths with
  | nil => exact ⟨paths, by simpa using hinv⟩
  | cons tx txs ih =>
    rw [List.foldl_cons]
    obtain ⟨paths1, h1⟩ := insert_transaction_inv ordered b tx hinv
    obtain ⟨paths2, h2⟩ := ih _ h1
    exact ⟨paths2, by simpa using h2⟩

theorem initial_inv :
    TreeInv [FPNode.new (default : Item) none] [] [] [[]] where
  shape :=
    { length_eq := rfl
      root_path := rfl
      root_parent := rfl
      parent_path := fun i h0 hl => by simp at hl; omega
      nodup := by simp
      children_iff := fun i j hl => by
        simp only [List.length_singleton, Nat.lt_one_iff] at hl
        subst hl
        simp only [List.length_singleton, Nat.lt_one_iff]
        constructor
        · intro h; exact absurd h (by simp [getNode, FPNode.new])
        · rintro ⟨rfl, h⟩; simp [getNode, FPNode.new] at h
      children_nodup := fun i hl => by
        simp only [List.length_singleton, Nat.lt_one_iff] at hl
        subst hl
        simp [getNode, FPNode.new]
      frequency_eq := fun i h0 hl => by simp at hl; omega
      mem_paths := fun q => by simp }
  link :=
    { header_sorted := List.Pairwise.nil
      chain := fun x => by
        have : occurrences [FPNode.new (default : Item) none] x = [] := by
          simp [occurrences, List.range_succ]
        rw [this]
        exact IsChain.nil }

/-- The tree built by the constructor satisfies the representation invariant
for the canonical sequences of the transactions. -/
theorem FPTree.new_inv (transactions : List (Transaction Item)) (t : Nat) :
    ∃ paths, TreeInv (FPTree.new transactions t).nodes (FPTree.new transactions t).header_table
      (sequences transactions t) paths := by
  obtain ⟨paths, h⟩ := build_inv (items_ordered_by_frequency transactions t) transactions
    { nodes := [FPNode.new default none], header_table := [], curr_fpnode := 0 } initial_inv
  refine ⟨paths, ⟨?_, h.link⟩⟩
  refine h.shape.of_perm ?_
  simp only [List.append_nil]
  exact List.reverse_perm _

theorem ShapeInv.frequency_mono {nodes : List (FPNode Item)} {seqs paths : List (List Item)}
    (h : ShapeInv nodes seqs paths) {i q : Nat} (hi0 : 0 < i) (hi : i < nodes.length)
    (hq0 : 0 < q) (hq : q < nodes.length) (hpre : paths.getD q [] <+: paths.getD i []) :
    (getNode nodes i).frequency ≤ (getNode nodes q).frequency := by
  rw [h.frequency_eq i hi0 hi, h.frequency_eq q hq0 hq]
  apply List.countP_mono_left
  intro s _ hs
  simp only [decide_eq_true_eq] at hs ⊢
  exact hpre.trans hs

theorem path_items_eq {nodes : List (FPNode Item)} {seqs paths : List (List Item)}
    (h : ShapeInv nodes seqs paths) (start_frequency : Nat) (fuel p : Nat) (items : List Item)
    (hfuel : p < fuel) (hp : p < nodes.length)
    (hassert : ∀ q, 0 < q → q < nodes.length → paths.getD q [] <+: paths.getD p [] →
      start_frequency ≤ (getNode nodes q).frequency) :
    path_items nodes start_frequency fuel p items = some (items ++ (paths.getD p []).reverse) := by
  induction fuel generalizing p items with
  | zero => omega
  | succ fuel ih =>
    unfold path_items
    rcases Nat.eq_zero_or_pos p with e | hp0
    · subst e
      rw [h.root_parent, h.path_root.2]
      simp
    · obtain ⟨p', hpar, hlt, hpath⟩ := h.parent_path p hp0 hp
      rw [hpar]
      simp only
      rw [if_pos (hassert p hp0 hp (List.prefix_refl _))]
      rw [ih p' _ (by omega) (by omega)]
      · rw [hpath]; simp
      · intro q hq0 hq hpre
        exact hassert q hq0 hq (hpre.trans (hpath ▸ List.prefix_append _ _))

theorem conditional_pattern_base_none (nodes : List (FPNode Item)) (fuel : Nat)
    (base : List (TransformedPrefixPath Item)) :
    conditional_pattern_base nodes fuel none base = some base := by
  cases fuel <;> rfl

theorem conditional_pattern_base_eq {nodes : List (FPNode Item)} {seqs paths : List (List Item)}
    (h : ShapeInv nodes seqs paths) {start : Option Nat} {l : List Nat}
    (hc : IsChain nodes start l) (hl : ∀ i ∈ l, 0 < i ∧ i < nodes.length)
    (fuel : Nat) (hfuel : l.length ≤ fuel) (base : List (TransformedPrefixPath Item)) :
    conditional_pattern_base nodes fuel start base
      = some (base ++ l.filterMap (base_entry nodes paths)) := by
  induction hc generalizing fuel base with
  | nil => simp [conditional_pattern_base_none]
  | cons i l hc' ih =>
    cases fuel with
    | zero => simp at hfuel
    | succ fuel =>
      obtain ⟨hi0, hi⟩ := hl i (List.mem_cons_self _ _)
      obtain ⟨p, hpar, hlt, hpath⟩ := h.parent_path i hi0 hi
      have hdrop : (paths.getD i []).dropLast = paths.getD p [] := by
        rw [hpath]; simp
      unfold conditional_pattern_base
      simp only [hpar]
      have ih' := fun base => ih (fun j hj => hl j (List.mem_cons_of_mem _ hj)) fuel
        (by simpa using hfuel) base
      rcases Nat.eq_zero_or_pos p with e | hp0
      · subst e
        rw [h.root_parent]
        simp only
        rw [ih', List.filterMap_cons]
        have : base_entry nodes paths i = none := by
          unfold base_entry
          rw [hdrop, h.path_root.2]
          rfl
        rw [this]
      · obtain ⟨p', hpar', _, _⟩ := h.parent_path p hp0 (by omega)
        rw [hpar']
        simp only
        rw [path_items_eq h _ (nodes.length + 1) p [] (by omega) (by omega)]
        · simp only [List.nil_append]
          rw [ih', List.filterMap_cons]
          have : base_entry nodes paths i
              = some ((paths.getD p []).reverse, (getNode nodes i).frequency) := by
            simp only [base_entry, hdrop]
            rw [if_neg (h.path_ne_nil hp0 (by omega))]
          rw [this]
          simp
        · intro q hq0 hq hpre
          exact h.frequency_mono hi0 hi hq0 hq (hpre.trans (hpath ▸ List.prefix_append _ _))

theorem chain_frequency_none (nodes : List (FPNode Item)) (fuel acc : Nat) :
    chain_frequency nodes fuel none acc = some acc := by
  cases fuel <;> rfl

theorem chain_frequency_eq {nodes : List (FPNode Item)} {start : Option Nat} {l : List Nat}
    (hc : IsChain nodes start l) (fuel : Nat) (hfuel : l.length ≤ fuel) (acc : Nat) :
    chain_frequency nodes fuel start acc
      = some (acc + (l.map (fun i => (getNode nodes i).frequency)).sum) := by
  induction hc generalizing fuel acc with
  | nil => simp [chain_frequency_none]
  | cons i l hc' ih =>
    cases fuel with
    | zero => simp at hfuel
    | succ fuel =>
      unfold chain_frequency
      rw [ih fuel (by simpa using hfuel)]
      simp [Nat.add_assoc]

theorem conditional_transactions_eq (base : List (TransformedPrefixPath Item)) :
    conditional_transactions base = base.flatMap (fun path => List.replicate path.2 path.1) := by
  have : ∀ (init : List (Transaction Item)),
      base.foldl (fun transactions path => transactions ++ List.replicate path.2 path.1) init
        = init ++ base.flatMap (fun path => List.replicate path.2 path.1) := by
    induction base with
    | nil => simp
    | cons p base ih => intro init; simp [ih, List.flatMap_cons]
  simpa [conditional_transactions] using this []

theorem before_filter (x : Item) (p : Item → Bool) (hp : p x = true) (l : List Item) :
    before x (l.filter p) = (before x l).filter p := by
  induction l with
  | nil => rfl
  | cons y l ih =>
    by_cases e : y = x
    · subst e
      simp [before, List.filter_cons, hp]
    · have hb : before x (y :: l) = y :: before x l := by
        simp [before, List.takeWhile_cons, e]
      cases hy : p y
      · rw [hb, List.filter_cons_of_neg (by simp [hy]), List.filter_cons_of_neg (by simp [hy])]
        exact ih
      · rw [hb, List.filter_cons_of_pos hy, List.filter_cons_of_pos hy]
        have hb' : before x (y :: l.filter p) = y :: before x (l.filter p) := by
          simp [before, List.takeWhile_cons, e]
        rw [hb', ih]

theorem before_append_cons (x : Item) (q r : List Item) (hx : x ∉ q) :
    before x (q ++ x :: r) = q := by
  induction q with
  | nil => simp [before]
  | cons y q ih =>
    have hne : y ≠ x := fun e => hx (e ▸ List.mem_cons_self _ _)
    have := ih (fun hmem => hx (List.mem_cons_of_mem _ hmem))
    simp only [before, List.cons_append, List.takeWhile_cons, hne, ne_eq, not_false_eq_true,
      decide_True, if_true] at this ⊢
    rw [this]

theorem before_append_of_mem (x : Item) (l : List Item) (hx : x ∈ l) :
    ∃ r, l = before x l ++ x :: r ∧ x ∉ before x l := by
  induction l with
  | nil => simp at hx
  | cons y l ih =>
    by_cases e : y = x
    · subst e
      exact ⟨l, by simp [before], by simp [before]⟩
    · have hx' : x ∈ l := by
        rcases List.mem_cons.1 hx with h | h
        · exact absurd h.symm e
        · exact h
      obtain ⟨r, hr, hn⟩ := ih hx'
      refine ⟨r, ?_, ?_⟩
      · simp only [before, List.takeWhile_cons, e, ne_eq, not_false_eq_true, decide_True, if_true,
          List.cons_append]
        rw [← before, ← hr]
      · simp only [before, List.takeWhile_cons, e, ne_eq, not_false_eq_true, decide_True, if_true,
          List.mem_cons, not_or]
        exact ⟨fun h => e h.symm, hn⟩

theorem before_subset (x : Item) (l : List Item) : ∀ y ∈ before x l, y ∈ l := by
  intro y hy
  exact (List.takeWhile_sublist _).subset hy

theorem not_mem_before (x : Item) (l : List Item) : x ∉ before x l := by
  intro h
  have := List.mem_takeWhile_imp h
  simp at this

theorem upto_is_initial (x : Item) (l : List Item) (hx : x ∈ l) : before x l ++ [x] <+: l := by
  obtain ⟨r, hr, _⟩ := before_append_of_mem x l hx
  exact ⟨r, by rw [List.append_assoc]; exact hr.symm⟩

/-- In a duplicate-free sequence the only initial segment that ends with `x` is the
one that stops at `x`. -/
theorem initial_ending_unique (x : Item) (q s : List Item) (hs : s.Nodup) (hq : q ++ [x] <+: s) :
    q = before x s := by
  obtain ⟨r, hr⟩ := hq
  rw [← hr, List.append_assoc] at hs ⊢
  have hx : x ∉ q := by
    intro hmem
    have := (List.nodup_append.1 hs).2.2
    exact this hmem (List.mem_cons_self _ _)
  simpa using (before_append_cons x q r hx).symm

theorem sum_map_indicator {l : List Nat} (hl : l.Nodup) {i0 : Nat} (hi : i0 ∈ l) (c : Nat) :
    (l.map (fun i => if i = i0 then c else 0)).sum = c := by
  induction l with
  | nil => simp at hi
  | cons a l ih =>
    obtain ⟨ha, hl'⟩ := List.nodup_cons.1 hl
    by_cases e : a = i0
    · subst e
      have : (l.map (fun i => if i = a then c else 0)).sum = 0 := by
        apply List.sum_eq_zero
        intro y hy
        obtain ⟨i, hil, rfl⟩ := List.mem_map.1 hy
        have : i ≠ a := fun e => ha (e ▸ hil)
        simp [this]
      simp [this]
    · have hi' : i0 ∈ l := by
        rcases List.mem_cons.1 hi with h | h
        · exact absurd h.symm e
        · exact h
      simp [e, ih hl' hi']

theorem ShapeInv.last_item {nodes : List (FPNode Item)} {seqs paths : List (List Item)}
    (h : ShapeInv nodes seqs paths) {i : Nat} (h0 : 0 < i) (hl : i < nodes.length) :
    paths.getD i [] = (paths.getD i []).dropLast ++ [(getNode nodes i).item] := by
  obtain ⟨p, _, _, hpath⟩ := h.parent_path i h0 hl
  rw [hpath]; simp

theorem sum_occurrences_single {nodes : List (FPNode Item)} {seqs paths : List (List Item)}
    (h : ShapeInv nodes seqs paths) (x : Item) (w : List Item → Nat) (s : List Item)
    (hs : s ∈ seqs) (hnd : s.Nodup) :
    ((occurrences nodes x).map
        (fun i => (if paths.getD i [] <+: s then 1 else 0) * w (paths.getD i []))).sum
      = if x ∈ s then w (before x s ++ [x]) else 0 := by
  by_cases hx : x ∈ s
  · rw [if_pos hx]
    have hu := upto_is_initial x s hx
    have hmem : before x s ++ [x] ∈ paths := (h.mem_paths _).2 (Or.inr ⟨s, hs, hu⟩)
    obtain ⟨i0, hi0, e0⟩ := exists_getD_of_mem [] hmem
    rw [h.length_eq] at hi0
    have hpos : 0 < i0 := by
      rcases Nat.eq_zero_or_pos i0 with e | e
      · rw [e, h.path_root.2] at e0; simp at e0
      · exact e
    have hitem : (getNode nodes i0).item = x := by
      have := h.last_item hpos hi0
      rw [e0] at this
      have := List.append_inj' this (by simp)
      simpa using this.2.symm
    have hocc : i0 ∈ occurrences nodes x := mem_occurrences.2 ⟨hi0, hpos, hitem⟩
    rw [← sum_map_indicator (nodup_occurrences nodes x) hocc (w (before x s ++ [x]))]
    congr 1
    apply List.map_congr_left
    intro i hi
    obtain ⟨hil, hip, hii⟩ := mem_occurrences.1 hi
    by_cases e : i = i0
    · subst e
      rw [e0, if_pos hu, if_pos rfl, Nat.one_mul]
    · have : ¬ (paths.getD i [] <+: s) := by
        intro hpre
        have hlast := h.last_item hip hil
        rw [hii] at hlast
        rw [hlast] at hpre
        have := initial_ending_unique x _ s hnd hpre
        rw [this, ← e0] at hlast
        exact e (getD_inj_of_nodup h.nodup [] (h.length_eq ▸ hil) (h.length_eq ▸ hi0) hlast)
      rw [if_neg this, if_neg e, Nat.zero_mul]
  · rw [if_neg hx]
    apply List.sum_eq_zero
    intro y hy
    obtain ⟨i, hi, rfl⟩ := List.mem_map.1 hy
    obtain ⟨hil, hip, hii⟩ := mem_occurrences.1 hi
    have : ¬ (paths.getD i [] <+: s) := by
      intro hpre
      have hlast := h.last_item hip hil
      rw [hii] at hlast
      apply hx
      apply hpre.subset
      rw [hlast]
      simp
    rw [if_neg this, Nat.zero_mul]

/-- Double counting: a weighted sum over the occurrence nodes of `x` is a sum over the
inserted sequences that contain `x`. -/
theorem sum_occurrences {nodes : List (FPNode Item)} {seqs paths : List (List Item)}
    (h : ShapeInv nodes seqs paths) (hnd : ∀ s ∈ seqs, s.Nodup) (x : Item)
    (w : List Item → Nat) :
    ((occurrences nodes x).map
        (fun i => (getNode nodes i).frequency * w (paths.getD i []))).sum
      = (seqs.map (fun s => if x ∈ s then w (before x s ++ [x]) else 0)).sum := by
  have key : ∀ seqs' : List (List Item), (∀ s ∈ seqs', s ∈ seqs) →
      ((occurrences nodes x).map
        (fun i => seqs'.countP (fun s => decide (paths.getD i [] <+: s)) * w (paths.getD i []))).sum
      = (seqs'.map (fun s => if x ∈ s then w (before x s ++ [x]) else 0)).sum := by
    intro seqs'
    induction seqs' with
    | nil => simp
    | cons s seqs' ih =>
      intro hsub
      rw [List.map_cons, List.sum_cons, ← ih (fun s' hs' => hsub s' (List.mem_cons_of_mem _ hs')),
        ← sum_occurrences_single h x w s (hsub s (List.mem_cons_self _ _))
          (hnd s (hsub s (List.mem_cons_self _ _))),
        ← List.sum_map_add]
      congr 1
      apply List.map_congr_left
      intro i _
      rw [List.countP_cons]
      simp only [decide_eq_true_eq]
      rw [Nat.add_mul, Nat.add_comm]
  rw [← key seqs (fun s hs => hs)]
  congr 1
  apply List.map_congr_left
  intro i hi
  obtain ⟨hil, hip, _⟩ := mem_occurrences.1 hi
  rw [h.frequency_eq i hip hil]

theorem support_append (a b : List (Transaction Item)) (P : List Item) :
    support (a ++ b) P = support a P + support b P := by
  simp [support, List.countP_append]

theorem support_replicate (k : Nat) (v : Transaction Item) (P : List Item) :
    support (List.replicate k v) P = if (∀ y ∈ P, y ∈ v) then k else 0 := by
  simp only [support, List.countP_replicate, List.all_eq_true, decide_eq_true_eq]

theorem sum_indicator_eq_countP {α : Type} (l : List α) (c : α → Prop) [DecidablePred c] :
    (l.map (fun s => if c s then 1 else 0)).sum = l.countP (fun s => decide (c s)) := by
  induction l with
  | nil => rfl
  | cons a l ih =>
    rw [List.map_cons, List.sum_cons, ih, List.countP_cons]
    by_cases h : c a <;> simp [h, Nat.add_comm]

theorem support_conditional_list (nodes : List (FPNode Item)) (paths : List (List Item))
    (P : List Item) (l : List Nat) :
    support (conditional_transactions (l.filterMap (base_entry nodes paths))) P
      = (l.map (fun i => (getNode nodes i).frequency *
          (if (paths.getD i []).dropLast ≠ [] ∧ ∀ y ∈ P, y ∈ (paths.getD i []).dropLast
            then 1 else 0))).sum := by
  rw [conditional_transactions_eq]
  induction l with
  | nil => simp [support]
  | cons i l ih =>
    rw [List.map_cons, List.sum_cons, ← ih, List.filterMap_cons]
    by_cases hd : (paths.getD i []).dropLast = []
    · have : base_entry nodes paths i = none := by
        unfold base_entry; rw [if_pos hd]
      rw [this]
      simp only
      rw [if_neg (fun h => h.1 hd)]
      simp
    · have : base_entry nodes paths i
          = some ((paths.getD i []).dropLast.reverse, (getNode nodes i).frequency) := by
        unfold base_entry; rw [if_neg hd]
      rw [this]
      simp only [List.flatMap_cons]
      rw [support_append, support_replicate]
      congr 1
      by_cases hP : ∀ y ∈ P, y ∈ (paths.getD i []).dropLast
      · rw [if_pos (by simpa using hP), if_pos ⟨hd, hP⟩, Nat.mul_one]
      · rw [if_neg (by simpa using hP), if_neg (fun h => hP h.2), Nat.mul_zero]

theorem mem_canonical {ordered : List Item} {transaction : Transaction Item} {x : Item} :
    x ∈ canonical ordered transaction ↔ x ∈ ordered ∧ x ∈ transaction := by
  simp [canonical, List.mem_filter]

theorem nodup_canonical {ordered : List Item} (h : ordered.Nodup) (transaction : Transaction Item) :
    (canonical ordered transaction).Nodup :=
  h.filter _

theorem mem_before_canonical {ordered : List Item} {transaction : Transaction Item} {x y : Item}
    (hx : x ∈ transaction) :
    y ∈ before x (canonical ordered transaction) ↔ y ∈ before x ordered ∧ y ∈ transaction := by
  rw [canonical, before_filter x _ (by simpa using hx)]
  simp [List.mem_filter]

/-- Support of an item set in the conditional transactions of `x`, in terms of the
original transactions. -/
theorem support_conditional_txs {nodes : List (FPNode Item)} {paths : List (List Item)}
    {ordered : List Item} {transactions : List (Transaction Item)}
    (h : ShapeInv nodes (transactions.map (canonical ordered)) paths) (hord : ordered.Nodup)
    (x : Item) (hx : x ∈ ordered) (P : List Item) (hP : P ≠ []) :
    support (conditional_txs nodes paths x) P
      = if (∀ y ∈ P, y ∈ before x ordered) then support transactions (x :: P) else 0 := by
  rw [conditional_txs, support_conditional_list,
    sum_occurrences h (fun s hs => by
      obtain ⟨tx, _, rfl⟩ := List.mem_map.1 hs
      exact nodup_canonical hord tx) x
      (fun q => if q.dropLast ≠ [] ∧ ∀ y ∈ P, y ∈ q.dropLast then 1 else 0)]
  simp only [List.dropLast_concat]
  have : ∀ s : List Item, (if x ∈ s then
      (if before x s ≠ [] ∧ ∀ y ∈ P, y ∈ before x s then 1 else 0) else 0)
      = if (x ∈ s ∧ ∀ y ∈ P, y ∈ before x s) then 1 else 0 := by
    intro s
    by_cases h1 : x ∈ s
    · by_cases h2 : ∀ y ∈ P, y ∈ before x s
      · have h3 : before x s ≠ [] := by
          intro e
          cases P with
          | nil => exact hP rfl
          | cons a P => have := h2 a (List.mem_cons_self _ _); rw [e] at this; simp at this
        rw [if_pos h1, if_pos ⟨h3, h2⟩, if_pos ⟨h1, h2⟩]
      · rw [if_pos h1, if_neg (fun h => h2 h.2), if_neg (fun h => h2 h.2)]
    · rw [if_neg h1, if_neg (fun h => h1 h.1)]
  simp only [this]
  rw [sum_indicator_eq_countP, List.countP_map]
  by_cases hall : ∀ y ∈ P, y ∈ before x ordered
  · rw [if_pos hall, support]
    apply List.countP_congr
    intro tx _
    simp only [Function.comp, decide_eq_true_eq, List.all_eq_true, List.mem_cons, forall_eq_or_imp]
    constructor
    · rintro ⟨h1, h2⟩
      have hxt := (mem_canonical.1 h1).2
      exact ⟨hxt, fun y hy => ((mem_before_canonical hxt).1 (h2 y hy)).2⟩
    · rintro ⟨h1, h2⟩
      exact ⟨mem_canonical.2 ⟨hx, h1⟩, fun y hy => (mem_before_canonical h1).2 ⟨hall y hy, h2 y hy⟩⟩
  · rw [if_neg hall, List.countP_eq_zero]
    intro tx _
    simp only [Function.comp, decide_eq_true_eq, not_and]
    intro h1 h2
    apply hall
    intro y hy
    exact ((mem_before_canonical (mem_canonical.1 h1).2).1 (h2 y hy)).1

/-- The frequencies along the node-link chain of `x` add up to the number of
transactions that contain `x`. -/
theorem sum_frequency_occurrences {nodes : List (FPNode Item)} {paths : List (List Item)}
    {ordered : List Item} {transactions : List (Transaction Item)}
    (h : ShapeInv nodes (transactions.map (canonical ordered)) paths) (hord : ordered.Nodup)
    (x : Item) (hx : x ∈ ordered) :
    ((occurrences nodes x).map (fun i => (getNode nodes i).frequency)).sum
      = support transactions [x] := by
  have := sum_occurrences h (fun s hs => by
      obtain ⟨tx, _, rfl⟩ := List.mem_map.1 hs
      exact nodup_canonical hord tx) x (fun _ => 1)
  simp only [Nat.mul_one] at this
  rw [this, sum_indicator_eq_countP, List.countP_map, support]
  apply List.countP_congr
  intro tx _
  simp [mem_canonical, hx]

theorem pairwise_itemLt_iff {l : List Item} :
    l.Pairwise (fun a b => itemLt a b = true) ↔ l.Pairwise (fun a b => a < b) := by
  simp [itemLt]

theorem mem_insert_item {x y : Item} {P : List Item} :
    y ∈ setInsert itemLt x P ↔ y = x ∨ y ∈ P :=
  mem_setInsert strictTotal_itemLt

theorem sorted_insert_item (x : Item) {P : List Item} (hP : P.Pairwise (fun a b => a < b)) :
    (setInsert itemLt x P).Pairwise (fun a b => a < b) :=
  pairwise_itemLt_iff.1 (sorted_setInsert strictTotal_itemLt x (pairwise_itemLt_iff.2 hP))

theorem insert_item_ne_nil (x : Item) (P : List Item) : setInsert itemLt x P ≠ [] := by
  intro h
  have : x ∈ setInsert itemLt x P := mem_insert_item.2 (Or.inl rfl)
  rw [h] at this
  simp at this

/-- Two strictly increasing lists with the same members are equal. -/
theorem sorted_ext {S S' : List Item} (h : S.Pairwise (fun a b => a < b))
    (h' : S'.Pairwise (fun a b => a < b)) (hm : ∀ y, y ∈ S ↔ y ∈ S') : S = S' := by
  have hn : S.Nodup := h.imp (fun hab => ne_of_lt hab)
  have hn' : S'.Nodup := h'.imp (fun hab => ne_of_lt hab)
  exact List.eq_of_perm_of_sorted ((List.perm_ext_iff_of_nodup hn hn').2 hm) h h'

theorem insert_item_of_mem {x : Item} {S : List Item} (h : S.Pairwise (fun a b => a < b))
    (hx : x ∈ S) : setInsert itemLt x S = S :=
  sorted_ext (sorted_insert_item x h) h (fun y => by
    rw [mem_insert_item]
    constructor
    · rintro (e | e)
      · exact e ▸ hx
      · exact e
    · exact Or.inr)

theorem insert_item_filter {x : Item} {S : List Item} (h : S.Pairwise (fun a b => a < b))
    (hx : x ∈ S) : setInsert itemLt x (S.filter (fun y => decide (y ≠ x))) = S :=
  sorted_ext (sorted_insert_item x (h.filter _)) h (fun y => by
    rw [mem_insert_item, List.mem_filter]
    simp only [ne_eq, decide_not, Bool.not_eq_true', decide_eq_false_iff_not]
    constructor
    · rintro (e | e)
      · exact e ▸ hx
      · exact e.1
    · intro hy
      by_cases e : y = x
      · exact Or.inl e
      · exact Or.inr ⟨hy, e⟩)

theorem support_congr (transactions : List (Transaction Item)) {S S' : List Item}
    (hm : ∀ y, y ∈ S ↔ y ∈ S') : support transactions S = support transactions S' := by
  unfold support
  apply List.countP_congr
  intro tx _
  simp only [List.all_eq_true, decide_eq_true_eq]
  constructor
  · intro h y hy; exact h y ((hm y).2 hy)
  · intro h y hy; exact h y ((hm y).1 hy)

theorem support_anti (transactions : List (Transaction Item)) {S S' : List Item}
    (hm : ∀ y, y ∈ S → y ∈ S') : support transactions S' ≤ support transactions S := by
  unfold support
  apply List.countP_mono_left
  intro tx _
  simp only [List.all_eq_true, decide_eq_true_eq]
  intro h y hy
  exact h y (hm y hy)

theorem support_le_tally (transactions : List (Transaction Item)) (x : Item) :
    support transactions [x] ≤ tally transactions x := by
  induction transactions with
  | nil => simp [support, tally]
  | cons tx txs ih =>
    have h1 : tally (tx :: txs) x = tx.count x + tally txs x := by simp [tally]
    have h2 : support (tx :: txs) [x] = support txs [x] + if x ∈ tx then 1 else 0 := by
      simp [support, List.countP_cons]
    rw [h1, h2]
    by_cases hx : x ∈ tx
    · have := List.count_pos_iff.2 hx
      simp only [hx, if_true]
      omega
    · simp only [hx, if_false]
      omega

theorem support_eq_tally (transactions : List (Transaction Item))
    (hnd : ∀ tx ∈ transactions, tx.Nodup) (x : Item) :
    support transactions [x] = tally transactions x := by
  induction transactions with
  | nil => simp [support, tally]
  | cons tx txs ih =>
    have h1 : tally (tx :: txs) x = tx.count x + tally txs x := by simp [tally]
    have h2 : support (tx :: txs) [x] = support txs [x] + if x ∈ tx then 1 else 0 := by
      simp [support, List.countP_cons]
    rw [h1, h2, ih (fun t ht => hnd t (List.mem_cons_of_mem _ ht))]
    by_cases hx : x ∈ tx
    · rw [List.count_eq_one_of_mem (hnd tx (List.mem_cons_self _ _)) hx]
      simp only [hx, if_true]
      omega
    · rw [List.count_eq_zero_of_not_mem hx]
      simp only [hx, if_false]
      omega

/-- A non-empty item set inside `l` has an item behind which no other of its items
occurs in `l`. -/
theorem exists_last_in_order (l : List Item) (S : List Item) (hS : S ≠ [])
    (hsub : ∀ y ∈ S, y ∈ l) : ∃ x ∈ S, ∀ y ∈ S, y ≠ x → y ∈ before x l := by
  induction l generalizing S with
  | nil =>
    cases S with
    | nil => exact absurd rfl hS
    | cons a S => exact absurd (hsub a (List.mem_cons_self _ _)) (by simp)
  | cons a l ih =>
    by_cases hS' : S.filter (fun y => decide (y ≠ a)) = []
    · have hall : ∀ y ∈ S, y = a := by
        intro y hy
        by_contra hne
        have : y ∈ S.filter (fun y => decide (y ≠ a)) := List.mem_filter.2 ⟨hy, by simpa using hne⟩
        rw [hS'] at this
        simp at this
      cases S with
      | nil => exact absurd rfl hS
      | cons b S =>
        refine ⟨b, List.mem_cons_self _ _, ?_⟩
        intro y hy hne
        exact absurd ((hall y hy).trans (hall b (List.mem_cons_self _ _)).symm) hne
    · obtain ⟨x, hx, hlast⟩ := ih (S.filter (fun y => decide (y ≠ a))) hS' (by
        intro y hy
        obtain ⟨hy1, hy2⟩ := List.mem_filter.1 hy
        have hne : y ≠ a := by simpa using hy2
        rcases List.mem_cons.1 (hsub y hy1) with e | e
        · exact absurd e hne
        · exact e)
      obtain ⟨hx1, hx2⟩ := List.mem_filter.1 hx
      have hxa : x ≠ a := by simpa using hx2
      refine ⟨x, hx1, ?_⟩
      intro y hy hne
      have hb : before x (a :: l) = a :: before x l := by
        simp [before, List.takeWhile_cons, Ne.symm hxa]
      rw [hb]
      by_cases e : y = a
      · exact e ▸ List.mem_cons_self _ _
      · exact List.mem_cons_of_mem _
          (hlast y (List.mem_filter.2 ⟨hy, by simpa using e⟩) hne)

theorem StrictTotal.asymm {α : Type} {lt : α → α → Bool} (st : StrictTotal lt) {a b : α}
    (h : lt a b = true) : lt b a = false := by
  cases hba : lt b a with
  | false => rfl
  | true =>
    have := st.trans a b a h hba
    rw [st.irrefl] at this
    cases this

theorem setInsert_idem {α : Type} {lt : α → α → Bool} (st : StrictTotal lt) (x : α) (l : List α) :
    setInsert lt x (setInsert lt x l) = setInsert lt x l := by
  induction l with
  | nil => simp [setInsert, st.irrefl]
  | cons y ys ih =>
    simp only [setInsert]
    cases h1 : lt x y with
    | true => simp [setInsert, st.irrefl]
    | false =>
      cases h2 : lt y x with
      | true => simp [setInsert, h1, h2, ih]
      | false => simp [setInsert, h1, h2]

theorem extend_pattern_idem (x : Item) (f : Nat) (q : Pattern Item) :
    extend_pattern x f (extend_pattern x f q) = extend_pattern x f q := by
  simp [extend_pattern, setInsert_idem strictTotal_itemLt]

theorem length_setInsert_le {α : Type} (lt : α → α → Bool) (x : α) (l : List α) :
    (setInsert lt x l).length ≤ l.length + 1 := by
  induction l with
  | nil => simp [setInsert]
  | cons y ys ih =>
    simp only [setInsert]
    split_ifs <;> simp <;> omega

theorem length_setInsertAll_le {α : Type} (lt : α → α → Bool) (xs l : List α) :
    (setInsertAll lt xs l).length ≤ l.length + xs.length := by
  induction xs generalizing l with
  | nil => simp [setInsertAll]
  | cons x xs ih =>
    have := ih (setInsert lt x l)
    have h2 := length_setInsert_le lt x l
    simp only [setInsertAll, List.foldl_cons, List.length_cons] at this ⊢
    omega

theorem filter_length_lt {α : Type} {lt : α → α → Bool} (st : StrictTotal lt) (U : List α)
    {cur next : α} (h : lt cur next = true) (hU : next ∈ U) :
    (U.filter (fun q => lt next q)).length < (U.filter (fun q => lt cur q)).length := by
  have e : U.filter (fun q => lt next q) = (U.filter (fun q => lt cur q)).filter (fun q => lt next q) := by
    rw [List.filter_filter]
    apply List.filter_congr
    intro q _
    cases hq : lt next q with
    | false => simp
    | true => simp [st.trans _ _ _ h hq]
  rw [e]
  have hsub := List.filter_sublist (p := fun q => lt next q) (U.filter (fun q => lt cur q))
  rcases Nat.lt_or_ge ((U.filter (fun q => lt cur q)).filter (fun q => lt next q)).length
    (U.filter (fun q => lt cur q)).length with hlt | hge
  · exact hlt
  · have heq := hsub.eq_of_length_le hge
    have hmem : next ∈ U.filter (fun q => lt cur q) := List.mem_filter.2 ⟨hU, h⟩
    rw [← heq] at hmem
    have := (List.mem_filter.1 hmem).2
    rw [st.irrefl] at this
    cases this

theorem find?_sorted_least {α : Type} {lt : α → α → Bool} (st : StrictTotal lt) {l : List α}
    (hl : l.Pairwise (fun a b => lt a b = true)) {p : α → Bool} {next : α}
    (h : l.find? p = some next) {q : α} (hq : q ∈ l) (hp : p q = true) : lt q next = false := by
  obtain ⟨_, as, bs, e, has⟩ := List.find?_eq_some.1 h
  rw [e] at hq hl
  rcases List.mem_append.1 hq with h1 | h1
  · have := has q h1
    simp [hp] at this
  · rcases List.mem_cons.1 h1 with h2 | h2
    · rw [h2]; exact st.irrefl _
    · have := (List.pairwise_cons.1 (List.pairwise_append.1 hl).2.1).1 q h2
      exact st.asymm this

theorem extend_single_path_spec (x : Item) (f : Nat) (U : List (Pattern Item))
    (hUg : ∀ q ∈ U, extend_pattern x f q ∈ U) (hUf : ∀ q ∈ U, f ≤ q.2)
    (fuel : Nat) (pats : List (Pattern Item)) (cur : Pattern Item)
    (hs : pats.Pairwise (fun a b => patternLt a b = true)) (hU : ∀ q ∈ pats, q ∈ U)
    (hcur : cur ∈ pats) (hfuel : (U.filter (fun q => patternLt cur q)).length < fuel) :
    ∃ R, extend_single_path x f fuel pats cur = some R ∧
      R.Pairwise (fun a b => patternLt a b = true) ∧
      (∀ q ∈ pats, q ∈ R) ∧
      (∀ q ∈ R, q ∈ pats ∨ ∃ p ∈ pats, q = extend_pattern x f p) ∧
      (∀ q ∈ pats, patternLt q cur = false → extend_pattern x f q ∈ R) := by
  induction fuel generalizing pats cur with
  | zero => omega
  | succ fuel ih =>
    unfold extend_single_path
    rw [if_pos (hUf cur (hU cur hcur))]
    simp only
    have hs' := sorted_setInsert strictTotal_patternLt (extend_pattern x f cur) hs
    have hmem : ∀ q, q ∈ setInsert patternLt (extend_pattern x f cur) pats ↔
        q = extend_pattern x f cur ∨ q ∈ pats := fun q => mem_setInsert strictTotal_patternLt
    change ∃ R, (match (setInsert patternLt (extend_pattern x f cur) pats).find?
        (fun p => patternLt cur p) with
      | none => some (setInsert patternLt (extend_pattern x f cur) pats)
      | some next => extend_single_path x f fuel
          (setInsert patternLt (extend_pattern x f cur) pats) next) = some R ∧ _
    cases hfind : (setInsert patternLt (extend_pattern x f cur) pats).find?
        (fun p => patternLt cur p) with
    | none =>
      refine ⟨_, rfl, hs', fun q hq => (hmem q).2 (Or.inr hq), ?_, ?_⟩
      · intro q hq
        rcases (hmem q).1 hq with e | e
        · exact Or.inr ⟨cur, hcur, e⟩
        · exact Or.inl e
      · intro q hq hge
        have hnot := List.find?_eq_none.1 hfind q ((hmem q).2 (Or.inr hq))
        have : q = cur := strictTotal_patternLt.tri _ _ hge (by simpa using hnot)
        rw [this]
        exact (hmem _).2 (Or.inl rfl)
    | some next =>
      have hnext_mem := List.mem_of_find?_eq_some hfind
      have hnext_lt : patternLt cur next = true := List.find?_some hfind
      have hU' : ∀ q ∈ setInsert patternLt (extend_pattern x f cur) pats, q ∈ U := by
        intro q hq
        rcases (hmem q).1 hq with e | e
        · rw [e]; exact hUg cur (hU cur hcur)
        · exact hU q e
      obtain ⟨R, hR, hRs, hR1, hR2, hR3⟩ := ih _ next hs' hU' hnext_mem (by
        have := filter_length_lt strictTotal_patternLt U hnext_lt (hU' next hnext_mem)
        omega)
      refine ⟨R, hR, hRs, fun q hq => hR1 q ((hmem q).2 (Or.inr hq)), ?_, ?_⟩
      · intro q hq
        rcases hR2 q hq with h1 | ⟨p, hp, e⟩
        · rcases (hmem q).1 h1 with e | e
          · exact Or.inr ⟨cur, hcur, e⟩
          · exact Or.inl e
        · rcases (hmem p).1 hp with e2 | e2
          · rw [e, e2, extend_pattern_idem]
            exact Or.inr ⟨cur, hcur, rfl⟩
          · exact Or.inr ⟨p, e2, e⟩
      · intro q hq hge
        cases hlt : patternLt cur q with
        | false =>
          have : q = cur := strictTotal_patternLt.tri _ _ hge hlt
          rw [this]
          exact hR1 _ ((hmem _).2 (Or.inl rfl))
        | true =>
          exact hR3 q ((hmem q).2 (Or.inr hq))
            (find?_sorted_least strictTotal_patternLt hs' hfind ((hmem q).2 (Or.inr hq)) hlt)

/-- One pass of the range-for over the pattern set: the set gains exactly the
extensions of its elements. -/
theorem extend_all_spec (x : Item) (f : Nat) (pats : List (Pattern Item)) (first : Pattern Item)
    (rest : List (Pattern Item)) (hp : pats = first :: rest)
    (hs : pats.Pairwise (fun a b => patternLt a b = true)) (hf : ∀ q ∈ pats, f ≤ q.2) :
    ∃ R, extend_single_path x f (2 * pats.length) pats first = some R ∧
      R.Pairwise (fun a b => patternLt a b = true) ∧
      ∀ q, q ∈ R ↔ q ∈ pats ∨ ∃ p ∈ pats, q = extend_pattern x f p := by
  have hUmem : ∀ q, q ∈ setInsertAll patternLt (pats.map (extend_pattern x f)) pats ↔
      q ∈ pats.map (extend_pattern x f) ∨ q ∈ pats := fun q => mem_setInsertAll strictTotal_patternLt
  have hfirst : first ∈ pats := hp ▸ List.mem_cons_self _ _
  obtain ⟨R, hR, hRs, hR1, hR2, hR3⟩ := extend_single_path_spec x f
    (setInsertAll patternLt (pats.map (extend_pattern x f)) pats)
    (by
      intro q hq
      rcases (hUmem q).1 hq with h | h
      · obtain ⟨p, hp', rfl⟩ := List.mem_map.1 h
        rw [extend_pattern_idem]
        exact (hUmem _).2 (Or.inl (List.mem_map.2 ⟨p, hp', rfl⟩))
      · exact (hUmem _).2 (Or.inl (List.mem_map.2 ⟨q, h, rfl⟩)))
    (by
      intro q hq
      rcases (hUmem q).1 hq with h | h
      · obtain ⟨p, _, rfl⟩ := List.mem_map.1 h
        exact Nat.le_refl _
      · exact hf q h)
    (2 * pats.length) pats first hs (fun q hq => (hUmem q).2 (Or.inr hq)) hfirst
    (by
      have h1 := length_setInsertAll_le patternLt (pats.map (extend_pattern x f)) pats
      have h2 := List.length_filter_le (fun q => patternLt first q)
        (setInsertAll patternLt (pats.map (extend_pattern x f)) pats)
      have h3 : (List.filter (fun q => patternLt first q)
          (setInsertAll patternLt (pats.map (extend_pattern x f)) pats)).length
          ≠ (setInsertAll patternLt (pats.map (extend_pattern x f)) pats).length := by
        intro e
        have := (List.filter_sublist (p := fun q => patternLt first q)
          (setInsertAll patternLt (pats.map (extend_pattern x f)) pats)).eq_of_length e
        have hm : first ∈ List.filter (fun q => patternLt first q)
            (setInsertAll patternLt (pats.map (extend_pattern x f)) pats) := by
          rw [this]; exact (hUmem _).2 (Or.inr hfirst)
        have := (List.mem_filter.1 hm).2
        rw [strictTotal_patternLt.irrefl] at this
        cases this
      rw [List.length_map] at h1
      omega)
  refine ⟨R, hR, hRs, fun q => ⟨hR2 q, ?_⟩⟩
  rintro (h | ⟨p, hp', rfl⟩)
  · exact hR1 q h
  · apply hR3 p hp'
    rw [hp] at hs hp'
    rcases List.mem_cons.1 hp' with e | e
    · rw [e]; exact strictTotal_patternLt.irrefl _
    · exact strictTotal_patternLt.asymm ((List.pairwise_cons.1 hs).1 p e)

theorem ChainPattern.subset {L : List (Item × Nat)} {q : Pattern Item} (h : ChainPattern L q) :
    ∀ y ∈ q.1, y ∈ L.map Prod.fst := by
  obtain ⟨_, L1, x, L2, e, _, hall⟩ := h
  intro y hy
  rw [e]
  rcases hall y hy with h | h
  · simp [h]
  · simp only [List.map_append, List.mem_append]
    exact Or.inl h

theorem ChainPattern.frequency_mem {L : List (Item × Nat)} {q : Pattern Item}
    (h : ChainPattern L q) : ∃ p ∈ L, p.2 = q.2 := by
  obtain ⟨_, L1, x, L2, e, _, _⟩ := h
  exact ⟨(x, q.2), by rw [e]; simp, rfl⟩

theorem split_at_first (L : List (Item × Nat)) (x : Item) (hx : x ∈ L.map Prod.fst) :
    ∃ L1 m L2, L = L1 ++ (x, m) :: L2 ∧ L1.map Prod.fst = before x (L.map Prod.fst) := by
  induction L with
  | nil => simp at hx
  | cons p L ih =>
    by_cases e : p.1 = x
    · refine ⟨[], p.2, L, ?_, ?_⟩
      · rw [← e]; rfl
      · simp [before, List.takeWhile_cons, e]
    · have hx' : x ∈ L.map Prod.fst := by
        rcases List.mem_cons.1 hx with h | h
        · exact absurd h.symm e
        · exact h
      obtain ⟨L1, m, L2, hL, hb⟩ := ih hx'
      refine ⟨p :: L1, m, L2, by rw [hL]; rfl, ?_⟩
      simp only [List.map_cons, before, List.takeWhile_cons, e, ne_eq, not_false_eq_true,
        decide_True, if_true, List.cons.injEq, true_and]
      exact hb

theorem chainPattern_snoc (L : List (Item × Nat)) (x : Item) (f : Nat) (q : Pattern Item) :
    ChainPattern (L ++ [(x, f)]) q ↔
      ChainPattern L q ∨ q = ([x], f) ∨ ∃ p, ChainPattern L p ∧ q = extend_pattern x f p := by
  constructor
  · rintro ⟨hs, L1, x', L2, e, hx', hall⟩
    rcases List.eq_nil_or_concat L2 with h2 | ⟨L2', b, h2⟩
    · subst h2
      have := List.append_inj' e (by simp)
      obtain ⟨e1, e2⟩ := this
      simp only [List.cons.injEq, Prod.mk.injEq, and_true] at e2
      obtain ⟨rfl, hf⟩ := e2
      subst e1
      right
      by_cases hP : q.1.filter (fun y => decide (y ≠ x)) = []
      · left
        have hall' : ∀ y ∈ q.1, y = x := by
          intro y hy
          by_contra hne
          have : y ∈ q.1.filter (fun y => decide (y ≠ x)) :=
            List.mem_filter.2 ⟨hy, by simpa using hne⟩
          rw [hP] at this
          simp at this
        have : q.1 = [x] := sorted_ext hs (by simp) (fun y => by
          constructor
          · intro hy; simp [hall' y hy]
          · intro hy
            rw [List.mem_singleton] at hy
            exact hy ▸ hx')
        exact Prod.ext this hf.symm
      · right
        have hsub : ∀ y ∈ q.1.filter (fun y => decide (y ≠ x)), y ∈ L.map Prod.fst := by
          intro y hy
          obtain ⟨hy1, hy2⟩ := List.mem_filter.1 hy
          rcases hall y hy1 with h | h
          · simp [h] at hy2
          · exact h
        obtain ⟨z, hz, hlast⟩ := exists_last_in_order (L.map Prod.fst) _ hP hsub
        obtain ⟨L1', m, L2', hL, hb⟩ := split_at_first L z (hsub z hz)
        refine ⟨(q.1.filter (fun y => decide (y ≠ x)), m), ⟨hs.filter _, L1', z, L2', hL, hz, ?_⟩, ?_⟩
        · intro y hy
          by_cases e : y = z
          · exact Or.inl e
          · right
            rw [hb]
            exact hlast y hy e
        · exact Prod.ext (insert_item_filter hs hx').symm hf.symm
    · subst h2
      left
      have : L ++ [(x, f)] = (L1 ++ (x', q.2) :: L2') ++ [b] := by
        rw [e]; simp
      obtain ⟨e1, _⟩ := List.append_inj' this (by simp)
      exact ⟨hs, L1, x', L2', e1, hx', hall⟩
  · rintro (⟨hs, L1, x', L2, e, hx', hall⟩ | rfl | ⟨p, hp, rfl⟩)
    · exact ⟨hs, L1, x', L2 ++ [(x, f)], by rw [e]; simp, hx', hall⟩
    · exact ⟨by simp, L, x, [], rfl, by simp, by simp⟩
    · refine ⟨sorted_insert_item x hp.1, L, x, [], rfl, mem_insert_item.2 (Or.inl rfl), ?_⟩
      intro y hy
      rcases mem_insert_item.1 hy with h | h
      · exact Or.inl h
      · exact Or.inr (hp.subset y h)

theorem single_path_loop_spec {nodes : List (FPNode Item)} {c : Nat} {l : List Nat}
    (hsp : SinglePath nodes c l) (fuel : Nat) (L : List (Item × Nat))
    (pats : List (Pattern Item)) (hfuel : l.length ≤ fuel)
    (hs : pats.Pairwise (fun a b => patternLt a b = true))
    (hpats : ∀ q, q ∈ pats ↔ ChainPattern L q)
    (hmono : ∀ l1 i l2, l = l1 ++ i :: l2 →
      (∀ p ∈ L, (getNode nodes i).frequency ≤ p.2) ∧
      (∀ j ∈ l1, (getNode nodes i).frequency ≤ (getNode nodes j).frequency)) :
    ∃ R, single_path_loop nodes fuel c pats = some R ∧
      R.Pairwise (fun a b => patternLt a b = true) ∧
      ∀ q, q ∈ R ↔
        ChainPattern (L ++ l.map (fun i => ((getNode nodes i).item, (getNode nodes i).frequency))) q := by
  induction hsp generalizing fuel L pats with
  | leaf c hc =>
    cases fuel with
    | zero => simp at hfuel
    | succ fuel =>
      unfold single_path_loop
      simp only
      have hs1 := sorted_setInsert strictTotal_patternLt
        ([(getNode nodes c).item], (getNode nodes c).frequency) hs
      have hm1 : ∀ q, q ∈ setInsert patternLt
          ([(getNode nodes c).item], (getNode nodes c).frequency) pats ↔
          q = ([(getNode nodes c).item], (getNode nodes c).frequency) ∨ q ∈ pats :=
        fun q => mem_setInsert strictTotal_patternLt
      cases hins : setInsert patternLt
          ([(getNode nodes c).item], (getNode nodes c).frequency) pats with
      | nil =>
        have := (hm1 _).2 (Or.inl rfl)
        rw [hins] at this
        simp at this
      | cons first rest =>
        simp only
        rw [← hins]
        obtain ⟨R, hR, hRs, hRm⟩ := extend_all_spec (getNode nodes c).item
          (getNode nodes c).frequency _ first rest hins hs1 (by
            intro q hq
            rcases (hm1 q).1 hq with e | e
            · rw [e]
            · obtain ⟨p, hp, e2⟩ := ((hpats q).1 e).frequency_mem
              rw [← e2]
              exact (hmono [] c [] rfl).1 p hp)
        rw [hR]
        simp only [hc]
        refine ⟨R, rfl, hRs, fun q => ?_⟩
        rw [hRm, List.map_singleton, chainPattern_snoc]
        simp only [hm1, hpats]
        constructor
        · rintro ((h | h) | ⟨p, (h | h), rfl⟩)
          · exact Or.inr (Or.inl h)
          · exact Or.inl h
          · rw [h]
            exact Or.inr (Or.inl (by simp [extend_pattern, setInsert, itemLt]))
          · exact Or.inr (Or.inr ⟨p, h, rfl⟩)
        · rintro (h | h | ⟨p, h, rfl⟩)
          · exact Or.inl (Or.inr h)
          · exact Or.inl (Or.inl h)
          · exact Or.inr ⟨p, Or.inr h, rfl⟩
  | step c c' l' hc hsp' ih =>
    cases fuel with
    | zero => simp at hfuel
    | succ fuel =>
      unfold single_path_loop
      simp only
      have hs1 := sorted_setInsert strictTotal_patternLt
        ([(getNode nodes c).item], (getNode nodes c).frequency) hs
      have hm1 : ∀ q, q ∈ setInsert patternLt
          ([(getNode nodes c).item], (getNode nodes c).frequency) pats ↔
          q = ([(getNode nodes c).item], (getNode nodes c).frequency) ∨ q ∈ pats :=
        fun q => mem_setInsert strictTotal_patternLt
      cases hins : setInsert patternLt
          ([(getNode nodes c).item], (getNode nodes c).frequency) pats with
      | nil =>
        have := (hm1 _).2 (Or.inl rfl)
        rw [hins] at this
        simp at this
      | cons first rest =>
        simp only
        rw [← hins]
        obtain ⟨R, hR, hRs, hRm⟩ := extend_all_spec (getNode nodes c).item
          (getNode nodes c).frequency _ first rest hins hs1 (by
            intro q hq
            rcases (hm1 q).1 hq with e | e
            · rw [e]
            · obtain ⟨p, hp, e2⟩ := ((hpats q).1 e).frequency_mem
              rw [← e2]
              exact (hmono [] c l' rfl).1 p hp)
        rw [hR]
        simp only [hc]
        obtain ⟨R', hR', hRs', hRm'⟩ := ih fuel
          (L ++ [((getNode nodes c).item, (getNode nodes c).frequency)]) R
          (by simpa using hfuel) hRs (by
            intro q
            rw [hRm, chainPattern_snoc]
            simp only [hm1, hpats]
            constructor
            · rintro ((h | h) | ⟨p, (h | h), rfl⟩)
              · exact Or.inr (Or.inl h)
              · exact Or.inl h
              · rw [h]
                exact Or.inr (Or.inl (by simp [extend_pattern, setInsert, itemLt]))
              · exact Or.inr (Or.inr ⟨p, h, rfl⟩)
            · rintro (h | h | ⟨p, h, rfl⟩)
              · exact Or.inl (Or.inr h)
              · exact Or.inl (Or.inl h)
              · exact Or.inr ⟨p, Or.inr h, rfl⟩)
          (by
            intro l1 i l2 e
            have := hmono (c :: l1) i l2 (by rw [e]; rfl)
            refine ⟨?_, fun j hj => this.2 j (List.mem_cons_of_mem _ hj)⟩
            intro p hp
            rcases List.mem_append.1 hp with h | h
            · exact this.1 p h
            · rw [List.mem_singleton] at h
              rw [h]
              exact this.2 c (List.mem_cons_self _ _))
        refine ⟨R', hR', hRs', fun q => ?_⟩
        rw [hRm']
        simp [List.append_assoc]

theorem getNode_default_children (nodes : List (FPNode Item)) (i : Nat) (h : nodes.length ≤ i) :
    (getNode nodes i).children = [] := by
  simp [getNode, List.getD_eq_getElem?_getD, List.getElem?_eq_none h, default, FPNode.new]

theorem contains_single_path_node_true {nodes : List (FPNode Item)} (fuel c : Nat)
    (h : contains_single_path_node nodes fuel c = some true) :
    ∃ l, SinglePath nodes c l ∧ l.length ≤ fuel := by
  induction fuel generalizing c with
  | zero => simp [contains_single_path_node] at h
  | succ fuel ih =>
    unfold contains_single_path_node at h
    cases hc : (getNode nodes c).children with
    | nil => exact ⟨[c], SinglePath.leaf c hc, by simp⟩
    | cons c' rest =>
      cases rest with
      | nil =>
        rw [hc] at h
        obtain ⟨l, hl, hlen⟩ := ih c' h
        exact ⟨c :: l, SinglePath.step c c' l hc hl, by simpa using hlen⟩
      | cons c'' rest => rw [hc] at h; simp at h

theorem contains_single_path_node_false {nodes : List (FPNode Item)} (fuel c : Nat)
    (h : contains_single_path_node nodes fuel c = some false) :
    ∃ i a b rest, (getNode nodes i).children = a :: b :: rest := by
  induction fuel generalizing c with
  | zero => simp [contains_single_path_node] at h
  | succ fuel ih =>
    unfold contains_single_path_node at h
    cases hc : (getNode nodes c).children with
    | nil => rw [hc] at h; simp at h
    | cons c' rest =>
      cases rest with
      | nil => rw [hc] at h; exact ih c' h
      | cons c'' rest => exact ⟨c, c', c'', rest, hc⟩

theorem contains_single_path_node_total {nodes : List (FPNode Item)}
    {seqs paths : List (List Item)} (h : ShapeInv nodes seqs paths) (fuel c : Nat)
    (hc : c < nodes.length) (hfuel : nodes.length ≤ c + fuel) :
    ∃ b, contains_single_path_node nodes fuel c = some b := by
  induction fuel generalizing c with
  | zero => omega
  | succ fuel ih =>
    unfold contains_single_path_node
    cases hch : (getNode nodes c).children with
    | nil => exact ⟨true, rfl⟩
    | cons c' rest =>
      cases rest with
      | nil =>
        simp only
        obtain ⟨h0, hlt, hpar, _⟩ := h.child_path hc (hch ▸ List.mem_cons_self _ _)
        obtain ⟨p, hp, hpl, _⟩ := h.parent_path c' h0 hlt
        rw [hpar] at hp
        cases hp
        exact ih c' hlt (by omega)
      | cons c'' rest => exact ⟨false, rfl⟩

theorem SinglePath.head_mem {nodes : List (FPNode Item)} {c : Nat} {l : List Nat}
    (h : SinglePath nodes c l) : c ∈ l := by
  cases h <;> simp

theorem SinglePath.child_mem {nodes : List (FPNode Item)} {c : Nat} {l : List Nat}
    (h : SinglePath nodes c l) {p j : Nat} (hp : p ∈ l) (hj : j ∈ (getNode nodes p).children) :
    j ∈ l := by
  induction h with
  | leaf c hc =>
    rw [List.mem_singleton] at hp
    rw [hp, hc] at hj
    simp at hj
  | step c c' l hc hsp ih =>
    rcases List.mem_cons.1 hp with e | e
    · rw [e, hc, List.mem_singleton] at hj
      rw [hj]
      exact List.mem_cons_of_mem _ hsp.head_mem
    · exact List.mem_cons_of_mem _ (ih e)

theorem SinglePath.all_mem {nodes : List (FPNode Item)} {seqs paths : List (List Item)}
    (h : ShapeInv nodes seqs paths) {first : Nat} {l : List Nat}
    (hroot : (getNode nodes 0).children = [first]) (hsp : SinglePath nodes first l)
    (i : Nat) (h0 : 0 < i) (hi : i < nodes.length) : i ∈ l := by
  induction i using Nat.strong_induction_on with
  | _ i ih =>
    obtain ⟨p, hp, hpi, _⟩ := h.parent_path i h0 hi
    have hchild : i ∈ (getNode nodes p).children :=
      (h.children_iff p i (by omega)).2 ⟨hi, hp⟩
    rcases Nat.eq_zero_or_pos p with e | e
    · rw [e, hroot, List.mem_singleton] at hchild
      rw [hchild]
      exact hsp.head_mem
    · exact hsp.child_mem (ih p hpi e (by omega)) hchild

theorem SinglePath.paths {nodes : List (FPNode Item)} {seqs paths : List (List Item)}
    (h : ShapeInv nodes seqs paths) {c : Nat} {l : List Nat} (hsp : SinglePath nodes c l)
    (h0 : 0 < c) (hc : c < nodes.length) (l1 : List Nat) (i : Nat) (l2 : List Nat)
    (e : l = l1 ++ i :: l2) :
    0 < i ∧ i < nodes.length ∧
      paths.getD i [] = (paths.getD c []).dropLast
        ++ (l1 ++ [i]).map (fun j => (getNode nodes j).item) := by
  induction hsp generalizing l1 with
  | leaf c hch =>
    cases l1 with
    | nil =>
      simp only [List.nil_append, List.cons.injEq] at e
      rw [← e.1]
      exact ⟨h0, hc, h.last_item h0 hc⟩
    | cons a l1 =>
      simp only [List.cons_append, List.cons.injEq] at e
      have := e.2
      cases l1 <;> simp at this
  | step c c' l' hch hsp' ih =>
    cases l1 with
    | nil =>
      simp only [List.nil_append, List.cons.injEq] at e
      rw [← e.1]
      exact ⟨h0, hc, h.last_item h0 hc⟩
    | cons a l1 =>
      simp only [List.cons_append, List.cons.injEq] at e
      obtain ⟨hc0, hcl, _, hcp⟩ := h.child_path hc (hch ▸ List.mem_cons_self _ _)
      obtain ⟨hi0, hil, hip⟩ := ih hc0 hcl l1 e.2
      refine ⟨hi0, hil, ?_⟩
      rw [hip, hcp, List.dropLast_concat, ← e.1]
      conv_lhs => rw [h.last_item h0 hc]
      simp

theorem mem_ordered_of_mem_path {nodes : List (FPNode Item)} {paths : List (List Item)}
    {ordered : List Item} {transactions : List (Transaction Item)}
    (h : ShapeInv nodes (transactions.map (canonical ordered)) paths) {q : List Item}
    (hq : q ∈ paths) : q.Sublist ordered := by
  rcases (h.mem_paths q).1 hq with e | ⟨s, hs, hpre⟩
  · rw [e]; exact List.nil_sublist _
  · obtain ⟨tx, _, rfl⟩ := List.mem_map.1 hs
    exact hpre.sublist.trans (List.filter_sublist _)

/-- In a single-path tree every inserted sequence is an initial segment of the
item sequence of the chain, and the chain carries every ordered item exactly once. -/
theorem SinglePath.structure {nodes : List (FPNode Item)} {paths : List (List Item)}
    {ordered : List Item} {transactions : List (Transaction Item)}
    (h : ShapeInv nodes (transactions.map (canonical ordered)) paths) (hord : ordered.Nodup)
    (hocc : ∀ x ∈ ordered, ∃ tx ∈ transactions, x ∈ tx)
    {first : Nat} {l : List Nat}
    (hroot : (getNode nodes 0).children = [first]) (hsp : SinglePath nodes first l) :
    (∀ l1 i l2, l = l1 ++ i :: l2 → 0 < i ∧ i < nodes.length ∧
      paths.getD i [] = (l1 ++ [i]).map (fun j => (getNode nodes j).item)) ∧
    (∀ s ∈ transactions.map (canonical ordered), s <+: l.map (fun j => (getNode nodes j).item)) ∧
    (l.map (fun j => (getNode nodes j).item)).Nodup ∧
    (∀ x, x ∈ l.map (fun j => (getNode nodes j).item) ↔ x ∈ ordered) := by
  obtain ⟨hf0, hfl, _, hfp⟩ := h.child_path h.path_root.1 (hroot ▸ List.mem_cons_self _ _)
  have hdrop : (paths.getD first []).dropLast = [] := by
    rw [hfp, List.dropLast_concat, h.path_root.2]
  have hpaths : ∀ l1 i l2, l = l1 ++ i :: l2 → 0 < i ∧ i < nodes.length ∧
      paths.getD i [] = (l1 ++ [i]).map (fun j => (getNode nodes j).item) := by
    intro l1 i l2 e
    obtain ⟨a, b, c⟩ := hsp.paths h hf0 hfl l1 i l2 e
    exact ⟨a, b, by rw [c, hdrop, List.nil_append]⟩
  have hseq : ∀ s ∈ transactions.map (canonical ordered),
      s <+: l.map (fun j => (getNode nodes j).item) := by
    intro s hs
    by_cases hnil : s = []
    · rw [hnil]; exact List.nil_prefix
    · have hmem : s ∈ paths := (h.mem_paths s).2 (Or.inr ⟨s, hs, List.prefix_refl _⟩)
      obtain ⟨i, hi, e⟩ := exists_getD_of_mem [] hmem
      rw [h.length_eq] at hi
      have hi0 : 0 < i := by
        rcases Nat.eq_zero_or_pos i with e0 | e0
        · rw [e0, h.path_root.2] at e; exact absurd e.symm hnil
        · exact e0
      obtain ⟨l1, l2, hl⟩ := List.append_of_mem (hsp.all_mem h hroot i hi0 hi)
      rw [← e, (hpaths l1 i l2 hl).2.2, hl]
      exact ⟨l2.map (fun j => (getNode nodes j).item), by simp⟩
  have hlast : l.map (fun j => (getNode nodes j).item) ∈ paths := by
    rcases List.eq_nil_or_concat l with e | ⟨l1, i, e⟩
    · have := hsp.head_mem
      rw [e] at this
      simp at this
    · have e' : l = l1 ++ i :: [] := by rw [e, List.concat_eq_append]
      obtain ⟨_, hil, hp⟩ := hpaths l1 i [] e'
      rw [e', ← hp]
      exact getD_mem _ _ (h.length_eq ▸ hil)
  have hsubl := mem_ordered_of_mem_path h hlast
  refine ⟨hpaths, hseq, hord.sublist hsubl, fun x => ⟨fun hx => hsubl.subset hx, fun hx => ?_⟩⟩
  obtain ⟨tx, htx, hxt⟩ := hocc x hx
  exact (hseq _ (List.mem_map.2 ⟨tx, htx, rfl⟩)).subset (mem_canonical.2 ⟨hx, hxt⟩)

theorem map_decompose {α β : Type} (f : α → β) (l : List α) (L1 : List β) (b : β) (L2 : List β)
    (e : l.map f = L1 ++ b :: L2) :
    ∃ l1 i l2, l = l1 ++ i :: l2 ∧ l1.map f = L1 ∧ f i = b ∧ l2.map f = L2 := by
  obtain ⟨l1, r, hl, h1, h2⟩ := List.map_eq_append_iff.1 e
  obtain ⟨i, l2, hr, hi, h3⟩ := List.map_eq_cons_iff.1 h2
  exact ⟨l1, i, l2, by rw [hl, hr], h1, hi, h3⟩

/-- On a single-path tree the patterns read off the chain are the non-empty sets of
ordered items with their supports. -/
theorem chainPattern_iff_support {nodes : List (FPNode Item)} {paths : List (List Item)}
    {ordered : List Item} {transactions : List (Transaction Item)}
    (h : ShapeInv nodes (transactions.map (canonical ordered)) paths) (hord : ordered.Nodup)
    (hocc : ∀ x ∈ ordered, ∃ tx ∈ transactions, x ∈ tx)
    {first : Nat} {l : List Nat}
    (hroot : (getNode nodes 0).children = [first]) (hsp : SinglePath nodes first l)
    (q : Pattern Item) :
    ChainPattern (l.map (fun i => ((getNode nodes i).item, (getNode nodes i).frequency))) q ↔
      q.1 ≠ [] ∧ q.1.Pairwise (fun a b => a < b) ∧ (∀ y ∈ q.1, y ∈ ordered) ∧
        q.2 = support transactions q.1 := by
  obtain ⟨hpaths, hseq, hnd, hmem⟩ := hsp.structure h hord hocc hroot
  have hitems : (l.map (fun i => ((getNode nodes i).item, (getNode nodes i).frequency))).map
      Prod.fst = l.map (fun j => (getNode nodes j).item) := by
    rw [List.map_map]; rfl
  have forward : ∀ q : Pattern Item,
      ChainPattern (l.map (fun i => ((getNode nodes i).item, (getNode nodes i).frequency))) q →
      q.1 ≠ [] ∧ q.1.Pairwise (fun a b => a < b) ∧ (∀ y ∈ q.1, y ∈ ordered) ∧
        q.2 = support transactions q.1 := by
    intro q hq
    have hsub := hq.subset
    obtain ⟨hs, L1, x, L2, e, hx, hall⟩ := hq
    refine ⟨List.ne_nil_of_mem hx, hs, fun y hy => (hmem y).1 (hitems ▸ hsub y hy), ?_⟩
    obtain ⟨l1, i, l2, hl, h1, hi, _⟩ := map_decompose _ l L1 (x, q.2) L2 e
    simp only [Prod.mk.injEq] at hi
    obtain ⟨hix, hif⟩ := hi
    obtain ⟨hi0, hil, hip⟩ := hpaths l1 i l2 hl
    have hL1 : L1.map Prod.fst = l1.map (fun j => (getNode nodes j).item) := by
      rw [← h1, List.map_map]; rfl
    have hpath : paths.getD i [] = l1.map (fun j => (getNode nodes j).item) ++ [x] := by
      rw [hip, List.map_append, List.map_singleton, hix]
    have hxl1 : x ∉ l1.map (fun j => (getNode nodes j).item) := by
      intro hmem1
      rw [hl, List.map_append, List.map_cons, hix] at hnd
      exact (List.nodup_append.1 hnd).2.2 hmem1 (List.mem_cons_self _ _)
    have hbefore : before x (l.map (fun j => (getNode nodes j).item))
        = l1.map (fun j => (getNode nodes j).item) := by
      rw [hl, List.map_append, List.map_cons, hix]
      exact before_append_cons x _ _ hxl1
    rw [← hif, h.frequency_eq i hi0 hil, List.countP_map, support]
    apply List.countP_congr
    intro tx htx
    simp only [Function.comp, decide_eq_true_eq, List.all_eq_true]
    rw [hpath]
    constructor
    · intro hpre y hy
      have : y ∈ canonical ordered tx := by
        apply hpre.subset
        rcases hall y hy with e1 | e1
        · simp [e1]
        · rw [hL1] at e1
          simp [e1]
      exact (mem_canonical.1 this).2
    · intro hall'
      have hxo : x ∈ ordered := (hmem x).1 (by rw [hl]; simp [hix])
      have hxs : x ∈ canonical ordered tx := mem_canonical.2 ⟨hxo, hall' x hx⟩
      have hpre := hseq _ (List.mem_map.2 ⟨tx, htx, rfl⟩)
      have hu := upto_is_initial x _ hxs
      have := initial_ending_unique x _ _ hnd (hu.trans hpre)
      rw [hbefore] at this
      rw [← this]
      exact hu
  refine ⟨forward q, ?_⟩
  rintro ⟨hne, hs, hsub, hsupp⟩
  have hsub' : ∀ y ∈ q.1, y ∈ (l.map (fun i =>
      ((getNode nodes i).item, (getNode nodes i).frequency))).map Prod.fst := by
    intro y hy
    rw [hitems]
    exact (hmem y).2 (hsub y hy)
  obtain ⟨x, hx, hlast⟩ := exists_last_in_order _ q.1 hne hsub'
  obtain ⟨L1, m, L2, hL, hb⟩ := split_at_first _ x (hsub' x hx)
  have hcp : ChainPattern (l.map (fun i => ((getNode nodes i).item, (getNode nodes i).frequency)))
      (q.1, m) := by
    refine ⟨hs, L1, x, L2, hL, hx, fun y hy => ?_⟩
    by_cases e : y = x
    · exact Or.inl e
    · exact Or.inr (hb ▸ hlast y hy e)
  have := (forward _ hcp).2.2.2
  simp only at this
  rw [← this] at hsupp
  have hq : q = (q.1, m) := Prod.ext rfl hsupp
  rw [hq]
  exact hcp

/-- Frequencies do not increase down the chain of a single-path tree. -/
theorem SinglePath.chain_frequency_mono {nodes : List (FPNode Item)} {paths : List (List Item)}
    {ordered : List Item} {transactions : List (Transaction Item)}
    (h : ShapeInv nodes (transactions.map (canonical ordered)) paths) (hord : ordered.Nodup)
    (hocc : ∀ x ∈ ordered, ∃ tx ∈ transactions, x ∈ tx)
    {first : Nat} {l : List Nat}
    (hroot : (getNode nodes 0).children = [first]) (hsp : SinglePath nodes first l)
    (l1 : List Nat) (i : Nat) (l2 : List Nat) (e : l = l1 ++ i :: l2) (j : Nat) (hj : j ∈ l1) :
    (getNode nodes i).frequency ≤ (getNode nodes j).frequency := by
  obtain ⟨hpaths, _, _, _⟩ := hsp.structure h hord hocc hroot
  obtain ⟨hi0, hil, hip⟩ := hpaths l1 i l2 e
  obtain ⟨a, b, hab⟩ := List.append_of_mem hj
  obtain ⟨hj0, hjl, hjp⟩ := hpaths a j (b ++ i :: l2) (by rw [e, hab]; simp)
  apply h.frequency_mono hi0 hil hj0 hjl
  rw [hip, hjp, hab]
  exact ⟨(b ++ [i]).map (fun j => (getNode nodes j).item), by simp⟩

theorem extend_conditional_eq (x : Item) (f : Nat) (conditional : List (Pattern Item))
    (acc : List (Pattern Item)) (hle : ∀ p ∈ conditional, p.2 ≤ f) :
    extend_conditional x f conditional acc
      = some (setInsertAll patternLt (conditional.map (anchor_pattern x)) acc) := by
  induction conditional generalizing acc with
  | nil => rfl
  | cons p ps ih =>
    unfold extend_conditional
    rw [if_pos (hle p (List.mem_cons_self _ _)), ih _ (fun q hq => hle q (List.mem_cons_of_mem _ hq))]
    rfl

theorem forEach_item_patterns (recurse : FPTree Item → Option (List (Pattern Item)))
    (fptree : FPTree Item) (header : List (Item × Nat)) (acc : List (Pattern Item))
    (hacc : acc.Pairwise (fun a b => patternLt a b = true))
    (hall : ∀ pair ∈ header, ∃ Rx, curr_item_patterns recurse fptree pair = some Rx) :
    ∃ R, forEach (item_patterns recurse fptree) header acc = some R ∧
      R.Pairwise (fun a b => patternLt a b = true) ∧
      ∀ q, q ∈ R ↔ q ∈ acc ∨
        ∃ pair ∈ header, ∃ Rx, curr_item_patterns recurse fptree pair = some Rx ∧ q ∈ Rx := by
  induction header generalizing acc with
  | nil => exact ⟨acc, rfl, hacc, by simp⟩
  | cons pair header ih =>
    obtain ⟨Rx, hRx⟩ := hall pair (List.mem_cons_self _ _)
    obtain ⟨R, hR, hRs, hRm⟩ := ih (setInsertAll patternLt Rx acc)
      (sorted_setInsertAll strictTotal_patternLt Rx hacc)
      (fun p hp => hall p (List.mem_cons_of_mem _ hp))
    refine ⟨R, ?_, hRs, fun q => ?_⟩
    · unfold forEach
      simp only [item_patterns, hRx]
      exact hR
    · rw [hRm, mem_setInsertAll strictTotal_patternLt]
      constructor
      · rintro ((h | h) | ⟨p, hp, Rp, hRp, hq⟩)
        · exact Or.inr ⟨pair, List.mem_cons_self _ _, Rx, hRx, h⟩
        · exact Or.inl h
        · exact Or.inr ⟨p, List.mem_cons_of_mem _ hp, Rp, hRp, hq⟩
      · rintro (h | ⟨p, hp, Rp, hRp, hq⟩)
        · exact Or.inl (Or.inr h)
        · rcases List.mem_cons.1 hp with e | e
          · subst e
            rw [hRx] at hRp
            cases hRp
            exact Or.inl (Or.inl hq)
          · exact Or.inr ⟨p, e, Rp, hRp, hq⟩

theorem header_chain {nodes : List (FPNode Item)} {header : List (Item × Nat)}
    (h : LinkInv nodes header) {x : Item} {head : Nat} (hmem : (x, head) ∈ header) :
    IsChain nodes (some head) (occurrences nodes x) := by
  have := h.chain x
  rwa [(mem_iff_mapFind? h.header_sorted x head).1 hmem] at this

theorem mem_header_iff {nodes : List (FPNode Item)} {header : List (Item × Nat)}
    (h : LinkInv nodes header) (x : Item) :
    (∃ head, (x, head) ∈ header) ↔ occurrences nodes x ≠ [] := by
  constructor
  · rintro ⟨head, hmem⟩
    have := (header_chain h hmem).start_eq
    intro e
    rw [e] at this
    simp at this
  · intro hne
    have := h.chain x
    cases hf : mapFind? x header with
    | none =>
      rw [hf] at this
      have hs := this.start_eq
      cases hoc : occurrences nodes x with
      | nil => exact absurd hoc hne
      | cons a l => rw [hoc] at hs; simp at hs
    | some head => exact ⟨head, (mem_iff_mapFind? h.header_sorted x head).2 hf⟩

theorem occurrences_ne_nil_iff {nodes : List (FPNode Item)} {paths : List (List Item)}
    {ordered : List Item} {transactions : List (Transaction Item)}
    (h : ShapeInv nodes (transactions.map (canonical ordered)) paths)
    (hocc : ∀ x ∈ ordered, ∃ tx ∈ transactions, x ∈ tx) (x : Item) :
    occurrences nodes x ≠ [] ↔ x ∈ ordered := by
  constructor
  · intro hne
    obtain ⟨i, hi⟩ := List.exists_mem_of_ne_nil _ hne
    obtain ⟨hil, hi0, hix⟩ := mem_occurrences.1 hi
    have hsub := mem_ordered_of_mem_path h (getD_mem paths [] (h.length_eq ▸ hil))
    apply hsub.subset
    rw [h.last_item hi0 hil, hix]
    simp
  · intro hx
    obtain ⟨tx, htx, hxt⟩ := hocc x hx
    have hxs : x ∈ canonical ordered tx := mem_canonical.2 ⟨hx, hxt⟩
    have hmem : before x (canonical ordered tx) ++ [x] ∈ paths :=
      (h.mem_paths _).2 (Or.inr ⟨_, List.mem_map.2 ⟨tx, htx, rfl⟩, upto_is_initial x _ hxs⟩)
    obtain ⟨i0, hi0, e0⟩ := exists_getD_of_mem [] hmem
    rw [h.length_eq] at hi0
    have hpos : 0 < i0 := by
      rcases Nat.eq_zero_or_pos i0 with e | e
      · rw [e, h.path_root.2] at e0; simp at e0
      · exact e
    have hitem : (getNode nodes i0).item = x := by
      have := h.last_item hpos hi0
      rw [e0] at this
      have := List.append_inj' this (by simp)
      simpa using this.2.symm
    exact List.ne_nil_of_mem (mem_occurrences.2 ⟨hi0, hpos, hitem⟩)

/-- The conditional transactions of `x` are duplicate-free and consist of items in
front of `x` in the insertion order. -/
theorem mem_conditional_txs {nodes : List (FPNode Item)} {paths : List (List Item)}
    {ordered : List Item} {transactions : List (Transaction Item)}
    (h : ShapeInv nodes (transactions.map (canonical ordered)) paths) (hord : ordered.Nodup)
    (x : Item) {tx' : Transaction Item} (hmem : tx' ∈ conditional_txs nodes paths x) :
    tx'.Nodup ∧ ∀ y ∈ tx', y ∈ before x ordered := by
  rw [conditional_txs, conditional_transactions_eq] at hmem
  obtain ⟨e, he, hrep⟩ := List.mem_flatMap.1 hmem
  obtain ⟨i, hi, hbase⟩ := List.mem_filterMap.1 he
  have hte : tx' = e.1 := (List.mem_replicate.1 hrep).2
  obtain ⟨hil, hi0, hix⟩ := mem_occurrences.1 hi
  unfold base_entry at hbase
  split_ifs at hbase with hd
  simp only [Option.some.injEq] at hbase
  rw [hte, ← hbase]
  simp only
  have hpm := getD_mem paths [] (h.length_eq ▸ hil)
  have hlast := h.last_item hi0 hil
  rw [hix] at hlast
  refine ⟨List.nodup_reverse.2 ((hord.sublist (mem_ordered_of_mem_path h hpm)).sublist
    (List.dropLast_sublist _)), ?_⟩
  intro y hy
  rw [List.mem_reverse] at hy
  rcases (h.mem_paths _).1 hpm with e0 | ⟨s, hs, hpre⟩
  · rw [e0] at hy; simp at hy
  · obtain ⟨tx, _, rfl⟩ := List.mem_map.1 hs
    rw [hlast] at hpre
    have hu := initial_ending_unique x _ _ (nodup_canonical hord tx) hpre
    rw [hu] at hy
    have hxtx : x ∈ tx := (mem_canonical.1 (hpre.subset (by simp))).2
    exact ((mem_before_canonical hxtx).1 hy).1

theorem length_before_lt (x : Item) (l : List Item) (hx : x ∈ l) :
    (before x l).length < l.length := by
  obtain ⟨r, hr, _⟩ := before_append_of_mem x l hx
  conv_rhs => rw [hr]
  simp

/-- The conditional tree of `x` keeps only items in front of `x`: fewer ordered items. -/
theorem ordered_items_conditional {nodes : List (FPNode Item)} {paths : List (List Item)}
    {ordered : List Item} {transactions : List (Transaction Item)}
    (h : ShapeInv nodes (transactions.map (canonical ordered)) paths) (hord : ordered.Nodup)
    (x : Item) (t : Nat) :
    (∀ y ∈ ordered_items (conditional_txs nodes paths x) t, y ∈ before x ordered) ∧
    (x ∈ ordered → (ordered_items (conditional_txs nodes paths x) t).length < ordered.length) := by
  have hsub : ∀ y ∈ ordered_items (conditional_txs nodes paths x) t, y ∈ before x ordered := by
    intro y hy
    obtain ⟨tx', htx', hyt⟩ := (tally_pos_iff _ y).1 ((mem_ordered_items _ t y).1 hy).1
    exact (mem_conditional_txs h hord x htx').2 y hyt
  refine ⟨hsub, fun hx => ?_⟩
  have := (List.subperm_of_subset (nodup_ordered_items (conditional_txs nodes paths x) t)
    hsub).length_le
  exact lt_of_le_of_lt this (length_before_lt x ordered hx)

theorem ordered_items_occur (transactions : List (Transaction Item)) (t : Nat) :
    ∀ x ∈ ordered_items transactions t, ∃ tx ∈ transactions, x ∈ tx :=
  fun x hx => (tally_pos_iff transactions x).1 ((mem_ordered_items transactions t x).1 hx).1

/-- The tree of the constructor with its invariant, in the form the mining proofs use. -/
theorem FPTree.new_shape (transactions : List (Transaction Item)) (t : Nat) :
    ∃ paths, ShapeInv (FPTree.new transactions t).nodes
        (transactions.map (canonical (ordered_items transactions t))) paths ∧
      LinkInv (FPTree.new transactions t).nodes (FPTree.new transactions t).header_table := by
  obtain ⟨paths, h⟩ := FPTree.new_inv transactions t
  exact ⟨paths, h.shape, h.link⟩

theorem ordered_nil_of_empty {nodes : List (FPNode Item)} {paths : List (List Item)}
    {ordered : List Item} {transactions : List (Transaction Item)}
    (h : ShapeInv nodes (transactions.map (canonical ordered)) paths)
    (hocc : ∀ x ∈ ordered, ∃ tx ∈ transactions, x ∈ tx)
    (hempty : (getNode nodes 0).children = []) : ordered = [] := by
  cases hord : ordered with
  | nil => rfl
  | cons x rest =>
    exfalso
    have hx : x ∈ ordered := by rw [hord]; exact List.mem_cons_self _ _
    obtain ⟨i, hi⟩ := List.exists_mem_of_ne_nil _ ((occurrences_ne_nil_iff h hocc x).2 hx)
    obtain ⟨hil, hi0, _⟩ := mem_occurrences.1 hi
    obtain ⟨p, hp, hp1, _⟩ := h.parent_path 1 (by omega) (by omega)
    have hp0 : p = 0 := by omega
    subst hp0
    have := (h.children_iff 0 1 h.path_root.1).2 ⟨by omega, hp⟩
    rw [hempty] at this
    simp at this

theorem two_items_of_branching {nodes : List (FPNode Item)} {paths : List (List Item)}
    {ordered : List Item} {transactions : List (Transaction Item)}
    (h : ShapeInv nodes (transactions.map (canonical ordered)) paths)
    {i a b : Nat} {rest : List Nat} (hch : (getNode nodes i).children = a :: b :: rest) :
    2 ≤ ordered.length := by
  have hil : i < nodes.length := by
    by_contra hge
    rw [getNode_default_children nodes i (not_lt.1 hge)] at hch
    cases hch
  have hnd := h.children_nodup i hil
  rw [hch] at hnd
  have hab : a ≠ b := by
    intro e
    have := (List.nodup_cons.1 hnd).1
    simp [e] at this
  obtain ⟨ha0, hal, _, hap⟩ := h.child_path hil (by rw [hch]; simp : a ∈ (getNode nodes i).children)
  obtain ⟨hb0, hbl, _, hbp⟩ := h.child_path hil (by rw [hch]; simp : b ∈ (getNode nodes i).children)
  have hne : (getNode nodes a).item ≠ (getNode nodes b).item := by
    intro e
    rw [e, ← hbp] at hap
    exact hab (getD_inj_of_nodup h.nodup [] (h.length_eq ▸ hal) (h.length_eq ▸ hbl) hap)
  have hma : (getNode nodes a).item ∈ ordered :=
    (mem_ordered_of_mem_path h (getD_mem paths [] (h.length_eq ▸ hal))).subset
      (by rw [hap]; simp)
  have hmb : (getNode nodes b).item ∈ ordered :=
    (mem_ordered_of_mem_path h (getD_mem paths [] (h.length_eq ▸ hbl))).subset
      (by rw [hbp]; simp)
  have hsub : [(getNode nodes a).item, (getNode nodes b).item] ⊆ ordered := by
    intro y hy
    simp only [List.mem_cons, List.mem_singleton, List.not_mem_nil, or_false] at hy
    rcases hy with e | e
    · rw [e]; exact hma
    · rw [e]; exact hmb
  have := (List.subperm_of_subset (by simp [hne]) hsub).length_le
  simpa using this

/-- Shape of a non-empty single-path tree: the root has one child, from which the
chain descends. -/
theorem single_path_chain {fptree : FPTree Item} (hroot : fptree.root = 0)
    (hne : fptree.empty = false) (hs : contains_single_path fptree = some true) :
    ∃ first l, (getNode fptree.nodes 0).children = [first] ∧ SinglePath fptree.nodes first l ∧
      l.length ≤ fptree.nodes.length := by
  unfold contains_single_path at hs
  rw [hne, hroot] at hs
  simp only [Bool.false_eq_true, if_false] at hs
  obtain ⟨l0, hl0, hlen⟩ := contains_single_path_node_true _ _ hs
  cases hl0 with
  | leaf c hc =>
    unfold FPTree.empty at hne
    rw [hroot, hc] at hne
    simp at hne
  | step c c' l hc hsp =>
    exact ⟨c', l, hc, hsp, by simp at hlen; omega⟩

theorem growth_single (transactions : List (Transaction Item)) (t f : Nat)
    (hne : (FPTree.new transactions t).empty = false)
    (hs : contains_single_path (FPTree.new transactions t) = some true) :
    ∃ R, fptree_growth (f + 1) (FPTree.new transactions t) = some R ∧
      MinedSpec transactions t R := by
  obtain ⟨paths, h, _⟩ := FPTree.new_shape transactions t
  obtain ⟨first, l, hroot, hsp, hlen⟩ := single_path_chain rfl hne hs
  obtain ⟨R, hR, hRs, hRm⟩ := single_path_loop_spec hsp (FPTree.new transactions t).nodes.length
    [] [] hlen List.Pairwise.nil
    (by
      intro q
      simp only [List.not_mem_nil, false_iff]
      rintro ⟨_, L1, x, L2, e, _⟩
      cases L1 <;> simp at e)
    (fun l1 i l2 e => ⟨by simp, fun j hj => hsp.chain_frequency_mono h (nodup_ordered_items _ _)
      (ordered_items_occur _ _) hroot l1 i l2 e j hj⟩)
  refine ⟨R, ?_, hRs, fun q => ?_⟩
  · unfold fptree_growth
    rw [hne, hs]
    simp only [Bool.false_eq_true, if_false]
    have : (FPTree.new transactions t).root = 0 := rfl
    rw [this, hroot]
    exact hR
  · rw [hRm, List.nil_append, chainPattern_iff_support h (nodup_ordered_items _ _)
      (ordered_items_occur _ _) hroot hsp]
    constructor
    · rintro ⟨a, b, c, d⟩
      exact ⟨a, b, c, d, Or.inl hs⟩
    · rintro ⟨a, b, c, d, _⟩
      exact ⟨a, b, c, d⟩

theorem empty_or_not (b : Bool) : b = true ∨ b = false := by cases b <;> simp

/-- On a single-path tree the support of a set of surviving items is the support of
one of its items. -/
theorem single_path_support (transactions : List (Transaction Item)) (t : Nat)
    (hs : contains_single_path (FPTree.new transactions t) = some true) (S : List Item)
    (hne : S ≠ []) (hsorted : S.Pairwise (fun a b => a < b))
    (hsub : ∀ y ∈ S, y ∈ ordered_items transactions t) :
    ∃ x ∈ S, support transactions S = support transactions [x] := by
  obtain ⟨paths, h, _⟩ := FPTree.new_shape transactions t
  rcases empty_or_not (FPTree.new transactions t).empty with he | he
  · have hch : (getNode (FPTree.new transactions t).nodes 0).children = [] := by
      have : (FPTree.new transactions t).root = 0 := rfl
      unfold FPTree.empty at he
      rw [this] at he
      simpa using he
    have := ordered_nil_of_empty h (ordered_items_occur _ _) hch
    cases S with
    | nil => exact absurd rfl hne
    | cons a S =>
      have := this ▸ hsub a (List.mem_cons_self _ _)
      simp at this
  · obtain ⟨first, l, hroot, hsp, _⟩ := single_path_chain rfl he hs
    have hcp := (chainPattern_iff_support h (nodup_ordered_items _ _)
      (ordered_items_occur _ _) hroot hsp (S, support transactions S)).2 ⟨hne, hsorted, hsub, rfl⟩
    obtain ⟨_, L1, x, L2, e, hx, _⟩ := hcp
    refine ⟨x, hx, ?_⟩
    have hcp' : ChainPattern ((l.map (fun i => ((getNode (FPTree.new transactions t).nodes i).item,
        (getNode (FPTree.new transactions t).nodes i).frequency)))) ([x], support transactions S) :=
      ⟨by simp, L1, x, L2, e, by simp, by simp⟩
    exact ((chainPattern_iff_support h (nodup_ordered_items _ _)
      (ordered_items_occur _ _) hroot hsp _).1 hcp').2.2.2

/-- For duplicate-free transactions the mined set is exactly the set of frequent item sets. -/
theorem MinedSpec.nodup {transactions : List (Transaction Item)} {t : Nat}
    {R : List (Pattern Item)} (hR : MinedSpec transactions t R)
    (hnd : ∀ tx ∈ transactions, tx.Nodup) (q : Pattern Item) :
    q ∈ R ↔ q.1 ≠ [] ∧ q.1.Pairwise (fun a b => a < b) ∧ q.2 = support transactions q.1 ∧
      t ≤ q.2 ∧ 1 ≤ q.2 := by
  have hitem : ∀ x ∈ ordered_items transactions t,
      t ≤ support transactions [x] ∧ 1 ≤ support transactions [x] := by
    intro x hx
    rw [support_eq_tally transactions hnd]
    have := (mem_ordered_items transactions t x).1 hx
    exact ⟨this.2, this.1⟩
  rw [hR.2 q]
  constructor
  · rintro ⟨hne, hs, hsub, hsupp, hd⟩
    refine ⟨hne, hs, hsupp, ?_⟩
    rcases hd with hd | hd | hd
    · obtain ⟨x, hx, e⟩ := single_path_support transactions t hd q.1 hne hs hsub
      rw [hsupp, e]
      exact hitem x (hsub x hx)
    · obtain ⟨x, hx⟩ := List.length_eq_one.1 hd
      rw [hsupp, hx]
      exact hitem x (hsub x (by rw [hx]; simp))
    · exact hd
  · rintro ⟨hne, hs, hsupp, ht, h1⟩
    refine ⟨hne, hs, ?_, hsupp, Or.inr (Or.inr ⟨ht, h1⟩)⟩
    intro y hy
    rw [mem_ordered_items]
    have h2 : support transactions q.1 ≤ support transactions [y] :=
      support_anti transactions (fun z hz => by
        rw [List.mem_singleton] at hz
        rw [hz]; exact hy)
    have h3 := support_le_tally transactions y
    rw [hsupp] at ht h1
    omega

theorem curr_item_patterns_eq (transactions : List (Transaction Item)) (t : Nat)
    {paths : List (List Item)}
    (h : ShapeInv (FPTree.new transactions t).nodes
      (transactions.map (canonical (ordered_items transactions t))) paths)
    (hl : LinkInv (FPTree.new transactions t).nodes (FPTree.new transactions t).header_table)
    (recurse : FPTree Item → Option (List (Pattern Item))) {x : Item} {head : Nat}
    (hmem : (x, head) ∈ (FPTree.new transactions t).header_table) (Rc : List (Pattern Item))
    (hrec : recurse (FPTree.new (conditional_txs (FPTree.new transactions t).nodes paths x) t)
      = some Rc)
    (hle : ∀ p ∈ Rc, p.2 ≤ support transactions [x]) :
    curr_item_patterns recurse (FPTree.new transactions t) (x, head)
      = some (setInsertAll patternLt (Rc.map (anchor_pattern x))
          [([x], support transactions [x])]) := by
  have hx : x ∈ ordered_items transactions t :=
    (occurrences_ne_nil_iff h (ordered_items_occur _ _) x).1
      ((mem_header_iff hl x).1 ⟨head, hmem⟩)
  have hchain := header_chain hl hmem
  unfold curr_item_patterns
  simp only
  rw [conditional_pattern_base_eq h hchain (fun i hi => ⟨(mem_occurrences.1 hi).2.1,
    (mem_occurrences.1 hi).1⟩) _ (length_occurrences_le _ _) []]
  simp only [List.nil_append]
  have hthr : (FPTree.new transactions t).minimum_support_threshold = t := rfl
  rw [hthr]
  change (match recurse (FPTree.new (conditional_txs (FPTree.new transactions t).nodes paths x) t)
    with
    | none => none
    | some conditional_patterns =>
      match chain_frequency (FPTree.new transactions t).nodes
          (FPTree.new transactions t).nodes.length (some head) 0 with
      | none => none
      | some curr_item_frequency =>
        extend_conditional x curr_item_frequency conditional_patterns
          (setInsert patternLt ([x], curr_item_frequency) [])) = _
  rw [hrec]
  simp only
  rw [chain_frequency_eq hchain _ (length_occurrences_le _ _) 0, Nat.zero_add,
    sum_frequency_occurrences h (nodup_ordered_items _ _) x hx]
  simp only
  rw [extend_conditional_eq x _ Rc _ hle]
  rfl

/-- The conditional patterns of item `x`, in terms of the original transactions. -/
theorem conditional_spec (transactions : List (Transaction Item)) (t : Nat)
    {paths : List (List Item)}
    (h : ShapeInv (FPTree.new transactions t).nodes
      (transactions.map (canonical (ordered_items transactions t))) paths)
    {x : Item} (hx : x ∈ ordered_items transactions t) {Rc : List (Pattern Item)}
    (hRc : MinedSpec (conditional_txs (FPTree.new transactions t).nodes paths x) t Rc)
    (p : Pattern Item) :
    p ∈ Rc ↔
      p.1 ≠ [] ∧ p.1.Pairwise (fun a b => a < b) ∧
      (∀ y ∈ p.1, y ∈ before x (ordered_items transactions t)) ∧
      p.2 = support transactions (x :: p.1) ∧ t ≤ p.2 ∧ 1 ≤ p.2 := by
  have hord := nodup_ordered_items transactions t
  rw [hRc.nodup (fun tx htx => (mem_conditional_txs h hord x htx).1) p]
  constructor
  · rintro ⟨h1, h2, h3, h4, h5⟩
    rw [support_conditional_txs h hord x hx p.1 h1] at h3
    by_cases hall : ∀ y ∈ p.1, y ∈ before x (ordered_items transactions t)
    · rw [if_pos hall] at h3
      exact ⟨h1, h2, hall, h3, h4, h5⟩
    · rw [if_neg hall] at h3
      omega
  · rintro ⟨h1, h2, hall, h3, h4, h5⟩
    refine ⟨h1, h2, ?_, h4, h5⟩
    rw [support_conditional_txs h hord x hx p.1 h1, if_pos hall]
    exact h3

theorem header_key_ordered (transactions : List (Transaction Item)) (t : Nat)
    {paths : List (List Item)}
    (h : ShapeInv (FPTree.new transactions t).nodes
      (transactions.map (canonical (ordered_items transactions t))) paths)
    (hl : LinkInv (FPTree.new transactions t).nodes (FPTree.new transactions t).header_table)
    (x : Item) :
    (∃ head, (x, head) ∈ (FPTree.new transactions t).header_table) ↔
      x ∈ ordered_items transactions t := by
  rw [mem_header_iff hl x, occurrences_ne_nil_iff h (ordered_items_occur _ _) x]

/-- The pattern set `curr_item_patterns` of one header-table entry. -/
theorem curr_item_patterns_spec (transactions : List (Transaction Item)) (t f : Nat)
    {paths : List (List Item)}
    (h : ShapeInv (FPTree.new transactions t).nodes
      (transactions.map (canonical (ordered_items transactions t))) paths)
    (hl : LinkInv (FPTree.new transactions t).nodes (FPTree.new transactions t).header_table)
    (IH : ∀ x ∈ ordered_items transactions t, ∃ Rc,
      fptree_growth f (FPTree.new (conditional_txs (FPTree.new transactions t).nodes paths x) t)
        = some Rc ∧
      MinedSpec (conditional_txs (FPTree.new transactions t).nodes paths x) t Rc)
    (pair : Item × Nat) (hp : pair ∈ (FPTree.new transactions t).header_table) :
    ∃ Rc, MinedSpec (conditional_txs (FPTree.new transactions t).nodes paths pair.1) t Rc ∧
      curr_item_patterns (fptree_growth f) (FPTree.new transactions t) pair
        = some (setInsertAll patternLt (Rc.map (anchor_pattern pair.1))
            [([pair.1], support transactions [pair.1])]) := by
  have hx : pair.1 ∈ ordered_items transactions t :=
    (header_key_ordered transactions t h hl pair.1).1 ⟨pair.2, hp⟩
  obtain ⟨Rc, hRc, hspec⟩ := IH pair.1 hx
  refine ⟨Rc, hspec, ?_⟩
  obtain ⟨x, head⟩ := pair
  refine curr_item_patterns_eq transactions t h hl _ hp Rc hRc ?_
  intro p hpR
  obtain ⟨_, _, _, h3, _⟩ := (conditional_spec transactions t h hx hspec p).1 hpR
  rw [h3]
  exact support_anti transactions (fun y hy => by
    rw [List.mem_singleton] at hy
    rw [hy]; exact List.mem_cons_self _ _)

theorem growth_multi (transactions : List (Transaction Item)) (t f : Nat)
    {paths : List (List Item)}
    (h : ShapeInv (FPTree.new transactions t).nodes
      (transactions.map (canonical (ordered_items transactions t))) paths)
    (hl : LinkInv (FPTree.new transactions t).nodes (FPTree.new transactions t).header_table)
    (hne : (FPTree.new transactions t).empty = false)
    (hm : contains_single_path (FPTree.new transactions t) = some false)
    (IH : ∀ x ∈ ordered_items transactions t, ∃ Rc,
      fptree_growth f (FPTree.new (conditional_txs (FPTree.new transactions t).nodes paths x) t)
        = some Rc ∧
      MinedSpec (conditional_txs (FPTree.new transactions t).nodes paths x) t Rc) :
    ∃ R, fptree_growth (f + 1) (FPTree.new transactions t) = some R ∧
      MinedSpec transactions t R := by
  have hord := nodup_ordered_items transactions t
  have hkey : ∀ pair ∈ (FPTree.new transactions t).header_table,
      pair.1 ∈ ordered_items transactions t := fun pair hp =>
    (header_key_ordered transactions t h hl pair.1).1 ⟨pair.2, hp⟩
  have hcond : ∀ x ∈ ordered_items transactions t, ∀ Rc,
      MinedSpec (conditional_txs (FPTree.new transactions t).nodes paths x) t Rc →
      ∀ p : Pattern Item, p ∈ Rc ↔
        p.1 ≠ [] ∧ p.1.Pairwise (fun a b => a < b) ∧
        (∀ y ∈ p.1, y ∈ before x (ordered_items transactions t)) ∧
        p.2 = support transactions (x :: p.1) ∧ t ≤ p.2 ∧ 1 ≤ p.2 :=
    fun x hx Rc hRc p => conditional_spec transactions t h hx hRc p
  have hpair := curr_item_patterns_spec transactions t f h hl IH
  obtain ⟨R, hR, hRs, hRm⟩ := forEach_item_patterns (fptree_growth f) (FPTree.new transactions t)
    (FPTree.new transactions t).header_table [] List.Pairwise.nil
    (fun pair hp => by
      obtain ⟨Rc, _, e⟩ := hpair pair hp
      exact ⟨_, e⟩)
  refine ⟨R, ?_, hRs, fun q => ?_⟩
  · unfold fptree_growth
    rw [hne, hm]
    simp only [Bool.false_eq_true, if_false]
    exact hR
  · rw [hRm]
    simp only [List.not_mem_nil, false_or]
    constructor
    · rintro ⟨pair, hp, Rx, hRx, hq⟩
      obtain ⟨Rc, hspec, e⟩ := hpair pair hp
      rw [hRx] at e
      cases e
      have hx := hkey pair hp
      rcases (mem_setInsertAll strictTotal_patternLt).1 hq with hq | hq
      · obtain ⟨p, hpR, rfl⟩ := List.mem_map.1 hq
        obtain ⟨h1, h2, hall, h3, h4, h5⟩ := (hcond pair.1 hx Rc hspec p).1 hpR
        refine ⟨insert_item_ne_nil _ _, sorted_insert_item _ h2, ?_, ?_, Or.inr (Or.inr ⟨h4, h5⟩)⟩
        · intro y hy
          rcases mem_insert_item.1 hy with e | e
          · rw [e]; exact hx
          · exact before_subset _ _ y (hall y e)
        · show p.2 = support transactions (setInsert itemLt pair.1 p.1)
          rw [h3]
          exact support_congr transactions (fun y => by rw [mem_insert_item, List.mem_cons])
      · rw [List.mem_singleton] at hq
        rw [hq]
        exact ⟨by simp, by simp, by simpa using hx, rfl, Or.inr (Or.inl rfl)⟩
    · rintro ⟨hne', hs, hsub, hsupp, hd⟩
      have hsingle : ∀ x, q.1 = [x] → ∃ pair ∈ (FPTree.new transactions t).header_table,
          ∃ Rx, curr_item_patterns (fptree_growth f) (FPTree.new transactions t) pair = some Rx ∧
            q ∈ Rx := by
        intro x hx
        have hxo : x ∈ ordered_items transactions t := hsub x (by rw [hx]; simp)
        obtain ⟨head, hh⟩ := (mem_header_iff hl x).2
          ((occurrences_ne_nil_iff h (ordered_items_occur _ _) x).2 hxo)
        obtain ⟨Rc, _, e⟩ := hpair (x, head) hh
        refine ⟨(x, head), hh, _, e, ?_⟩
        rw [mem_setInsertAll strictTotal_patternLt]
        right
        rw [List.mem_singleton]
        exact Prod.ext hx (by rw [hsupp, hx])
      rcases hd with hd | hd | hd
      · rw [hm] at hd; cases hd
      · obtain ⟨x, hx⟩ := List.length_eq_one.1 hd
        exact hsingle x hx
      · obtain ⟨x, hx, hlast⟩ := exists_last_in_order (ordered_items transactions t) q.1 hne' hsub
        by_cases hP : q.1.filter (fun y => decide (y ≠ x)) = []
        · have hall' : ∀ y ∈ q.1, y = x := by
            intro y hy
            by_contra hne2
            have : y ∈ q.1.filter (fun y => decide (y ≠ x)) :=
              List.mem_filter.2 ⟨hy, by simpa using hne2⟩
            rw [hP] at this
            simp at this
          have : q.1 = [x] := sorted_ext hs (by simp) (fun y => by
            constructor
            · intro hy; simp [hall' y hy]
            · intro hy
              rw [List.mem_singleton] at hy
              exact hy ▸ hx)
          exact hsingle x this
        · have hxo := hsub x hx
          obtain ⟨head, hh⟩ := (mem_header_iff hl x).2
            ((occurrences_ne_nil_iff h (ordered_items_occur _ _) x).2 hxo)
          obtain ⟨Rc, hspec, e⟩ := hpair (x, head) hh
          refine ⟨(x, head), hh, _, e, ?_⟩
          rw [mem_setInsertAll strictTotal_patternLt]
          left
          refine List.mem_map.2 ⟨(q.1.filter (fun y => decide (y ≠ x)), q.2), ?_, ?_⟩
          · rw [hcond x hxo Rc hspec]
            refine ⟨hP, hs.filter _, ?_, ?_, hd⟩
            · intro y hy
              obtain ⟨hy1, hy2⟩ := List.mem_filter.1 hy
              exact hlast y hy1 (by simpa using hy2)
            · show q.2 = _
              rw [hsupp]
              apply support_congr
              intro y
              rw [List.mem_cons, List.mem_filter]
              simp only [ne_eq, decide_not, Bool.not_eq_true', decide_eq_false_iff_not]
              constructor
              · intro hy
                by_cases e2 : y = x
                · exact Or.inl e2
                · exact Or.inr ⟨hy, e2⟩
              · rintro (e2 | e2)
                · exact e2 ▸ hx
                · exact e2.1
          · exact Prod.ext (insert_item_filter hs hx) rfl

theorem contains_single_path_total (transactions : List (Transaction Item)) (t : Nat) :
    ∃ b, contains_single_path (FPTree.new transactions t) = some b := by
  obtain ⟨paths, h, _⟩ := FPTree.new_shape transactions t
  unfold contains_single_path
  split_ifs
  · exact ⟨true, rfl⟩
  · exact contains_single_path_node_total h _ _ h.path_root.1 (by
      have : (FPTree.new transactions t).root = 0 := rfl
      omega)

theorem two_items_of_multi (transactions : List (Transaction Item)) (t : Nat)
    (hm : contains_single_path (FPTree.new transactions t) = some false) :
    2 ≤ (ordered_items transactions t).length := by
  obtain ⟨paths, h, _⟩ := FPTree.new_shape transactions t
  unfold contains_single_path at hm
  split_ifs at hm
  · cases hm
  · obtain ⟨i, a, b, rest, hch⟩ := contains_single_path_node_false _ _ hm
    exact two_items_of_branching h hch

/-- Main result of the development: with a nesting budget of at least the number of
surviving items (and at least one), `fptree_growth` returns on every tree built
by the constructor, and the returned set satisfies `MinedSpec`. -/
theorem fptree_growth_spec (k : Nat) (transactions : List (Transaction Item)) (t fuel : Nat)
    (hk : (ordered_items transactions t).length ≤ k) (hfuel : max 1 k ≤ fuel) :
    ∃ R, fptree_growth fuel (FPTree.new transactions t) = some R ∧
      MinedSpec transactions t R := by
  induction k generalizing transactions fuel with
  | zero =>
    obtain ⟨f, rfl⟩ : ∃ f, fuel = f + 1 := ⟨fuel - 1, by omega⟩
    obtain ⟨paths, h, hl⟩ := FPTree.new_shape transactions t
    rcases empty_or_not (FPTree.new transactions t).empty with he | he
    · have hch : (getNode (FPTree.new transactions t).nodes 0).children = [] := by
        have : (FPTree.new transactions t).root = 0 := rfl
        unfold FPTree.empty at he
        rw [this] at he
        simpa using he
      have hnil := ordered_nil_of_empty h (ordered_items_occur _ _) hch
      refine ⟨[], by unfold fptree_growth; rw [he]; rfl, List.Pairwise.nil, fun q => ?_⟩
      simp only [List.not_mem_nil, false_iff]
      rintro ⟨hne, _, hsub, _⟩
      cases hq : q.1 with
      | nil => exact hne hq
      | cons a S =>
        have := hsub a (by rw [hq]; exact List.mem_cons_self _ _)
        rw [hnil] at this
        simp at this
    · obtain ⟨b, hb⟩ := contains_single_path_total transactions t
      cases b with
      | true => exact growth_single transactions t f he hb
      | false =>
        have := two_items_of_multi transactions t hb
        omega
  | succ k ih =>
    obtain ⟨f, rfl⟩ : ∃ f, fuel = f + 1 := ⟨fuel - 1, by omega⟩
    obtain ⟨paths, h, hl⟩ := FPTree.new_shape transactions t
    rcases empty_or_not (FPTree.new transactions t).empty with he | he
    · have hch : (getNode (FPTree.new transactions t).nodes 0).children = [] := by
        have : (FPTree.new transactions t).root = 0 := rfl
        unfold FPTree.empty at he
        rw [this] at he
        simpa using he
      have hnil := ordered_nil_of_empty h (ordered_items_occur _ _) hch
      refine ⟨[], by unfold fptree_growth; rw [he]; rfl, List.Pairwise.nil, fun q => ?_⟩
      simp only [List.not_mem_nil, false_iff]
      rintro ⟨hne, _, hsub, _⟩
      cases hq : q.1 with
      | nil => exact hne hq
      | cons a S =>
        have := hsub a (by rw [hq]; exact List.mem_cons_self _ _)
        rw [hnil] at this
        simp at this
    · obtain ⟨b, hb⟩ := contains_single_path_total transactions t
      cases b with
      | true => exact growth_single transactions t f he hb
      | false =>
        have h2 := two_items_of_multi transactions t hb
        refine growth_multi transactions t f h hl he hb (fun x hx => ?_)
        have hlt := (ordered_items_conditional h (nodup_ordered_items _ _) x t).2 hx
        exact ih _ f (by omega) (by
          have : 1 ≤ k := by omega
          rw [Nat.max_le] at hfuel ⊢
          omega)

theorem header_keys_perm (transactions : List (Transaction Item)) (t : Nat) :
    ((FPTree.new transactions t).header_table.map Prod.fst).Perm (ordered_items transactions t) := by
  obtain ⟨paths, h, hl⟩ := FPTree.new_shape transactions t
  have hnd : ((FPTree.new transactions t).header_table.map Prod.fst).Nodup := by
    have : ((FPTree.new transactions t).header_table.map Prod.fst).Pairwise (fun a b => a < b) :=
      List.pairwise_map.2 hl.header_sorted
    exact this.imp (fun hab => ne_of_lt hab)
  refine (List.perm_ext_iff_of_nodup hnd (nodup_ordered_items _ _)).2 (fun x => ?_)
  rw [← header_key_ordered transactions t h hl x]
  simp only [List.mem_map, Prod.exists, exists_and_right, exists_eq_right]

theorem header_length (transactions : List (Transaction Item)) (t : Nat) :
    (FPTree.new transactions t).header_table.length = (ordered_items transactions t).length := by
  have := (header_keys_perm transactions t).length_eq
  simpa using this

/-- Total correctness in terms of the header table: a nesting budget of
`max 1 |header_table|` is enough. -/
theorem fptree_growth_mined (transactions : List (Transaction Item)) (t fuel : Nat)
    (hfuel : max 1 (FPTree.new transactions t).header_table.length ≤ fuel) :
    ∃ R, fptree_growth fuel (FPTree.new transactions t) = some R ∧ MinedSpec transactions t R :=
  fptree_growth_spec _ transactions t fuel (Nat.le_refl _) (by rw [← header_length]; exact hfuel)

/-- C1: for transactions without repeated items and a threshold `t ≥ 1`,
`fptree_growth (FPTree (transactions, t))` returns (with a nesting budget of at least
`max 1 |header_table|`) a duplicate-free pattern set that contains the pair `(S, n)`
exactly when `S` is a non-empty item set (strictly increasing list), `n` is the
number of transactions containing every item of `S`, and `n ≥ t`. -/
theorem fptree_growth_frequent_itemsets (transactions : List (Transaction Item)) (t fuel : Nat)
    (hnodup : ∀ tx ∈ transactions, tx.Nodup) (ht : 1 ≤ t)
    (hfuel : max 1 (FPTree.new transactions t).header_table.length ≤ fuel) :
    ∃ R, fptree_growth fuel (FPTree.new transactions t) = some R ∧
      R.Pairwise (fun a b => patternLt a b = true) ∧
      ∀ (S : List Item) (n : Nat), (S, n) ∈ R ↔
        S ≠ [] ∧ S.Pairwise (fun a b => a < b) ∧ n = support transactions S ∧ t ≤ n := by
  obtain ⟨R, hR, hspec⟩ := fptree_growth_mined transactions t fuel hfuel
  refine ⟨R, hR, hspec.1, fun S n => ?_⟩
  rw [hspec.nodup hnodup (S, n)]
  constructor
  · rintro ⟨a, b, c, d, _⟩
    exact ⟨a, b, c, d⟩
  · rintro ⟨a, b, c, d⟩
    exact ⟨a, b, c, d, le_trans ht d⟩

/-- Witness of C1: the ten transactions of `test_1` with threshold 2 give exactly the 19
asserted patterns, and these are exactly the frequent item sets. -/
theorem fptree_growth_frequent_itemsets_witness :
    fptree_growth 5 (FPTree.new test_1_transactions 2) = some test_1_patterns ∧
    ∀ (S : List Nat) (n : Nat), (S, n) ∈ test_1_patterns ↔
      S ≠ [] ∧ S.Pairwise (fun a b => a < b) ∧ n = support test_1_transactions S ∧ 2 ≤ n := by
  obtain ⟨R, hR, _, hm⟩ := fptree_growth_frequent_itemsets test_1_transactions 2 5
    (by decide) (by decide) (by decide)
  have he : fptree_growth 5 (FPTree.new test_1_transactions 2) = some test_1_patterns := by
    decide
  rw [he] at hR
  cases hR
  exact ⟨he, hm⟩

/-- C2 (evaluation at the failing input): the single transaction `{1, 1}` with threshold 2
passes the frequency filter (two occurrences), and the returned pattern `({1}, 1)`
has support 1, below the threshold. -/
theorem fptree_growth_below_threshold :
    fptree_growth 1 (FPTree.new [[1, 1]] 2) = some [([1], 1)] ∧
      support ([[1, 1]] : List (Transaction Nat)) [1] = 1 := by
  decide

/-- C3: every returned pattern `(S, n)` has `n` equal to the number of transactions
that contain every item of `S`, whether or not transactions repeat items. -/
theorem fptree_growth_support_exact (transactions : List (Transaction Item)) (t fuel : Nat)
    (hfuel : max 1 (FPTree.new transactions t).header_table.length ≤ fuel) :
    ∃ R, fptree_growth fuel (FPTree.new transactions t) = some R ∧
      ∀ (S : List Item) (n : Nat), (S, n) ∈ R → n = support transactions S := by
  obtain ⟨R, hR, hspec⟩ := fptree_growth_mined transactions t fuel hfuel
  exact ⟨R, hR, fun S n hmem => ((hspec.2 (S, n)).1 hmem).2.2.2.1⟩

/-- Witness of C3 on transactions that repeat items. -/
theorem fptree_growth_support_exact_witness :
    ∃ R, fptree_growth 2 (FPTree.new [[1, 1, 2], [2, 1], [2, 2]] 2) = some R ∧
      ∀ (S : List Nat) (n : Nat), (S, n) ∈ R →
        n = support [[1, 1, 2], [2, 1], [2, 2]] S :=
  fptree_growth_support_exact [[1, 1, 2], [2, 1], [2, 2]] 2 2 (by decide)

/-- C4: an item `x` that occurs and whose occurrence tally reaches the threshold yields the
pattern `({x}, k)` with `k` the number of transactions containing `x`, and no other
pattern with item set `{x}`. -/
theorem fptree_growth_singleton (transactions : List (Transaction Item)) (t fuel : Nat)
    (x : Item) (hx : 0 < tally transactions x) (ht : t ≤ tally transactions x)
    (hfuel : max 1 (FPTree.new transactions t).header_table.length ≤ fuel) :
    ∃ R, fptree_growth fuel (FPTree.new transactions t) = some R ∧
      ([x], support transactions [x]) ∈ R ∧
      ∀ n, ([x], n) ∈ R → n = support transactions [x] := by
  obtain ⟨R, hR, hspec⟩ := fptree_growth_mined transactions t fuel hfuel
  refine ⟨R, hR, ?_, fun n hmem => ((hspec.2 ([x], n)).1 hmem).2.2.2.1⟩
  rw [hspec.2]
  refine ⟨by simp, by simp, ?_, rfl, Or.inr (Or.inl rfl)⟩
  intro y hy
  rw [List.mem_singleton] at hy
  rw [hy, mem_ordered_items]
  exact ⟨hx, ht⟩

/-- Witness of C4: item 1 occurs three times in two transactions. -/
theorem fptree_growth_singleton_witness :
    0 < tally [[1, 1, 2], [2, 1], [2, 2]] 1 ∧ 3 ≤ tally [[1, 1, 2], [2, 1], [2, 2]] 1 ∧
    ∃ R, fptree_growth 2 (FPTree.new [[1, 1, 2], [2, 1], [2, 2]] 3) = some R ∧
      ([1], support [[1, 1, 2], [2, 1], [2, 2]] [1]) ∈ R ∧
      ∀ n, ([1], n) ∈ R → n = support [[1, 1, 2], [2, 1], [2, 2]] [1] :=
  ⟨by decide, by decide,
    fptree_growth_singleton [[1, 1, 2], [2, 1], [2, 2]] 3 2 1 (by decide) (by decide) (by decide)⟩

/-- C5 (evaluation at the failing input): with the transactions
`{1,1,1,2,2,2}, {3,3}, {4,4}` the result at threshold 3 contains `({1,2}, 1)`, a
pattern that is absent at threshold 2 and whose support is below 3. -/
theorem fptree_growth_threshold_not_monotone :
    fptree_growth 2 (FPTree.new [[1, 1, 1, 2, 2, 2], [3, 3], [4, 4]] 3)
      = some [([1], 1), ([1, 2], 1), ([2], 1)] ∧
    fptree_growth 2 (FPTree.new [[1, 1, 1, 2, 2, 2], [3, 3], [4, 4]] 2)
      = some [([1], 1), ([2], 1), ([3], 1), ([4], 1)] := by
  decide

theorem not_mem_before_of_mem_before (x y : Item) (l : List Item) (hx : x ∈ before y l) :
    y ∉ before x l := by
  induction l with
  | nil => simp [before] at hx
  | cons z l ih =>
    by_cases ezx : z = x
    · simp [before, List.takeWhile_cons, ezx]
    · by_cases ezy : z = y
      · simp [before, List.takeWhile_cons, ezy] at hx
      · have h1 : before y (z :: l) = z :: before y l := by
          simp [before, List.takeWhile_cons, ezy]
        have h2 : before x (z :: l) = z :: before x l := by
          simp [before, List.takeWhile_cons, ezx]
        rw [h1] at hx
        rw [h2]
        intro hy
        rcases List.mem_cons.1 hx with e | e
        · exact ezx e.symm
        · rcases List.mem_cons.1 hy with e' | e'
          · exact ezy e'.symm
          · exact ih e e'

theorem sublist_iff_sorted_subset {I S : List Item} (hI : I.Pairwise (fun a b => a < b)) :
    S.Sublist I ↔ S.Pairwise (fun a b => a < b) ∧ ∀ y ∈ S, y ∈ I := by
  constructor
  · intro h
    exact ⟨hI.sublist h, fun y hy => h.subset hy⟩
  · rintro ⟨hs, hsub⟩
    exact List.sublist_of_subperm_of_sorted
      (List.subperm_of_subset (hs.imp (fun hab => ne_of_lt hab)) hsub) hs hI

/-- The number of non-empty strictly increasing lists over a duplicate-free list of `n`
items is `2 ^ n - 1`. -/
theorem length_of_subsets (items : List Item) (hitems : items.Nodup) (R : List (Pattern Item))
    (hR : R.Nodup) (hfun : ∀ q ∈ R, ∀ q' ∈ R, q.1 = q'.1 → q = q')
    (hmem : ∀ S, S ∈ R.map Prod.fst ↔
      S ≠ [] ∧ S.Pairwise (fun a b => a < b) ∧ ∀ y ∈ S, y ∈ items) :
    R.length + 1 = 2 ^ items.length := by
  have hIs : (setInsertAll itemLt items []).Pairwise (fun a b => a < b) :=
    pairwise_itemLt_iff.1 (sorted_setInsertAll strictTotal_itemLt items List.Pairwise.nil)
  have hIm : ∀ y, y ∈ setInsertAll itemLt items [] ↔ y ∈ items := fun y => by
    rw [mem_setInsertAll strictTotal_itemLt]; simp
  have hInd : (setInsertAll itemLt items []).Nodup := hIs.imp (fun hab => ne_of_lt hab)
  have hIlen : (setInsertAll itemLt items []).length = items.length :=
    ((List.perm_ext_iff_of_nodup hInd hitems).2 hIm).length_eq
  have hnd : ([] :: R.map Prod.fst).Nodup := by
    refine List.nodup_cons.2 ⟨fun h => ((hmem []).1 h).1 rfl, ?_⟩
    exact List.Nodup.map_on (fun q hq q' hq' e => hfun q hq q' hq' e) hR
  have hperm : ([] :: R.map Prod.fst).Perm (setInsertAll itemLt items []).sublists := by
    refine (List.perm_ext_iff_of_nodup hnd (List.nodup_sublists.2 hInd)).2 (fun S => ?_)
    rw [List.mem_sublists, sublist_iff_sorted_subset hIs, List.mem_cons, hmem]
    constructor
    · rintro (e | ⟨_, h1, h2⟩)
      · rw [e]; exact ⟨List.Pairwise.nil, by simp⟩
      · exact ⟨h1, fun y hy => (hIm y).2 (h2 y hy)⟩
    · rintro ⟨h1, h2⟩
      by_cases e : S = []
      · exact Or.inl e
      · exact Or.inr ⟨e, h1, fun y hy => (hIm y).1 (h2 y hy)⟩
  have := hperm.length_eq
  rw [List.length_sublists, hIlen] at this
  simpa using this

/-- C6: when the tree built by the constructor is non-empty and is a single path
`first, ..., leaf` of `n` nodes below the root (all the non-root nodes), the result has
exactly `2 ^ n - 1` patterns; a pattern is in it exactly when its item set is a
non-empty set of chain items and its support is the frequency of the deepest chain node
whose item is in the set (`ChainPattern`), and every such set occurs with exactly
one support. -/
theorem single_path_completeness (transactions : List (Transaction Item)) (t fuel : Nat)
    (hfuel : 1 ≤ fuel) (hne : (FPTree.new transactions t).empty = false)
    (hs : contains_single_path (FPTree.new transactions t) = some true) :
    ∃ first l R,
      (getNode (FPTree.new transactions t).nodes (FPTree.new transactions t).root).children
        = [first] ∧
      SinglePath (FPTree.new transactions t).nodes first l ∧
      (FPTree.new transactions t).nodes.length = l.length + 1 ∧
      (l.map (fun i => (getNode (FPTree.new transactions t).nodes i).item)).Nodup ∧
      fptree_growth fuel (FPTree.new transactions t) = some R ∧
      R.length = 2 ^ l.length - 1 ∧
      (∀ q, q ∈ R ↔ ChainPattern
        (l.map (fun i => ((getNode (FPTree.new transactions t).nodes i).item,
          (getNode (FPTree.new transactions t).nodes i).frequency))) q) ∧
      (∀ S : List Item, S ≠ [] → S.Pairwise (fun a b => a < b) →
        (∀ y ∈ S, y ∈ l.map (fun i => (getNode (FPTree.new transactions t).nodes i).item)) →
        ∃! n, (S, n) ∈ R) := by
  obtain ⟨f, rfl⟩ : ∃ f, fuel = f + 1 := ⟨fuel - 1, by omega⟩
  obtain ⟨paths, h, _⟩ := FPTree.new_shape transactions t
  obtain ⟨first, l, hroot, hsp, hlen⟩ := single_path_chain rfl hne hs
  have hord := nodup_ordered_items transactions t
  have hocc := ordered_items_occur transactions t
  obtain ⟨hpaths, _, hnd, hmem⟩ := hsp.structure h hord hocc hroot
  obtain ⟨R, hR, hRs, hRm⟩ := single_path_loop_spec hsp (FPTree.new transactions t).nodes.length
    [] [] hlen List.Pairwise.nil
    (by
      intro q
      simp only [List.not_mem_nil, false_iff]
      rintro ⟨_, L1, x, L2, e, _⟩
      cases L1 <;> simp at e)
    (fun l1 i l2 e => ⟨by simp, fun j hj => hsp.chain_frequency_mono h hord hocc hroot l1 i l2 e j hj⟩)
  rw [List.nil_append] at hRm
  have hsem := fun q => (hRm q).trans (chainPattern_iff_support h hord hocc hroot hsp q)
  have hgrow : fptree_growth (f + 1) (FPTree.new transactions t) = some R := by
    unfold fptree_growth
    rw [hne, hs]
    simp only [Bool.false_eq_true, if_false]
    have : (FPTree.new transactions t).root = 0 := rfl
    rw [this, hroot]
    exact hR
  have hnodes : (FPTree.new transactions t).nodes.length = l.length + 1 := by
    have hlnd : l.Nodup := List.Nodup.of_map _ hnd
    have hpos := h.path_root.1
    have hperm : l.Perm (List.range' 1 ((FPTree.new transactions t).nodes.length - 1)) := by
      refine (List.perm_ext_iff_of_nodup hlnd (List.nodup_range' _ _)).2 (fun i => ?_)
      rw [List.mem_range'_1]
      constructor
      · intro hi
        obtain ⟨l1, l2, e⟩ := List.append_of_mem hi
        obtain ⟨h0, hlt, _⟩ := hpaths l1 i l2 e
        omega
      · rintro ⟨h0, hlt⟩
        exact hsp.all_mem h hroot i (by omega) (by omega)
    have := hperm.length_eq
    rw [List.length_range'] at this
    omega
  have hcount : R.length + 1 = 2 ^ l.length := by
    have hl : l.length = (ordered_items transactions t).length := by
      have := ((List.perm_ext_iff_of_nodup hnd hord).2 hmem).length_eq
      simpa using this
    rw [hl]
    refine length_of_subsets _ hord R (nodup_of_sorted strictTotal_patternLt hRs) ?_ ?_
    · intro q hq q' hq' e
      have h1 := ((hsem q).1 hq).2.2.2
      have h2 := ((hsem q').1 hq').2.2.2
      exact Prod.ext e (by rw [h1, h2, e])
    · intro S
      rw [List.mem_map]
      constructor
      · rintro ⟨q, hq, rfl⟩
        obtain ⟨a, b, c, _⟩ := (hsem q).1 hq
        exact ⟨a, b, c⟩
      · rintro ⟨a, b, c⟩
        exact ⟨(S, support transactions S), (hsem _).2 ⟨a, b, c, rfl⟩, rfl⟩
  refine ⟨first, l, R, hroot, hsp, hnodes, hnd, hgrow, by omega, hRm, ?_⟩
  intro S hS hsorted hsub
  refine ⟨support transactions S, (hsem _).2 ⟨hS, hsorted, fun y hy => (hmem y).1 (hsub y hy), rfl⟩,
    fun n hn => ((hsem _).1 hn).2.2.2⟩

/-- Witness of C6: three transactions over two items give the chain `1 → 2`. -/
theorem single_path_completeness_witness :
    ∃ first l R,
      (getNode (FPTree.new [[1, 2], [1, 2], [1]] 2).nodes
        (FPTree.new [[1, 2], [1, 2], [1]] 2).root).children = [first] ∧
      SinglePath (FPTree.new [[1, 2], [1, 2], [1]] 2).nodes first l ∧
      (FPTree.new [[1, 2], [1, 2], [1]] 2).nodes.length = l.length + 1 ∧
      (l.map (fun i => (getNode (FPTree.new [[1, 2], [1, 2], [1]] 2).nodes i).item)).Nodup ∧
      fptree_growth 1 (FPTree.new [[1, 2], [1, 2], [1]] 2) = some R ∧
      R.length = 2 ^ l.length - 1 ∧
      (∀ q, q ∈ R ↔ ChainPattern
        (l.map (fun i => ((getNode (FPTree.new [[1, 2], [1, 2], [1]] 2).nodes i).item,
          (getNode (FPTree.new [[1, 2], [1, 2], [1]] 2).nodes i).frequency))) q) ∧
      (∀ S : List Nat, S ≠ [] → S.Pairwise (fun a b => a < b) →
        (∀ y ∈ S, y ∈ l.map (fun i => (getNode (FPTree.new [[1, 2], [1, 2], [1]] 2).nodes i).item)) →
        ∃! n, (S, n) ∈ R) :=
  single_path_completeness [[1, 2], [1, 2], [1]] 2 1 (by decide) (by decide) (by decide)

/-- C7: downward closure. For two returned patterns `(P, p)` and `(S, s)` with
`S ⊆ P`, `s ≥ p`. -/
theorem fptree_growth_downward_closure (transactions : List (Transaction Item)) (t fuel : Nat)
    (hfuel : max 1 (FPTree.new transactions t).header_table.length ≤ fuel) :
    ∃ R, fptree_growth fuel (FPTree.new transactions t) = some R ∧
      ∀ (P : List Item) (p : Nat) (S : List Item) (s : Nat),
        (P, p) ∈ R → (S, s) ∈ R → (∀ y ∈ S, y ∈ P) → p ≤ s := by
  obtain ⟨R, hR, hspec⟩ := fptree_growth_mined transactions t fuel hfuel
  refine ⟨R, hR, fun P p S s hP hS hsub => ?_⟩
  have h1 : p = support transactions P := ((hspec.2 (P, p)).1 hP).2.2.2.1
  have h2 : s = support transactions S := ((hspec.2 (S, s)).1 hS).2.2.2.1
  rw [h1, h2]
  exact support_anti transactions hsub

/-- Witness of C7 on the transactions of `test_1`. -/
theorem fptree_growth_downward_closure_witness :
    ∃ R, fptree_growth 5 (FPTree.new test_1_transactions 2) = some R ∧
      ∀ (P : List Nat) (p : Nat) (S : List Nat) (s : Nat),
        (P, p) ∈ R → (S, s) ∈ R → (∀ y ∈ S, y ∈ P) → p ≤ s :=
  fptree_growth_downward_closure test_1_transactions 2 5 (by decide)

/-- The recursive calls of the multi-path branch return, with the budget left after one
level, sets that satisfy the specification. -/
theorem conditional_growth (transactions : List (Transaction Item)) (t f : Nat)
    {paths : List (List Item)}
    (h : ShapeInv (FPTree.new transactions t).nodes
      (transactions.map (canonical (ordered_items transactions t))) paths)
    (hm : contains_single_path (FPTree.new transactions t) = some false)
    (hfuel : max 1 (FPTree.new transactions t).header_table.length ≤ f + 1) :
    ∀ x ∈ ordered_items transactions t, ∃ Rc,
      fptree_growth f (FPTree.new (conditional_txs (FPTree.new transactions t).nodes paths x) t)
        = some Rc ∧
      MinedSpec (conditional_txs (FPTree.new transactions t).nodes paths x) t Rc := by
  intro x hx
  have h2 := two_items_of_multi transactions t hm
  have hlt := (ordered_items_conditional h (nodup_ordered_items _ _) x t).2 hx
  rw [header_length] at hfuel
  refine fptree_growth_spec ((ordered_items transactions t).length - 1) _ t f (by omega) ?_
  rw [Nat.max_le] at hfuel ⊢
  omega

/-- C8: the returned set never holds two patterns with the same item set and different
supports; and in the multi-path branch the sets `curr_item_patterns` built for two
different header-table items have no item set in common. -/
theorem fptree_growth_unambiguous (transactions : List (Transaction Item)) (t f : Nat)
    (hfuel : max 1 (FPTree.new transactions t).header_table.length ≤ f + 1) :
    ∃ R, fptree_growth (f + 1) (FPTree.new transactions t) = some R ∧
      (∀ (S : List Item) (n n' : Nat), (S, n) ∈ R → (S, n') ∈ R → n = n') ∧
      (contains_single_path (FPTree.new transactions t) = some false →
        ∀ px ∈ (FPTree.new transactions t).header_table,
        ∀ py ∈ (FPTree.new transactions t).header_table, px.1 ≠ py.1 →
          ∃ Rx Ry,
            curr_item_patterns (fptree_growth f) (FPTree.new transactions t) px = some Rx ∧
            curr_item_patterns (fptree_growth f) (FPTree.new transactions t) py = some Ry ∧
            ∀ qx ∈ Rx, ∀ qy ∈ Ry, qx.1 ≠ qy.1) := by
  obtain ⟨R, hR, hspec⟩ := fptree_growth_mined transactions t (f + 1) hfuel
  refine ⟨R, hR, fun S n n' h1 h2 => ?_, fun hm px hpx py hpy hne => ?_⟩
  · have e1 : n = support transactions S := ((hspec.2 (S, n)).1 h1).2.2.2.1
    have e2 : n' = support transactions S := ((hspec.2 (S, n')).1 h2).2.2.2.1
    rw [e1, e2]
  · obtain ⟨paths, h, hl⟩ := FPTree.new_shape transactions t
    have IH := conditional_growth transactions t f h hm hfuel
    have hshape : ∀ pair ∈ (FPTree.new transactions t).header_table, ∃ Rp,
        curr_item_patterns (fptree_growth f) (FPTree.new transactions t) pair = some Rp ∧
        ∀ q ∈ Rp, pair.1 ∈ q.1 ∧
          ∀ y ∈ q.1, y = pair.1 ∨ y ∈ before pair.1 (ordered_items transactions t) := by
      intro pair hp
      have hx : pair.1 ∈ ordered_items transactions t :=
        (header_key_ordered transactions t h hl pair.1).1 ⟨pair.2, hp⟩
      obtain ⟨Rc, hRc, e⟩ := curr_item_patterns_spec transactions t f h hl IH pair hp
      refine ⟨_, e, fun q hq => ?_⟩
      rcases (mem_setInsertAll strictTotal_patternLt).1 hq with hq | hq
      · obtain ⟨p, hpR, rfl⟩ := List.mem_map.1 hq
        obtain ⟨_, _, hall, _⟩ := (conditional_spec transactions t h hx hRc p).1 hpR
        refine ⟨mem_insert_item.2 (Or.inl rfl), fun y hy => ?_⟩
        rcases mem_insert_item.1 hy with e1 | e1
        · exact Or.inl e1
        · exact Or.inr (hall y e1)
      · rw [List.mem_singleton] at hq
        rw [hq]
        exact ⟨by simp, fun y hy => Or.inl (by simpa using hy)⟩
    obtain ⟨Rx, hRx, hx⟩ := hshape px hpx
    obtain ⟨Ry, hRy, hy⟩ := hshape py hpy
    refine ⟨Rx, Ry, hRx, hRy, fun qx hqx qy hqy e => ?_⟩
    obtain ⟨hx1, hx2⟩ := hx qx hqx
    obtain ⟨hy1, hy2⟩ := hy qy hqy
    have h1 : px.1 ∈ before py.1 (ordered_items transactions t) := by
      rcases hy2 px.1 (e ▸ hx1) with e1 | e1
      · exact absurd e1 hne
      · exact e1
    have h2 : py.1 ∈ before px.1 (ordered_items transactions t) := by
      rcases hx2 py.1 (e ▸ hy1) with e1 | e1
      · exact absurd e1.symm hne
      · exact e1
    exact not_mem_before_of_mem_before _ _ _ h1 h2

/-- Witness of C8 on the transactions of `test_1`, whose tree branches. -/
theorem fptree_growth_unambiguous_witness :
    contains_single_path (FPTree.new test_1_transactions 2) = some false ∧
    ∃ R, fptree_growth (4 + 1) (FPTree.new test_1_transactions 2) = some R ∧
      (∀ (S : List Nat) (n n' : Nat), (S, n) ∈ R → (S, n') ∈ R → n = n') ∧
      (contains_single_path (FPTree.new test_1_transactions 2) = some false →
        ∀ px ∈ (FPTree.new test_1_transactions 2).header_table,
        ∀ py ∈ (FPTree.new test_1_transactions 2).header_table, px.1 ≠ py.1 →
          ∃ Rx Ry,
            curr_item_patterns (fptree_growth 4) (FPTree.new test_1_transactions 2) px = some Rx ∧
            curr_item_patterns (fptree_growth 4) (FPTree.new test_1_transactions 2) py = some Ry ∧
            ∀ qx ∈ Rx, ∀ qy ∈ Ry, qx.1 ≠ qy.1) :=
  ⟨by decide, fptree_growth_unambiguous test_1_transactions 2 4 (by decide)⟩

/-- C9 (evaluation at the failing input): the single transaction `{1, 1, 1}` with
threshold 2, larger than the number of transactions, gives a non-empty tree and a
non-empty result. -/
theorem fptree_growth_threshold_above_size :
    ([[1, 1, 1]] : List (Transaction Nat)).length < 2 ∧
    (FPTree.new [[1, 1, 1]] 2).empty = false ∧
    fptree_growth 1 (FPTree.new [[1, 1, 1]] 2) = some [([1], 1)] := by
  decide

/-- C10: for every header-table entry the conditional pattern base is computed, and the
conditional tree built from it has a header table whose keys are keys of the
parent tree other than the entry's item, hence fewer keys; and `fptree_growth` returns
on the tree whenever the nesting budget is at least `max 1 |header_table|`. -/
theorem conditional_tree_shrinks (transactions : List (Transaction Item)) (t : Nat) :
    (∀ pair ∈ (FPTree.new transactions t).header_table,
      ∃ base, conditional_pattern_base (FPTree.new transactions t).nodes
          (FPTree.new transactions t).nodes.length (some pair.2) [] = some base ∧
        (∀ k ∈ (FPTree.new (conditional_transactions base)
            (FPTree.new transactions t).minimum_support_threshold).header_table.map Prod.fst,
          k ∈ (FPTree.new transactions t).header_table.map Prod.fst ∧ k ≠ pair.1) ∧
        (FPTree.new (conditional_transactions base)
            (FPTree.new transactions t).minimum_support_threshold).header_table.length
          < (FPTree.new transactions t).header_table.length) ∧
    (∀ fuel, max 1 (FPTree.new transactions t).header_table.length ≤ fuel →
      ∃ R, fptree_growth fuel (FPTree.new transactions t) = some R) := by
  constructor
  · intro pair hp
    obtain ⟨paths, h, hl⟩ := FPTree.new_shape transactions t
    have hx : pair.1 ∈ ordered_items transactions t :=
      (header_key_ordered transactions t h hl pair.1).1 ⟨pair.2, hp⟩
    obtain ⟨x, head⟩ := pair
    have hbase := conditional_pattern_base_eq h (header_chain hl hp)
      (fun i hi => ⟨(mem_occurrences.1 hi).2.1, (mem_occurrences.1 hi).1⟩) _
      (length_occurrences_le _ _) []
    rw [List.nil_append] at hbase
    refine ⟨_, hbase, ?_, ?_⟩
    · intro k hk
      have hk' : k ∈ ordered_items (conditional_txs (FPTree.new transactions t).nodes paths x) t :=
        (header_keys_perm _ t).mem_iff.1 hk
      have hb := (ordered_items_conditional h (nodup_ordered_items _ _) x t).1 k hk'
      refine ⟨(header_keys_perm transactions t).mem_iff.2 (before_subset _ _ k hb), ?_⟩
      intro e
      exact not_mem_before x _ (e ▸ hb)
    · have := (ordered_items_conditional h (nodup_ordered_items _ _) x t).2 hx
      rw [← header_length, ← header_length] at this
      exact this
  · intro fuel hfuel
    obtain ⟨R, hR, _⟩ := fptree_growth_mined transactions t fuel hfuel
    exact ⟨R, hR⟩

/-- Witness of C10 on the transactions of `test_1`: five header entries, budget five. -/
theorem conditional_tree_shrinks_witness :
    max 1 (FPTree.new test_1_transactions 2).header_table.length ≤ 5 ∧
    ∃ R, fptree_growth 5 (FPTree.new test_1_transactions 2) = some R :=
  ⟨by decide, (conditional_tree_shrinks test_1_transactions 2).2 5 (by decide)⟩

/-- On transactions without repeated items every returned pattern reaches the threshold. -/
theorem threshold_met_of_nodup (transactions : List (Transaction Item)) (t fuel : Nat)
    (hnodup : ∀ tx ∈ transactions, tx.Nodup)
    (hfuel : max 1 (FPTree.new transactions t).header_table.length ≤ fuel) :
    ∃ R, fptree_growth fuel (FPTree.new transactions t) = some R ∧
      ∀ (S : List Item) (n : Nat), (S, n) ∈ R → t ≤ n := by
  obtain ⟨R, hR, hspec⟩ := fptree_growth_mined transactions t fuel hfuel
  exact ⟨R, hR, fun S n hmem => ((hspec.nodup hnodup (S, n)).1 hmem).2.2.2.1⟩

/-- On transactions without repeated items the result at a higher threshold consists of
the patterns of the result at a lower threshold that reach the higher one. -/
theorem threshold_monotone_of_nodup (transactions : List (Transaction Item))
    (t1 t2 fuel1 fuel2 : Nat) (hnodup : ∀ tx ∈ transactions, tx.Nodup) (ht : t1 < t2)
    (hfuel1 : max 1 (FPTree.new transactions t1).header_table.length ≤ fuel1)
    (hfuel2 : max 1 (FPTree.new transactions t2).header_table.length ≤ fuel2) :
    ∃ R1 R2, fptree_growth fuel1 (FPTree.new transactions t1) = some R1 ∧
      fptree_growth fuel2 (FPTree.new transactions t2) = some R2 ∧
      ∀ q, q ∈ R2 ↔ q ∈ R1 ∧ t2 ≤ q.2 := by
  obtain ⟨R1, hR1, hspec1⟩ := fptree_growth_mined transactions t1 fuel1 hfuel1
  obtain ⟨R2, hR2, hspec2⟩ := fptree_growth_mined transactions t2 fuel2 hfuel2
  refine ⟨R1, R2, hR1, hR2, fun q => ?_⟩
  rw [hspec1.nodup hnodup q, hspec2.nodup hnodup q]
  constructor
  · rintro ⟨a, b, c, d, e⟩
    exact ⟨⟨a, b, c, by omega, e⟩, d⟩
  · rintro ⟨⟨a, b, c, _, e⟩, d⟩
    exact ⟨a, b, c, d, e⟩

/-- On transactions without repeated items a threshold above the number of transactions
leaves no item: the tree is empty and so is the result. -/
theorem empty_of_threshold_above_size (transactions : List (Transaction Item)) (t fuel : Nat)
    (hnodup : ∀ tx ∈ transactions, tx.Nodup) (ht : transactions.length < t) (hfuel : 1 ≤ fuel) :
    (FPTree.new transactions t).empty = true ∧
      fptree_growth fuel (FPTree.new transactions t) = some [] := by
  obtain ⟨paths, h, _⟩ := FPTree.new_shape transactions t
  have hnil : ordered_items transactions t = [] := by
    cases hord : ordered_items transactions t with
    | nil => rfl
    | cons x rest =>
      exfalso
      have hx : x ∈ ordered_items transactions t := by rw [hord]; exact List.mem_cons_self _ _
      have h1 := ((mem_ordered_items transactions t x).1 hx).2
      rw [← support_eq_tally transactions hnodup x] at h1
      have h2 : support transactions [x] ≤ transactions.length := List.countP_le_length _
      omega
  have hempty : (FPTree.new transactions t).empty = true := by
    rcases empty_or_not (FPTree.new transactions t).empty with he | he
    · exact he
    · exfalso
      have hroot : (FPTree.new transactions t).root = 0 := rfl
      unfold FPTree.empty at he
      rw [hroot] at he
      cases hch : (getNode (FPTree.new transactions t).nodes 0).children with
      | nil => rw [hch] at he; simp at he
      | cons c rest =>
        obtain ⟨hc0, hcl, _, _⟩ := h.child_path h.path_root.1 (hch ▸ List.mem_cons_self _ _)
        have hsub := mem_ordered_of_mem_path h (getD_mem paths [] (h.length_eq ▸ hcl))
        rw [hnil] at hsub
        exact h.path_ne_nil hc0 hcl (List.sublist_nil.1 hsub)
  refine ⟨hempty, ?_⟩
  obtain ⟨f, rfl⟩ : ∃ f, fuel = f + 1 := ⟨fuel - 1, by omega⟩
  unfold fptree_growth
  rw [hempty]
  rfl

theorem frequency_comparator_iff (lhs rhs : Item × Nat) :
    frequency_comparator lhs rhs = true ↔ rhs.2 < lhs.2 ∨ (rhs.2 = lhs.2 ∧ rhs.1 < lhs.1) := by
  unfold frequency_comparator
  simp only [Bool.or_eq_true, Bool.and_eq_true, decide_eq_true_eq, Bool.not_eq_true',
    decide_eq_false_iff_not, not_lt]
  constructor
  · rintro (h | ⟨h1, h2⟩)
    · exact Or.inl h
    · rcases Nat.lt_or_eq_of_le h1 with h | h
      · exact Or.inl h
      · exact Or.inr ⟨h, h2⟩
  · rintro (h | ⟨h1, h2⟩)
    · exact Or.inl h
    · exact Or.inr ⟨le_of_eq h1, h2⟩

/-- C15 (counterexample): of two pairs with equal counts the comparator places the pair
with the larger item first, so the constructor inserts item 2 before item 1 for the
single transaction `{1, 2}`. -/
theorem frequency_comparator_ties_descending :
    frequency_comparator ((2 : Nat), 1) (1, 1) = true ∧
    frequency_comparator ((1 : Nat), 1) (2, 1) = false ∧
    items_ordered_by_frequency ([[1, 2]] : List (Transaction Nat)) 1 = [(2, 1), (1, 1)] := by
  decide

/-- C15 (amended): `frequency_comparator` is a strict total order on (item, count) pairs
that places a pair before another exactly when its count is larger or the counts are
equal and its item is larger (count descending, then item descending), and
`items_ordered_by_frequency` is strictly increasing in that order. -/
theorem frequency_comparator_order :
    StrictTotal (frequency_comparator : Item × Nat → Item × Nat → Bool) ∧
    (∀ lhs rhs : Item × Nat, frequency_comparator lhs rhs = true ↔
      rhs.2 < lhs.2 ∨ (rhs.2 = lhs.2 ∧ rhs.1 < lhs.1)) ∧
    ∀ (transactions : List (Transaction Item)) (t : Nat),
      (items_ordered_by_frequency transactions t).Pairwise
        (fun a b => b.2 < a.2 ∨ (b.2 = a.2 ∧ b.1 < a.1)) := by
  refine ⟨strictTotal_frequency_comparator, frequency_comparator_iff, fun transactions t => ?_⟩
  have h := sorted_setInsertAll strictTotal_frequency_comparator
    (frequent_items transactions t) (List.Pairwise.nil : ([] : List (Item × Nat)).Pairwise _)
  exact h.imp (fun hab => (frequency_comparator_iff _ _).1 hab)

theorem insert_item_root_frequency {b : Build Item} {done : List Item}
    {prev paths : List (List Item)}
    (a : Item) (hinv : TreeInv b.nodes b.header_table (done :: prev) paths)
    (hcurr : b.curr_fpnode < b.nodes.length) :
    (getNode (insert_item a b).nodes 0).frequency = (getNode b.nodes 0).frequency := by
  unfold insert_item
  simp only
  cases hfind : (getNode b.nodes b.curr_fpnode).children.find?
      (fun c => decide ((getNode b.nodes c).item = a)) with
  | some child =>
    simp only
    have hmem := List.mem_of_find?_eq_some hfind
    obtain ⟨hc0, _, _, _⟩ := hinv.shape.child_path hcurr hmem
    rw [getNode_set, if_neg]
    rintro ⟨e, _⟩
    omega
  | none =>
    simp only
    have hpos := hinv.shape.path_root.1
    have h1 : (getNode ((b.nodes.set b.curr_fpnode { getNode b.nodes b.curr_fpnode with
            children := (getNode b.nodes b.curr_fpnode).children ++ [b.nodes.length] })
          ++ [FPNode.new a (some b.curr_fpnode)]) 0).frequency = (getNode b.nodes 0).frequency := by
      rw [getNode_append_left _ _ (by rw [List.length_set]; exact hpos), getNode_set]
      split_ifs with e
      · rw [e.1]
      · rfl
    cases hhead : mapFind? a b.header_table with
    | none => exact h1
    | some head =>
      simp only
      rw [getNode_set]
      split_ifs with e
      · rw [← h1, e.1]
      · exact h1

theorem insert_fold_root_frequency (transaction : Transaction Item) {prev : List (List Item)}
    (l : List (Item × Nat)) (b : Build Item) (done : List Item) (paths : List (List Item))
    (hinv : TreeInv b.nodes b.header_table (done :: prev) paths)
    (hcurr : b.curr_fpnode < b.nodes.length) (hpath : paths.getD b.curr_fpnode [] = done) :
    (getNode (l.foldl (fun b pair => if pair.1 ∈ transaction then insert_item pair.1 b else b) b).nodes
      0).frequency = (getNode b.nodes 0).frequency := by
  induction l generalizing b done paths with
  | nil => rfl
  | cons p l ih =>
    rw [List.foldl_cons]
    by_cases hmem : p.1 ∈ transaction
    · simp only [hmem, if_true]
      obtain ⟨paths1, h1, hc1, hp1⟩ := insert_item_inv p.1 hinv hcurr hpath
      rw [ih _ _ paths1 h1 hc1 hp1]
      exact insert_item_root_frequency p.1 hinv hcurr
    · simp only [hmem, if_false]
      exact ih b done paths hinv hcurr hpath

theorem insert_transaction_root_frequency (ordered : List (Item × Nat)) (b : Build Item)
    (transaction : Transaction Item) {seqs paths : List (List Item)}
    (hinv : TreeInv b.nodes b.header_table seqs paths) :
    (getNode (insert_transaction ordered 0 b transaction).nodes 0).frequency
      = (getNode b.nodes 0).frequency := by
  have := insert_fold_root_frequency transaction ordered { b with curr_fpnode := 0 } [] paths
    ⟨hinv.shape.start, hinv.link⟩ hinv.shape.path_root.1 hinv.shape.path_root.2
  simpa [insert_transaction] using this

theorem build_root_frequency (ordered : List (Item × Nat)) (transactions : List (Transaction Item))
    (b : Build Item) {seqs paths : List (List Item)}
    (hinv : TreeInv b.nodes b.header_table seqs paths) :
    (getNode (transactions.foldl (insert_transaction ordered 0) b).nodes 0).frequency
      = (getNode b.nodes 0).frequency := by
  induction transactions generalizing b seqs paths with
  | nil => rfl
  | cons tx txs ih =>
    rw [List.foldl_cons]
    obtain ⟨paths1, h1⟩ := insert_transaction_inv ordered b tx hinv
    rw [ih _ h1]
    exact insert_transaction_root_frequency ordered b tx hinv

/-- The root keeps the frequency 1 it is constructed with. -/
theorem FPTree.new_root_frequency (transactions : List (Transaction Item)) (t : Nat) :
    (getNode (FPTree.new transactions t).nodes (FPTree.new transactions t).root).frequency = 1 :=
  build_root_frequency (items_ordered_by_frequency transactions t) transactions
    { nodes := [FPNode.new default none], header_table := [], curr_fpnode := 0 } initial_inv

/-- C12 (counterexample): for the transactions `{1}, {1}` the only child of the root has
frequency 2, while the root, its parent, has frequency 1. -/
theorem root_child_frequency_exceeds :
    (getNode (FPTree.new ([[1], [1]] : List (Transaction Nat)) 1).nodes 1).parent
      = some (FPTree.new ([[1], [1]] : List (Transaction Nat)) 1).root ∧
    (getNode (FPTree.new ([[1], [1]] : List (Transaction Nat)) 1).nodes 1).frequency = 2 ∧
    (getNode (FPTree.new ([[1], [1]] : List (Transaction Nat)) 1).nodes
      (FPTree.new ([[1], [1]] : List (Transaction Nat)) 1).root).frequency = 1 := by
  decide

/-- C12 (amended): in every tree built by the constructor the root has frequency 1, and
along every parent-to-child edge whose parent is not the root the frequency of the child is at
most the frequency of the parent. -/
theorem child_frequency_le_parent (transactions : List (Transaction Item)) (t : Nat) :
    (getNode (FPTree.new transactions t).nodes (FPTree.new transactions t).root).frequency = 1 ∧
    ∀ i p : Nat, i < (FPTree.new transactions t).nodes.length →
      (getNode (FPTree.new transactions t).nodes i).parent = some p →
      p ≠ (FPTree.new transactions t).root →
      (getNode (FPTree.new transactions t).nodes i).frequency
        ≤ (getNode (FPTree.new transactions t).nodes p).frequency := by
  refine ⟨FPTree.new_root_frequency transactions t, fun i p hi hp hroot => ?_⟩
  obtain ⟨paths, h, _⟩ := FPTree.new_shape transactions t
  have hr : (FPTree.new transactions t).root = 0 := rfl
  rw [hr] at hroot
  have hi0 : 0 < i := by
    rcases Nat.eq_zero_or_pos i with e | e
    · rw [e, h.root_parent] at hp; cases hp
    · exact e
  obtain ⟨p', hp', hlt, hpath⟩ := h.parent_path i hi0 hi
  rw [hp] at hp'
  cases hp'
  exact h.frequency_mono hi0 hi (Nat.pos_of_ne_zero hroot) (by omega)
    (by rw [hpath]; exact List.prefix_append _ _)

/-- Witness of C12 (amended) on the transactions of `test_1`: node 2 lies below node 1. -/
theorem child_frequency_le_parent_witness :
    (getNode (FPTree.new test_1_transactions 2).nodes 2).frequency
      ≤ (getNode (FPTree.new test_1_transactions 2).nodes 1).frequency :=
  (child_frequency_le_parent test_1_transactions 2).2 2 1 (by decide) (by decide) (by decide)

theorem path_to_eq {nodes : List (FPNode Item)} {seqs paths : List (List Item)}
    (h : ShapeInv nodes seqs paths) (fuel i : Nat) (hi : i < nodes.length) (hfuel : i < fuel) :
    path_to nodes fuel i = paths.getD i [] := by
  induction fuel generalizing i with
  | zero => omega
  | succ fuel ih =>
    unfold path_to
    rcases Nat.eq_zero_or_pos i with e | e
    · subst e
      rw [h.root_parent, h.path_root.2]
    · obtain ⟨p, hp, hlt, hpath⟩ := h.parent_path i e hi
      rw [hp]
      simp only
      rw [ih p (by omega) (by omega), hpath]

/-- C11: in the tree built by the constructor the frequency of every non-root node `v` is
the number of transactions whose sequence of surviving items (the items of
`items_ordered_by_frequency` that the transaction contains, in that order) starts
with the item sequence on the path from just below the root down to `v`. -/
theorem node_frequency_counts_sequences (transactions : List (Transaction Item)) (t v : Nat)
    (hv : v < (FPTree.new transactions t).nodes.length)
    (hroot : v ≠ (FPTree.new transactions t).root) :
    (getNode (FPTree.new transactions t).nodes v).frequency
      = transactions.countP (fun transaction =>
          decide (path_to (FPTree.new transactions t).nodes
              (FPTree.new transactions t).nodes.length v
            <+: canonical (ordered_items transactions t) transaction)) := by
  obtain ⟨paths, h, _⟩ := FPTree.new_shape transactions t
  have hr : (FPTree.new transactions t).root = 0 := rfl
  rw [hr] at hroot
  rw [h.frequency_eq v (Nat.pos_of_ne_zero hroot) hv, path_to_eq h _ v hv hv, List.countP_map]
  rfl

/-- Witness of C11: node 3 of the tree of `test_1`. -/
theorem node_frequency_counts_sequences_witness :
    (getNode (FPTree.new test_1_transactions 2).nodes 3).frequency
      = test_1_transactions.countP (fun transaction =>
          decide (path_to (FPTree.new test_1_transactions 2).nodes
              (FPTree.new test_1_transactions 2).nodes.length 3
            <+: canonical (ordered_items test_1_transactions 2) transaction)) :=
  node_frequency_counts_sequences test_1_transactions 2 3 (by decide) (by decide)

theorem DownPath.end_path {nodes : List (FPNode Item)} {seqs paths : List (List Item)}
    (h : ShapeInv nodes seqs paths) {p : Nat} {l : List Nat} (hd : DownPath nodes p l)
    (hp : p < nodes.length) :
    ∃ j, j < nodes.length ∧
      paths.getD j [] = paths.getD p [] ++ l.map (fun i => (getNode nodes i).item) := by
  induction hd with
  | last p c hc =>
    obtain ⟨_, hcl, _, hpath⟩ := h.child_path hp hc
    exact ⟨c, hcl, by simpa using hpath⟩
  | cons p c l hc _ ih =>
    obtain ⟨_, hcl, _, hpath⟩ := h.child_path hp hc
    obtain ⟨j, hj, hjp⟩ := ih hcl
    refine ⟨j, hj, ?_⟩
    rw [hjp, hpath]
    simp

/-- C14: in every tree built by the constructor no node has two children carrying the same
item (the items of the children of a node form a duplicate-free list), and the items along every
downward path that starts at a child of the root, in particular along every path down
to a leaf, are pairwise distinct. -/
theorem sibling_and_path_items_distinct (transactions : List (Transaction Item)) (t : Nat) :
    (∀ i, i < (FPTree.new transactions t).nodes.length →
      ((getNode (FPTree.new transactions t).nodes i).children.map
        (fun c => (getNode (FPTree.new transactions t).nodes c).item)).Nodup) ∧
    (∀ l, DownPath (FPTree.new transactions t).nodes (FPTree.new transactions t).root l →
      (l.map (fun i => (getNode (FPTree.new transactions t).nodes i).item)).Nodup) := by
  obtain ⟨paths, h, _⟩ := FPTree.new_shape transactions t
  constructor
  · intro i hi
    refine List.Nodup.map_on ?_ (h.children_nodup i hi)
    intro c hc c' hc' e
    obtain ⟨_, hcl, _, hpath⟩ := h.child_path hi hc
    obtain ⟨_, hcl', _, hpath'⟩ := h.child_path hi hc'
    refine getD_inj_of_nodup h.nodup [] (h.length_eq ▸ hcl) (h.length_eq ▸ hcl') ?_
    rw [hpath, hpath', e]
  · intro l hd
    have hr : (FPTree.new transactions t).root = 0 := rfl
    rw [hr] at hd
    obtain ⟨j, hj, hjp⟩ := hd.end_path h h.path_root.1
    rw [h.path_root.2, List.nil_append] at hjp
    rw [← hjp]
    have hsub := mem_ordered_of_mem_path h (getD_mem paths [] (h.length_eq ▸ hj))
    exact (nodup_ordered_items transactions t).sublist hsub

/-- Witness of C14 on the tree of `test_1`: the children of the root carry distinct items,
and the downward path through the nodes 1, 2 carries distinct items. -/
theorem sibling_and_path_items_distinct_witness :
    ((getNode (FPTree.new test_1_transactions 2).nodes 0).children.map
        (fun c => (getNode (FPTree.new test_1_transactions 2).nodes c).item)).Nodup ∧
    (([1, 2] : List Nat).map
      (fun i => (getNode (FPTree.new test_1_transactions 2).nodes i).item)).Nodup :=
  ⟨(sibling_and_path_items_distinct test_1_transactions 2).1 0 (by decide),
    (sibling_and_path_items_distinct test_1_transactions 2).2 [1, 2]
      (DownPath.cons _ _ _ (by decide) (DownPath.last _ _ (by decide)))⟩

theorem IsChain.last_link {nodes : List (FPNode Item)} {start : Option Nat} {l : List Nat}
    (h : IsChain nodes start l) :
    ∀ i, l.getLast? = some i → (getNode nodes i).node_link = none := by
  induction h with
  | nil => intro i hi; simp at hi
  | cons j l hc ih =>
    intro i hi
    cases l with
    | nil =>
      simp at hi
      subst hi
      have := hc.start_eq
      simpa using this
    | cons k l' =>
      rw [List.getLast?_cons_cons] at hi
      exact ih i hi

/-- C13: in every tree built by the constructor the keys of `header_table` are exactly the
items that occur in some transaction and whose occurrence tally reaches the threshold; no
header entry refers to the root; and for every entry `(x, head)` the node-link chain that
starts at `head` is a duplicate-free list of nodes that consists of exactly the allocated
non-root nodes whose item is `x`, and its last node has a null `node_link`. -/
theorem header_table_chains (transactions : List (Transaction Item)) (t : Nat) :
    (∀ x, x ∈ (FPTree.new transactions t).header_table.map Prod.fst ↔
      (∃ transaction ∈ transactions, x ∈ transaction) ∧ t ≤ tally transactions x) ∧
    (FPTree.new transactions t).header_table.Pairwise (fun a b => a.1 < b.1) ∧
    (∀ pair ∈ (FPTree.new transactions t).header_table,
      pair.2 ≠ (FPTree.new transactions t).root) ∧
    (∀ pair ∈ (FPTree.new transactions t).header_table,
      ∃ l, IsChain (FPTree.new transactions t).nodes (some pair.2) l ∧ l.Nodup ∧
        (∀ i, i ∈ l ↔ i < (FPTree.new transactions t).nodes.length ∧
          i ≠ (FPTree.new transactions t).root ∧
          (getNode (FPTree.new transactions t).nodes i).item = pair.1) ∧
        (∀ i, l.getLast? = some i →
          (getNode (FPTree.new transactions t).nodes i).node_link = none)) := by
  obtain ⟨paths, h, hl⟩ := FPTree.new_shape transactions t
  have hr : (FPTree.new transactions t).root = 0 := rfl
  have hchain : ∀ pair ∈ (FPTree.new transactions t).header_table,
      IsChain (FPTree.new transactions t).nodes (some pair.2)
        (occurrences (FPTree.new transactions t).nodes pair.1) := fun pair hp =>
    header_chain hl (show (pair.1, pair.2) ∈ _ from hp)
  refine ⟨fun x => ?_, hl.header_sorted, fun pair hp => ?_, fun pair hp => ?_⟩
  · rw [(header_keys_perm transactions t).mem_iff, mem_ordered_items, tally_pos_iff]
  · have hc := hchain pair hp
    have hs := hc.start_eq
    cases hocc : occurrences (FPTree.new transactions t).nodes pair.1 with
    | nil => rw [hocc] at hs; simp at hs
    | cons j rest =>
      rw [hocc] at hs
      simp only [List.head?_cons, Option.some.injEq] at hs
      have hj : j ∈ occurrences (FPTree.new transactions t).nodes pair.1 := by
        rw [hocc]; exact List.mem_cons_self _ _
      have := (mem_occurrences.1 hj).2.1
      rw [hr]
      omega
  · refine ⟨_, hchain pair hp, nodup_occurrences _ _, fun i => ?_, (hchain pair hp).last_link⟩
    rw [mem_occurrences, hr]
    constructor
    · rintro ⟨a, b, c⟩
      exact ⟨a, by omega, c⟩
    · rintro ⟨a, b, c⟩
      exact ⟨a, by omega, c⟩

/-- Witness of C13 on the tree of `test_1`: the chain of item 4 starts at the node the
header table gives for it. -/
theorem header_table_chains_witness :
    ∃ l, IsChain (FPTree.new test_1_transactions 2).nodes (some 5) l ∧ l.Nodup ∧
      (∀ i, i ∈ l ↔ i < (FPTree.new test_1_transactions 2).nodes.length ∧
        i ≠ (FPTree.new test_1_transactions 2).root ∧
        (getNode (FPTree.new test_1_transactions 2).nodes i).item = 4) ∧
      (∀ i, l.getLast? = some i →
        (getNode (FPTree.new test_1_transactions 2).nodes i).node_link = none) :=
  (header_table_chains test_1_transactions 2).2.2.2 (4, 5) (by decide)

theorem SinglePath.children_le {nodes : List (FPNode Item)} {c : Nat} {l : List Nat}
    (h : SinglePath nodes c l) : ∀ v ∈ l, (getNode nodes v).children.length ≤ 1 := by
  induction h with
  | leaf c hc =>
    intro v hv
    rw [List.mem_singleton] at hv
    rw [hv, hc]
    simp
  | step c c' l hc _ ih =>
    intro v hv
    rcases List.mem_cons.1 hv with e | e
    · rw [e, hc]; simp
    · exact ih v e

theorem SinglePath.subtree_mem {nodes : List (FPNode Item)} {c : Nat} {l : List Nat}
    (h : SinglePath nodes c l) {p v : Nat} (hs : InSubtree nodes p v) (hp : p ∈ l) : v ∈ l := by
  induction hs with
  | root c => exact hp
  | child p j v hj _ ih => exact ih (h.child_mem hp hj)

theorem contains_single_path_node_branch {nodes : List (FPNode Item)} (fuel c : Nat)
    (h : contains_single_path_node nodes fuel c = some false) :
    ∃ v, InSubtree nodes c v ∧ 2 ≤ (getNode nodes v).children.length := by
  induction fuel generalizing c with
  | zero => simp [contains_single_path_node] at h
  | succ fuel ih =>
    unfold contains_single_path_node at h
    cases hch : (getNode nodes c).children with
    | nil => rw [hch] at h; simp at h
    | cons a rest =>
      cases rest with
      | nil =>
        rw [hch] at h
        simp only at h
        obtain ⟨v, hv, h2⟩ := ih a h
        exact ⟨v, InSubtree.child c a v (by rw [hch]; simp) hv, h2⟩
      | cons b rest' =>
        exact ⟨c, InSubtree.root c, by rw [hch]; simp⟩

/-- C18: whenever `contains_single_path(node)` returns, it returns true exactly when every
node of the sub-tree rooted at `node` (`node` included) has at most one child; it returns
for every node of a tree built by the constructor; and `contains_single_path(tree)` is true for
an empty tree and is `contains_single_path(tree.root)` otherwise. -/
theorem contains_single_path_iff :
    (∀ (nodes : List (FPNode Item)) (fuel fpnode : Nat) (b : Bool),
      contains_single_path_node nodes fuel fpnode = some b →
      (b = true ↔ ∀ v, InSubtree nodes fpnode v → (getNode nodes v).children.length ≤ 1)) ∧
    (∀ (transactions : List (Transaction Item)) (t fpnode : Nat),
      fpnode < (FPTree.new transactions t).nodes.length →
      ∃ b, contains_single_path_node (FPTree.new transactions t).nodes
        (FPTree.new transactions t).nodes.length fpnode = some b) ∧
    (∀ fptree : FPTree Item,
      (fptree.empty = true → contains_single_path fptree = some true) ∧
      (fptree.empty = false → contains_single_path fptree
        = contains_single_path_node fptree.nodes fptree.nodes.length fptree.root)) := by
  refine ⟨fun nodes fuel fpnode b hb => ?_, fun transactions t fpnode hlt => ?_, fun fptree => ?_⟩
  · cases b with
    | true =>
      obtain ⟨l, hl, _⟩ := contains_single_path_node_true fuel fpnode hb
      simp only [true_iff]
      intro v hv
      exact hl.children_le v (hl.subtree_mem hv hl.head_mem)
    | false =>
      obtain ⟨v, hv, h2⟩ := contains_single_path_node_branch fuel fpnode hb
      simp only [Bool.false_eq_true, false_iff, not_forall]
      exact ⟨v, hv, by omega⟩
  · obtain ⟨paths, h, _⟩ := FPTree.new_shape transactions t
    exact contains_single_path_node_total h _ _ hlt (by omega)
  · constructor
    · intro he
      unfold contains_single_path
      rw [he]
      rfl
    · intro he
      unfold contains_single_path
      rw [he]
      rfl

/-- Witness of C18 on the tree of `test_1`: the check returns false at the root, and the root
has more than one child. -/
theorem contains_single_path_iff_witness :
    contains_single_path_node (FPTree.new test_1_transactions 2).nodes
      (FPTree.new test_1_transactions 2).nodes.length 0 = some false ∧
    (false = true ↔ ∀ v, InSubtree (FPTree.new test_1_transactions 2).nodes 0 v →
      (getNode (FPTree.new test_1_transactions 2).nodes v).children.length ≤ 1) :=
  ⟨by decide, contains_single_path_iff.1 (FPTree.new test_1_transactions 2).nodes
    (FPTree.new test_1_transactions 2).nodes.length 0 false (by decide)⟩

/-- C16: for every tree built by the constructor (the conditional trees of every recursion
level are such trees) and every header-table entry: the conditional pattern base is
built, `fptree_growth` returns on the conditional tree (nesting budget
`max 1 (|header_table| - 1)`), the node-link chain is summed, every returned conditional
pattern has support at most that sum, and the loop that asserts
`curr_item_frequency >= pattern.second` runs to its end. -/
theorem conditional_support_bound (transactions : List (Transaction Item)) (t f : Nat)
    (hfuel : max 1 ((FPTree.new transactions t).header_table.length - 1) ≤ f) :
    ∀ pair ∈ (FPTree.new transactions t).header_table,
      ∃ base conditional_patterns curr_item_frequency,
        conditional_pattern_base (FPTree.new transactions t).nodes
          (FPTree.new transactions t).nodes.length (some pair.2) [] = some base ∧
        fptree_growth f (FPTree.new (conditional_transactions base)
          (FPTree.new transactions t).minimum_support_threshold) = some conditional_patterns ∧
        chain_frequency (FPTree.new transactions t).nodes
          (FPTree.new transactions t).nodes.length (some pair.2) 0 = some curr_item_frequency ∧
        (∀ pattern ∈ conditional_patterns, pattern.2 ≤ curr_item_frequency) ∧
        ∃ patterns, extend_conditional pair.1 curr_item_frequency conditional_patterns
          (setInsert patternLt ([pair.1], curr_item_frequency) []) = some patterns := by
  intro pair hp
  obtain ⟨x, head⟩ := pair
  obtain ⟨paths, h, hl⟩ := FPTree.new_shape transactions t
  have hord := nodup_ordered_items transactions t
  have hx : x ∈ ordered_items transactions t :=
    (header_key_ordered transactions t h hl x).1 ⟨head, hp⟩
  have hchain := header_chain hl hp
  have hbase := conditional_pattern_base_eq h hchain (fun i hi => ⟨(mem_occurrences.1 hi).2.1,
    (mem_occurrences.1 hi).1⟩) _ (length_occurrences_le _ _) []
  rw [List.nil_append] at hbase
  have hlt := (ordered_items_conditional h hord x t).2 hx
  rw [header_length] at hfuel
  obtain ⟨Rc, hRc, hspec⟩ := fptree_growth_spec ((ordered_items transactions t).length - 1)
    (conditional_txs (FPTree.new transactions t).nodes paths x) t f (by omega) hfuel
  have hsum := chain_frequency_eq hchain (FPTree.new transactions t).nodes.length
    (length_occurrences_le _ _) 0
  rw [Nat.zero_add, sum_frequency_occurrences h hord x hx] at hsum
  have hle : ∀ p ∈ Rc, p.2 ≤ support transactions [x] := by
    intro p hpR
    obtain ⟨_, _, _, h3, _⟩ := (conditional_spec transactions t h hx hspec p).1 hpR
    rw [h3]
    exact support_anti transactions (fun y hy => by
      rw [List.mem_singleton] at hy
      rw [hy]; exact List.mem_cons_self _ _)
  exact ⟨_, Rc, _, hbase, hRc, hsum, hle, _, extend_conditional_eq x _ Rc _ hle⟩

/-- Witness of C16 on the tree of `test_1`, at the entry of item 4. -/
theorem conditional_support_bound_witness :
    ∃ base conditional_patterns curr_item_frequency,
      conditional_pattern_base (FPTree.new test_1_transactions 2).nodes
        (FPTree.new test_1_transactions 2).nodes.length (some 5) [] = some base ∧
      fptree_growth 4 (FPTree.new (conditional_transactions base)
        (FPTree.new test_1_transactions 2).minimum_support_threshold)
          = some conditional_patterns ∧
      chain_frequency (FPTree.new test_1_transactions 2).nodes
        (FPTree.new test_1_transactions 2).nodes.length (some 5) 0 = some curr_item_frequency ∧
      (∀ pattern ∈ conditional_patterns, pattern.2 ≤ curr_item_frequency) ∧
      ∃ patterns, extend_conditional 4 curr_item_frequency conditional_patterns
        (setInsert patternLt ([4], curr_item_frequency) []) = some patterns :=
  conditional_support_bound test_1_transactions 2 4 (by decide) (4, 5) (by decide)

theorem parent_walk_eq {nodes : List (FPNode Item)} {seqs paths : List (List Item)}
    (h : ShapeInv nodes seqs paths) (fuel p : Nat) (hp : p < nodes.length) (hfuel : p < fuel) :
    ∃ visited, parent_walk nodes fuel p = some (visited, 0) ∧
      ∀ a ∈ visited, 0 < a ∧ a < nodes.length ∧ paths.getD a [] <+: paths.getD p [] := by
  induction fuel generalizing p with
  | zero => omega
  | succ fuel ih =>
    unfold parent_walk
    rcases Nat.eq_zero_or_pos p with e | e
    · subst e
      rw [h.root_parent]
      exact ⟨[], rfl, by simp⟩
    · obtain ⟨p', hp', hlt, hpath⟩ := h.parent_path p e hp
      obtain ⟨visited, hv, hall⟩ := ih p' (by omega) (by omega)
      rw [hp']
      simp only
      rw [hv]
      refine ⟨p :: visited, rfl, fun a ha => ?_⟩
      rcases List.mem_cons.1 ha with e' | e'
      · rw [e']; exact ⟨e, hp, List.prefix_refl _⟩
      · obtain ⟨a0, al, apre⟩ := hall a e'
        exact ⟨a0, al, apre.trans (by rw [hpath]; exact List.prefix_append _ _)⟩

theorem single_path_loop_succ (nodes : List (FPNode Item)) (fuel c : Nat)
    (pats : List (Pattern Item)) :
    single_path_loop nodes (fuel + 1) c pats =
      match single_path_pass nodes c pats with
      | none => none
      | some patterns =>
        match (getNode nodes c).children with
        | [] => some patterns
        | [child] => single_path_loop nodes fuel child patterns
        | _ :: _ :: _ => none := by
  rw [single_path_loop]
  rfl

theorem visited_assert (x : Item) (f : Nat) {pats : List (Pattern Item)} {cur q : Pattern Item}
    (hv : Visited x f pats cur q) (fuel : Nat) (R : List (Pattern Item))
    (hR : extend_single_path x f fuel pats cur = some R) : f ≤ q.2 := by
  induction hv generalizing fuel with
  | here pats cur =>
    cases fuel with
    | zero => simp [extend_single_path] at hR
    | succ fuel =>
      unfold extend_single_path at hR
      by_contra hlt
      rw [if_neg hlt] at hR
      cases hR
  | later pats cur next q hfind _ ih =>
    cases fuel with
    | zero => simp [extend_single_path] at hR
    | succ fuel =>
      unfold extend_single_path at hR
      by_cases hle : f ≤ cur.2
      · rw [if_pos hle] at hR
        simp only at hR
        rw [hfind] at hR
        exact ih fuel hR
      · rw [if_neg hle] at hR
        cases hR

theorem reaches_some {nodes : List (FPNode Item)} {first : Nat} {R : List (Pattern Item)}
    (fuel : Nat) (hR : single_path_loop nodes fuel first [] = some R)
    {c : Nat} {pats : List (Pattern Item)} (hr : Reaches nodes first c pats) :
    ∃ fuel', single_path_loop nodes fuel' c pats = some R := by
  induction hr with
  | start => exact ⟨fuel, hR⟩
  | step c pats child patterns _ hpass hch ih =>
    obtain ⟨fuel', h'⟩ := ih
    cases fuel' with
    | zero => simp [single_path_loop] at h'
    | succ k =>
      rw [single_path_loop_succ, hpass] at h'
      simp only at h'
      rw [hch] at h'
      exact ⟨k, h'⟩

theorem reaches_assert {nodes : List (FPNode Item)} {first : Nat} {R : List (Pattern Item)}
    (fuel : Nat) (hR : single_path_loop nodes fuel first [] = some R)
    {c : Nat} {pats : List (Pattern Item)} (hr : Reaches nodes first c pats) :
    (getNode nodes c).children.length ≤ 1 ∧
    ∀ start rest,
      setInsert patternLt ([(getNode nodes c).item], (getNode nodes c).frequency) pats
        = start :: rest →
      ∀ q, Visited (getNode nodes c).item (getNode nodes c).frequency (start :: rest) start q →
        (getNode nodes c).frequency ≤ q.2 := by
  obtain ⟨fuel', h'⟩ := reaches_some fuel hR hr
  cases fuel' with
  | zero => simp [single_path_loop] at h'
  | succ k =>
    rw [single_path_loop_succ] at h'
    cases hpass : single_path_pass nodes c pats with
    | none => rw [hpass] at h'; cases h'
    | some patterns =>
      rw [hpass] at h'
      simp only at h'
      constructor
      · cases hch : (getNode nodes c).children with
        | nil => simp
        | cons a rest =>
          cases rest with
          | nil => simp
          | cons b rest' => rw [hch] at h'; cases h'
      · intro start rest hins q hq
        unfold single_path_pass at hpass
        simp only at hpass
        rw [hins] at hpass
        simp only at hpass
        exact visited_assert _ _ hq _ _ hpass

/-- C17: on every tree built by the constructor (the conditional trees of every recursion
level are such trees) the structural assertions of `fptree_growth` hold.  A non-empty
single-path tree has exactly one root child, the loop over the path runs to its end, every node
it reaches has at most one child, and the frequency of the node is at most the support of every
pattern the range-for visits there, the patterns inserted during the pass included.  Every node
on the node-link chain of a header entry has a parent; the parent walk from that parent stops at
the root; and every node the walk visits has at least the frequency of the chain node. -/
theorem structural_assertions_hold (transactions : List (Transaction Item)) (t : Nat) :
    ((FPTree.new transactions t).empty = false →
      contains_single_path (FPTree.new transactions t) = some true →
      ∃ first R,
        (getNode (FPTree.new transactions t).nodes (FPTree.new transactions t).root).children
          = [first] ∧
        single_path_loop (FPTree.new transactions t).nodes
          (FPTree.new transactions t).nodes.length first [] = some R ∧
        ∀ c pats, Reaches (FPTree.new transactions t).nodes first c pats →
          (getNode (FPTree.new transactions t).nodes c).children.length ≤ 1 ∧
          ∀ start rest,
            setInsert patternLt ([(getNode (FPTree.new transactions t).nodes c).item],
              (getNode (FPTree.new transactions t).nodes c).frequency) pats = start :: rest →
            ∀ q, Visited (getNode (FPTree.new transactions t).nodes c).item
                (getNode (FPTree.new transactions t).nodes c).frequency (start :: rest) start q →
              (getNode (FPTree.new transactions t).nodes c).frequency ≤ q.2) ∧
    (∀ pair ∈ (FPTree.new transactions t).header_table,
      ∃ l, IsChain (FPTree.new transactions t).nodes (some pair.2) l ∧
        ∀ i ∈ l, ∃ p visited,
          (getNode (FPTree.new transactions t).nodes i).parent = some p ∧
          parent_walk (FPTree.new transactions t).nodes
            ((FPTree.new transactions t).nodes.length + 1) p
              = some (visited, (FPTree.new transactions t).root) ∧
          ∀ a ∈ visited, (getNode (FPTree.new transactions t).nodes i).frequency
            ≤ (getNode (FPTree.new transactions t).nodes a).frequency) := by
  obtain ⟨paths, h, hl⟩ := FPTree.new_shape transactions t
  have hr : (FPTree.new transactions t).root = 0 := rfl
  constructor
  · intro hne hs
    obtain ⟨first, l, hroot, hsp, hlen⟩ := single_path_chain rfl hne hs
    obtain ⟨R, hR, _, _⟩ := single_path_loop_spec hsp (FPTree.new transactions t).nodes.length
      [] [] hlen List.Pairwise.nil
      (by
        intro q
        simp only [List.not_mem_nil, false_iff]
        rintro ⟨_, L1, x, L2, e, _⟩
        cases L1 <;> simp at e)
      (fun l1 i l2 e => ⟨by simp, fun j hj => hsp.chain_frequency_mono h (nodup_ordered_items _ _)
        (ordered_items_occur _ _) hroot l1 i l2 e j hj⟩)
    refine ⟨first, R, by rw [hr]; exact hroot, hR, fun c pats hreach => ?_⟩
    exact reaches_assert _ hR hreach
  · intro pair hp
    refine ⟨_, header_chain hl (show (pair.1, pair.2) ∈ _ from hp), fun i hi => ?_⟩
    obtain ⟨hil, hi0, _⟩ := mem_occurrences.1 hi
    obtain ⟨p, hpar, hlt, hpath⟩ := h.parent_path i hi0 hil
    obtain ⟨visited, hv, hall⟩ := parent_walk_eq h ((FPTree.new transactions t).nodes.length + 1) p
      (by omega) (by omega)
    refine ⟨p, visited, hpar, by rw [hr]; exact hv, fun a ha => ?_⟩
    obtain ⟨a0, al, apre⟩ := hall a ha
    exact h.frequency_mono hi0 hil a0 al (apre.trans (by rw [hpath]; exact List.prefix_append _ _))

/-- Witness of C17: the single-path tree of `{1,2}, {1,2}, {1}` with threshold 2, and the
chain of item 4 in the tree of `test_1`. -/
theorem structural_assertions_hold_witness :
    (∃ first R,
      (getNode (FPTree.new ([[1, 2], [1, 2], [1]] : List (Transaction Nat)) 2).nodes
        (FPTree.new ([[1, 2], [1, 2], [1]] : List (Transaction Nat)) 2).root).children
          = [first] ∧
      single_path_loop (FPTree.new ([[1, 2], [1, 2], [1]] : List (Transaction Nat)) 2).nodes
        (FPTree.new ([[1, 2], [1, 2], [1]] : List (Transaction Nat)) 2).nodes.length first []
          = some R ∧
      ∀ c pats, Reaches (FPTree.new ([[1, 2], [1, 2], [1]] : List (Transaction Nat)) 2).nodes
          first c pats →
        (getNode (FPTree.new ([[1, 2], [1, 2], [1]] : List (Transaction Nat)) 2).nodes
          c).children.length ≤ 1 ∧
        ∀ start rest,
          setInsert patternLt
            ([(getNode (FPTree.new ([[1, 2], [1, 2], [1]] : List (Transaction Nat)) 2).nodes
                c).item],
              (getNode (FPTree.new ([[1, 2], [1, 2], [1]] : List (Transaction Nat)) 2).nodes
                c).frequency) pats = start :: rest →
          ∀ q, Visited
              (getNode (FPTree.new ([[1, 2], [1, 2], [1]] : List (Transaction Nat)) 2).nodes
                c).item
              (getNode (FPTree.new ([[1, 2], [1, 2], [1]] : List (Transaction Nat)) 2).nodes
                c).frequency (start :: rest) start q →
            (getNode (FPTree.new ([[1, 2], [1, 2], [1]] : List (Transaction Nat)) 2).nodes
              c).frequency ≤ q.2) ∧
    (∃ l, IsChain (FPTree.new test_1_transactions 2).nodes (some 5) l ∧
      ∀ i ∈ l, ∃ p visited,
        (getNode (FPTree.new test_1_transactions 2).nodes i).parent = some p ∧
        parent_walk (FPTree.new test_1_transactions 2).nodes
          ((FPTree.new test_1_transactions 2).nodes.length + 1) p
            = some (visited, (FPTree.new test_1_transactions 2).root) ∧
        ∀ a ∈ visited, (getNode (FPTree.new test_1_transactions 2).nodes i).frequency
          ≤ (getNode (FPTree.new test_1_transactions 2).nodes a).frequency) :=
  ⟨(structural_assertions_hold [[1, 2], [1, 2], [1]] 2).1 (by decide) (by decide),
    (structural_assertions_hold test_1_transactions 2).2 (4, 5) (by decide)⟩

/-- Two strictly increasing lists with the same elements are equal. -/
theorem sorted_unique {α : Type} {lt : α → α → Bool} (st : StrictTotal lt) {l l' : List α}
    (h : l.Pairwise (fun a b => lt a b = true)) (h' : l'.Pairwise (fun a b => lt a b = true))
    (hm : ∀ x, x ∈ l ↔ x ∈ l') : l = l' := by
  haveI : IsAntisymm α (fun a b => lt a b = true) :=
    ⟨fun a b hab hba => by
      have := st.asymm hab
      rw [this] at hba
      cases hba⟩
  exact List.eq_of_perm_of_sorted
    ((List.perm_ext_iff_of_nodup (nodup_of_sorted st h) (nodup_of_sorted st h')).2 hm) h h'

/-- The tree built by the constructor is a single path (or empty) exactly when the
sequence of surviving items of every transaction is an initial segment of the item order. -/
theorem single_path_iff_initial (transactions : List (Transaction Item)) (t : Nat) :
    contains_single_path (FPTree.new transactions t) = some true ↔
      ∀ tx ∈ transactions,
        canonical (ordered_items transactions t) tx <+: ordered_items transactions t := by
  obtain ⟨paths, h, _⟩ := FPTree.new_shape transactions t
  have hord := nodup_ordered_items transactions t
  have hr : (FPTree.new transactions t).root = 0 := rfl
  constructor
  · intro hs tx htx
    rcases empty_or_not (FPTree.new transactions t).empty with he | he
    · have hch : (getNode (FPTree.new transactions t).nodes 0).children = [] := by
        unfold FPTree.empty at he
        rw [hr] at he
        simpa using he
      rw [ordered_nil_of_empty h (ordered_items_occur _ _) hch]
      simp [canonical]
    · obtain ⟨first, l, hroot, hsp, _⟩ := single_path_chain rfl he hs
      obtain ⟨hpaths, hseq, hnd, hmem⟩ := hsp.structure h hord (ordered_items_occur _ _) hroot
      have hlast : l.map (fun j => (getNode (FPTree.new transactions t).nodes j).item) ∈ paths := by
        rcases List.eq_nil_or_concat l with e | ⟨l1, i, e⟩
        · have := hsp.head_mem
          rw [e] at this
          simp at this
        · have e' : l = l1 ++ i :: [] := by rw [e, List.concat_eq_append]
          obtain ⟨_, hil, hp⟩ := hpaths l1 i [] e'
          rw [e', ← hp]
          exact getD_mem _ _ (h.length_eq ▸ hil)
      have hsubl := mem_ordered_of_mem_path h hlast
      have hperm := (List.perm_ext_iff_of_nodup hnd hord).2 hmem
      have heq := hsubl.eq_of_length hperm.length_eq
      have hpre := hseq _ (List.mem_map.2 ⟨tx, htx, rfl⟩)
      rw [heq] at hpre
      exact hpre
  · intro hall
    obtain ⟨b, hb⟩ := contains_single_path_total transactions t
    cases b with
    | true => exact hb
    | false =>
      exfalso
      unfold contains_single_path at hb
      split_ifs at hb
      · cases hb
      · obtain ⟨i, a, c, rest, hch⟩ := contains_single_path_node_false _ _ hb
        have hil : i < (FPTree.new transactions t).nodes.length := by
          by_contra hge
          rw [getNode_default_children _ i (not_lt.1 hge)] at hch
          cases hch
        have hnd := h.children_nodup i hil
        rw [hch] at hnd
        have hac : a ≠ c := by
          intro e
          have := (List.nodup_cons.1 hnd).1
          simp [e] at this
        obtain ⟨ha0, hal, _, hap⟩ := h.child_path hil
          (by rw [hch]; simp : a ∈ (getNode (FPTree.new transactions t).nodes i).children)
        obtain ⟨hc0, hcl, _, hcp⟩ := h.child_path hil
          (by rw [hch]; simp : c ∈ (getNode (FPTree.new transactions t).nodes i).children)
        have hpre : ∀ j, 0 < j → j < (FPTree.new transactions t).nodes.length →
            paths.getD j [] <+: ordered_items transactions t := by
          intro j hj0 hjl
          have hm := getD_mem paths [] (h.length_eq ▸ hjl)
          rcases (h.mem_paths _).1 hm with e | ⟨s, hs, hq⟩
          · exact absurd e (h.path_ne_nil hj0 hjl)
          · obtain ⟨tx, htx, rfl⟩ := List.mem_map.1 hs
            exact hq.trans (hall tx htx)
        have hpa := hpre a ha0 hal
        have hpc := hpre c hc0 hcl
        have hlen : (paths.getD a []).length = (paths.getD c []).length := by
          rw [hap, hcp]; simp
        have h1 := List.prefix_of_prefix_length_le hpa hpc (le_of_eq hlen)
        have h2 := h1.eq_of_length hlen
        exact hac (getD_inj_of_nodup h.nodup [] (h.length_eq ▸ hal) (h.length_eq ▸ hcl) h2)

theorem tally_rearranged {transactions mid transactions' : List (Transaction Item)}
    (hperm : transactions.Perm mid) (hitems : List.Forall₂ List.Perm mid transactions') (x : Item) :
    tally transactions' x = tally transactions x := by
  have h1 : tally transactions x = tally mid x := (hperm.map _).sum_eq
  rw [h1]
  clear h1 hperm
  induction hitems with
  | nil => rfl
  | cons hp _ ih =>
    unfold tally at ih ⊢
    simp only [List.map_cons, List.sum_cons]
    rw [ih, hp.count_eq]

theorem support_rearranged {transactions mid transactions' : List (Transaction Item)}
    (hperm : transactions.Perm mid) (hitems : List.Forall₂ List.Perm mid transactions')
    (S : List Item) : support transactions' S = support transactions S := by
  have h1 : support transactions S = support mid S := hperm.countP_eq _
  rw [h1]
  clear h1 hperm
  induction hitems with
  | nil => rfl
  | cons hp _ ih =>
    unfold support at ih ⊢
    simp only [List.countP_cons]
    rw [ih]
    congr 1
    simp only [hp.mem_iff]

theorem mem_rearranged {transactions mid transactions' : List (Transaction Item)}
    (hperm : transactions.Perm mid) (hitems : List.Forall₂ List.Perm mid transactions') :
    (∀ tx ∈ transactions, ∃ tx' ∈ transactions', tx.Perm tx') ∧
    (∀ tx' ∈ transactions', ∃ tx ∈ transactions, tx.Perm tx') := by
  have h1 : (∀ tx ∈ mid, ∃ tx' ∈ transactions', tx.Perm tx') ∧
      (∀ tx' ∈ transactions', ∃ tx ∈ mid, tx.Perm tx') := by
    clear hperm
    induction hitems with
    | nil => simp
    | cons hp _ ih =>
      constructor
      · intro tx htx
        rcases List.mem_cons.1 htx with e | e
        · exact ⟨_, List.mem_cons_self _ _, e ▸ hp⟩
        · obtain ⟨tx', h1, h2⟩ := ih.1 tx e
          exact ⟨tx', List.mem_cons_of_mem _ h1, h2⟩
      · intro tx' htx'
        rcases List.mem_cons.1 htx' with e | e
        · exact ⟨_, List.mem_cons_self _ _, e ▸ hp⟩
        · obtain ⟨tx, h1, h2⟩ := ih.2 tx' e
          exact ⟨tx, List.mem_cons_of_mem _ h1, h2⟩
  constructor
  · intro tx htx
    exact h1.1 tx (hperm.mem_iff.1 htx)
  · intro tx' htx'
    obtain ⟨tx, h2, h3⟩ := h1.2 tx' htx'
    exact ⟨tx, hperm.mem_iff.2 h2, h3⟩

theorem items_ordered_rearranged {transactions mid transactions' : List (Transaction Item)}
    (hperm : transactions.Perm mid) (hitems : List.Forall₂ List.Perm mid transactions')
    (t : Nat) :
    items_ordered_by_frequency transactions' t = items_ordered_by_frequency transactions t := by
  refine sorted_unique strictTotal_frequency_comparator
    (sorted_setInsertAll strictTotal_frequency_comparator _ List.Pairwise.nil)
    (sorted_setInsertAll strictTotal_frequency_comparator _ List.Pairwise.nil) ?_
  rintro ⟨x, n⟩
  rw [mem_items_ordered_by_frequency, mem_items_ordered_by_frequency,
    tally_rearranged hperm hitems x]

theorem canonical_perm (ordered : List Item) {tx tx' : Transaction Item} (hp : tx.Perm tx') :
    canonical ordered tx = canonical ordered tx' := by
  unfold canonical
  apply List.filter_congr
  intro x _
  exact decide_eq_decide.2 hp.mem_iff

/-- The pattern set is determined by the transactions up to rearrangement. -/
theorem mined_rearranged {transactions mid transactions' : List (Transaction Item)}
    (hperm : transactions.Perm mid) (hitems : List.Forall₂ List.Perm mid transactions')
    (t : Nat) {R R' : List (Pattern Item)} (hR : MinedSpec transactions t R)
    (hR' : MinedSpec transactions' t R') : R = R' := by
  have hord : ordered_items transactions' t = ordered_items transactions t := by
    unfold ordered_items
    rw [items_ordered_rearranged hperm hitems t]
  have hsingle : contains_single_path (FPTree.new transactions' t) = some true ↔
      contains_single_path (FPTree.new transactions t) = some true := by
    rw [single_path_iff_initial, single_path_iff_initial, hord]
    obtain ⟨h1, h2⟩ := mem_rearranged hperm hitems
    constructor
    · intro hall tx htx
      obtain ⟨tx', htx', hp⟩ := h1 tx htx
      rw [canonical_perm _ hp]
      exact hall tx' htx'
    · intro hall tx' htx'
      obtain ⟨tx, htx, hp⟩ := h2 tx' htx'
      rw [← canonical_perm _ hp]
      exact hall tx htx
  refine sorted_unique strictTotal_patternLt hR.1 hR'.1 (fun q => ?_)
  rw [hR.2 q, hR'.2 q, hord, hsingle, support_rearranged hperm hitems]

/-- C19: the pattern set returned for a transaction list is also returned for every list
obtained from it by permuting the transactions (`transactions.Perm mid`) and permuting the
items inside the transactions (`Forall₂ Perm mid transactions'`), with the same nesting
budget. -/
theorem fptree_growth_order_independent
    (transactions mid transactions' : List (Transaction Item)) (t fuel : Nat)
    (hperm : transactions.Perm mid) (hitems : List.Forall₂ List.Perm mid transactions')
    (hfuel : max 1 (FPTree.new transactions t).header_table.length ≤ fuel) :
    ∃ R, fptree_growth fuel (FPTree.new transactions t) = some R ∧
      fptree_growth fuel (FPTree.new transactions' t) = some R := by
  obtain ⟨R, hR, hspec⟩ := fptree_growth_mined transactions t fuel hfuel
  have hlen : (FPTree.new transactions' t).header_table.length
      = (FPTree.new transactions t).header_table.length := by
    rw [header_length, header_length]
    unfold ordered_items
    rw [items_ordered_rearranged hperm hitems t]
  obtain ⟨R', hR', hspec'⟩ := fptree_growth_mined transactions' t fuel (by rw [hlen]; exact hfuel)
  refine ⟨R, hR, ?_⟩
  rw [hR', mined_rearranged hperm hitems t hspec hspec']

/-- Witness of C19: the transactions `{1,2}, {2,3}, {1,2,3}` are put in another order and
the items of two of them are reversed. -/
theorem fptree_growth_order_independent_witness :
    ∃ R, fptree_growth 3 (FPTree.new [[1, 2], [2, 3], [1, 2, 3]] 1) = some R ∧
      fptree_growth 3 (FPTree.new [[3, 2], [1, 2], [3, 1, 2]] 1) = some R :=
  fptree_growth_order_independent [[1, 2], [2, 3], [1, 2, 3]] [[2, 3], [1, 2], [1, 2, 3]]
    [[3, 2], [1, 2], [3, 1, 2]] 1 3 (by decide)
    (List.Forall₂.cons (by decide)
      (List.Forall₂.cons (by decide) (List.Forall₂.cons (by decide) List.Forall₂.nil)))
    (by decide)

/-- For duplicate-free transactions the multi-path pattern set is exactly the set of
frequent item sets. -/
theorem MultiSpec.frequent {transactions : List (Transaction Item)} {t : Nat}
    {R : List (Pattern Item)} (hR : MultiSpec transactions t R)
    (hnd : ∀ tx ∈ transactions, tx.Nodup) (q : Pattern Item) :
    q ∈ R ↔ q.1 ≠ [] ∧ q.1.Pairwise (fun a b => a < b) ∧ q.2 = support transactions q.1 ∧
      t ≤ q.2 ∧ 1 ≤ q.2 := by
  have hitem : ∀ x ∈ ordered_items transactions t,
      t ≤ support transactions [x] ∧ 1 ≤ support transactions [x] := by
    intro x hx
    rw [support_eq_tally transactions hnd]
    have := (mem_ordered_items transactions t x).1 hx
    exact ⟨this.2, this.1⟩
  rw [hR.2 q]
  constructor
  · rintro ⟨hne, hs, hsub, hsupp, hd⟩
    refine ⟨hne, hs, hsupp, ?_⟩
    rcases hd with hd | hd
    · obtain ⟨x, hx⟩ := List.length_eq_one.1 hd
      rw [hsupp, hx]
      exact hitem x (hsub x (by rw [hx]; simp))
    · exact hd
  · rintro ⟨hne, hs, hsupp, ht, h1⟩
    refine ⟨hne, hs, ?_, hsupp, Or.inr ⟨ht, h1⟩⟩
    intro y hy
    rw [mem_ordered_items]
    have h2 : support transactions q.1 ≤ support transactions [y] :=
      support_anti transactions (fun z hz => by
        rw [List.mem_singleton] at hz
        rw [hz]; exact hy)
    have h3 := support_le_tally transactions y
    rw [hsupp] at ht h1
    omega

/-- The frequent item sets of the conditional transactions of `x`, in terms of the original
transactions. -/
theorem conditional_of_frequent (transactions : List (Transaction Item)) (t : Nat)
    {paths : List (List Item)}
    (h : ShapeInv (FPTree.new transactions t).nodes
      (transactions.map (canonical (ordered_items transactions t))) paths)
    {x : Item} (hx : x ∈ ordered_items transactions t) {Rc : List (Pattern Item)}
    (hRc : ∀ p : Pattern Item, p ∈ Rc ↔ p.1 ≠ [] ∧ p.1.Pairwise (fun a b => a < b) ∧
      p.2 = support (conditional_txs (FPTree.new transactions t).nodes paths x) p.1 ∧
      t ≤ p.2 ∧ 1 ≤ p.2)
    (p : Pattern Item) :
    p ∈ Rc ↔
      p.1 ≠ [] ∧ p.1.Pairwise (fun a b => a < b) ∧
      (∀ y ∈ p.1, y ∈ before x (ordered_items transactions t)) ∧
      p.2 = support transactions (x :: p.1) ∧ t ≤ p.2 ∧ 1 ≤ p.2 := by
  have hord := nodup_ordered_items transactions t
  rw [hRc p]
  constructor
  · rintro ⟨h1, h2, h3, h4, h5⟩
    rw [support_conditional_txs h hord x hx p.1 h1] at h3
    by_cases hall : ∀ y ∈ p.1, y ∈ before x (ordered_items transactions t)
    · rw [if_pos hall] at h3
      exact ⟨h1, h2, hall, h3, h4, h5⟩
    · rw [if_neg hall] at h3
      omega
  · rintro ⟨h1, h2, hall, h3, h4, h5⟩
    refine ⟨h1, h2, ?_, h4, h5⟩
    rw [support_conditional_txs h hord x hx p.1 h1, if_pos hall]
    exact h3

/-- The loop over the header table, for an arbitrary miner `recurse` of the conditional
trees that returns their frequent item sets. -/
theorem multi_path_generic (transactions : List (Transaction Item)) (t : Nat)
    {paths : List (List Item)}
    (h : ShapeInv (FPTree.new transactions t).nodes
      (transactions.map (canonical (ordered_items transactions t))) paths)
    (hl : LinkInv (FPTree.new transactions t).nodes (FPTree.new transactions t).header_table)
    (recurse : FPTree Item → Option (List (Pattern Item)))
    (IH : ∀ x ∈ ordered_items transactions t, ∃ Rc,
      recurse (FPTree.new (conditional_txs (FPTree.new transactions t).nodes paths x) t)
        = some Rc ∧
      ∀ p : Pattern Item, p ∈ Rc ↔
        p.1 ≠ [] ∧ p.1.Pairwise (fun a b => a < b) ∧
        (∀ y ∈ p.1, y ∈ before x (ordered_items transactions t)) ∧
        p.2 = support transactions (x :: p.1) ∧ t ≤ p.2 ∧ 1 ≤ p.2) :
    ∃ R, forEach (item_patterns recurse (FPTree.new transactions t))
        (FPTree.new transactions t).header_table [] = some R ∧
      MultiSpec transactions t R := by
  have hord := nodup_ordered_items transactions t
  have hkey : ∀ pair ∈ (FPTree.new transactions t).header_table,
      pair.1 ∈ ordered_items transactions t := fun pair hp =>
    (header_key_ordered transactions t h hl pair.1).1 ⟨pair.2, hp⟩
  have hpair : ∀ pair ∈ (FPTree.new transactions t).header_table, ∃ Rc : List (Pattern Item),
      (∀ p : Pattern Item, p ∈ Rc ↔
        p.1 ≠ [] ∧ p.1.Pairwise (fun a b => a < b) ∧
        (∀ y ∈ p.1, y ∈ before pair.1 (ordered_items transactions t)) ∧
        p.2 = support transactions (pair.1 :: p.1) ∧ t ≤ p.2 ∧ 1 ≤ p.2) ∧
      curr_item_patterns recurse (FPTree.new transactions t) pair
        = some (setInsertAll patternLt (Rc.map (anchor_pattern pair.1))
            [([pair.1], support transactions [pair.1])]) := by
    intro pair hp
    obtain ⟨Rc, hRc, hspec⟩ := IH pair.1 (hkey pair hp)
    refine ⟨Rc, hspec, ?_⟩
    obtain ⟨x, head⟩ := pair
    refine curr_item_patterns_eq transactions t h hl _ hp Rc hRc ?_
    intro p hpR
    obtain ⟨_, _, _, h3, _⟩ := (hspec p).1 hpR
    rw [h3]
    exact support_anti transactions (fun y hy => by
      rw [List.mem_singleton] at hy
      rw [hy]; exact List.mem_cons_self _ _)
  obtain ⟨R, hR, hRs, hRm⟩ := forEach_item_patterns recurse (FPTree.new transactions t)
    (FPTree.new transactions t).header_table [] List.Pairwise.nil
    (fun pair hp => by
      obtain ⟨Rc, _, e⟩ := hpair pair hp
      exact ⟨_, e⟩)
  refine ⟨R, hR, hRs, fun q => ?_⟩
  rw [hRm]
  simp only [List.not_mem_nil, false_or]
  constructor
  · rintro ⟨pair, hp, Rx, hRx, hq⟩
    obtain ⟨Rc, hspec, e⟩ := hpair pair hp
    rw [hRx] at e
    cases e
    have hx := hkey pair hp
    rcases (mem_setInsertAll strictTotal_patternLt).1 hq with hq | hq
    · obtain ⟨p, hpR, rfl⟩ := List.mem_map.1 hq
      obtain ⟨h1, h2, hall, h3, h4, h5⟩ := (hspec p).1 hpR
      refine ⟨insert_item_ne_nil _ _, sorted_insert_item _ h2, ?_, ?_, Or.inr ⟨h4, h5⟩⟩
      · intro y hy
        rcases mem_insert_item.1 hy with e | e
        · rw [e]; exact hx
        · exact before_subset _ _ y (hall y e)
      · show p.2 = support transactions (setInsert itemLt pair.1 p.1)
        rw [h3]
        exact support_congr transactions (fun y => by rw [mem_insert_item, List.mem_cons])
    · rw [List.mem_singleton] at hq
      rw [hq]
      exact ⟨by simp, by simp, by simpa using hx, rfl, Or.inl rfl⟩
  · rintro ⟨hne', hs, hsub, hsupp, hd⟩
    have hsingle : ∀ x, q.1 = [x] → ∃ pair ∈ (FPTree.new transactions t).header_table,
        ∃ Rx, curr_item_patterns recurse (FPTree.new transactions t) pair = some Rx ∧
          q ∈ Rx := by
      intro x hx
      have hxo : x ∈ ordered_items transactions t := hsub x (by rw [hx]; simp)
      obtain ⟨head, hh⟩ := (mem_header_iff hl x).2
        ((occurrences_ne_nil_iff h (ordered_items_occur _ _) x).2 hxo)
      obtain ⟨Rc, _, e⟩ := hpair (x, head) hh
      refine ⟨(x, head), hh, _, e, ?_⟩
      rw [mem_setInsertAll strictTotal_patternLt]
      right
      rw [List.mem_singleton]
      exact Prod.ext hx (by rw [hsupp, hx])
    rcases hd with hd | hd
    · obtain ⟨x, hx⟩ := List.length_eq_one.1 hd
      exact hsingle x hx
    · obtain ⟨x, hx, hlast⟩ := exists_last_in_order (ordered_items transactions t) q.1 hne' hsub
      by_cases hP : q.1.filter (fun y => decide (y ≠ x)) = []
      · have hall' : ∀ y ∈ q.1, y = x := by
          intro y hy
          by_contra hne2
          have : y ∈ q.1.filter (fun y => decide (y ≠ x)) :=
            List.mem_filter.2 ⟨hy, by simpa using hne2⟩
          rw [hP] at this
          simp at this
        have : q.1 = [x] := sorted_ext hs (by simp) (fun y => by
          constructor
          · intro hy; simp [hall' y hy]
          · intro hy
            rw [List.mem_singleton] at hy
            exact hy ▸ hx)
        exact hsingle x this
      · have hxo := hsub x hx
        obtain ⟨head, hh⟩ := (mem_header_iff hl x).2
          ((occurrences_ne_nil_iff h (ordered_items_occur _ _) x).2 hxo)
        obtain ⟨Rc, hspec, e⟩ := hpair (x, head) hh
        refine ⟨(x, head), hh, _, e, ?_⟩
        rw [mem_setInsertAll strictTotal_patternLt]
        left
        refine List.mem_map.2 ⟨(q.1.filter (fun y => decide (y ≠ x)), q.2), ?_, ?_⟩
        · rw [hspec]
          refine ⟨hP, hs.filter _, ?_, ?_, hd⟩
          · intro y hy
            obtain ⟨hy1, hy2⟩ := List.mem_filter.1 hy
            exact hlast y hy1 (by simpa using hy2)
          · show q.2 = _
            rw [hsupp]
            apply support_congr
            intro y
            rw [List.mem_cons, List.mem_filter]
            simp only [ne_eq, decide_not, Bool.not_eq_true', decide_eq_false_iff_not]
            constructor
            · intro hy
              by_cases e2 : y = x
              · exact Or.inl e2
              · exact Or.inr ⟨hy, e2⟩
            · rintro (e2 | e2)
              · exact e2 ▸ hx
              · exact e2.1
        · exact Prod.ext (insert_item_filter hs hx) rfl

/-- Total correctness of the variant without the single-path branch: with a nesting budget
above the number of surviving items it returns, and the result satisfies `MultiSpec`. -/
theorem fptree_growth_multi_path_spec (k : Nat) (transactions : List (Transaction Item))
    (t fuel : Nat) (hk : (ordered_items transactions t).length ≤ k) (hfuel : k + 1 ≤ fuel) :
    ∃ R, fptree_growth_multi_path fuel (FPTree.new transactions t) = some R ∧
      MultiSpec transactions t R := by
  induction k generalizing transactions fuel with
  | zero =>
    obtain ⟨f, rfl⟩ : ∃ f, fuel = f + 1 := ⟨fuel - 1, by omega⟩
    obtain ⟨paths, h, hl⟩ := FPTree.new_shape transactions t
    have hnil : ordered_items transactions t = [] := List.length_eq_zero.1 (by omega)
    obtain ⟨R, hR, hspec⟩ := multi_path_generic transactions t h hl (fptree_growth_multi_path f)
      (fun x hx => by rw [hnil] at hx; simp at hx)
    rcases empty_or_not (FPTree.new transactions t).empty with he | he
    · refine ⟨[], by unfold fptree_growth_multi_path; rw [he]; rfl, List.Pairwise.nil, fun q => ?_⟩
      simp only [List.not_mem_nil, false_iff]
      rintro ⟨hne, _, hsub, _⟩
      cases hq : q.1 with
      | nil => exact hne hq
      | cons a S =>
        have := hsub a (by rw [hq]; exact List.mem_cons_self _ _)
        rw [hnil] at this
        simp at this
    · refine ⟨R, ?_, hspec⟩
      unfold fptree_growth_multi_path
      rw [he]
      exact hR
  | succ k ih =>
    obtain ⟨f, rfl⟩ : ∃ f, fuel = f + 1 := ⟨fuel - 1, by omega⟩
    obtain ⟨paths, h, hl⟩ := FPTree.new_shape transactions t
    have hord := nodup_ordered_items transactions t
    obtain ⟨R, hR, hspec⟩ := multi_path_generic transactions t h hl (fptree_growth_multi_path f)
      (fun x hx => by
        have hlt := (ordered_items_conditional h hord x t).2 hx
        obtain ⟨Rc, hRc, hc⟩ := ih
          (conditional_txs (FPTree.new transactions t).nodes paths x) f (by omega) (by omega)
        exact ⟨Rc, hRc, conditional_of_frequent transactions t h hx
          (hc.frequent (fun tx htx => (mem_conditional_txs h hord x htx).1))⟩)
    rcases empty_or_not (FPTree.new transactions t).empty with he | he
    · have hch : (getNode (FPTree.new transactions t).nodes 0).children = [] := by
        have : (FPTree.new transactions t).root = 0 := rfl
        unfold FPTree.empty at he
        rw [this] at he
        simpa using he
      have hnil := ordered_nil_of_empty h (ordered_items_occur _ _) hch
      refine ⟨[], by unfold fptree_growth_multi_path; rw [he]; rfl, List.Pairwise.nil, fun q => ?_⟩
      simp only [List.not_mem_nil, false_iff]
      rintro ⟨hne, _, hsub, _⟩
      cases hq : q.1 with
      | nil => exact hne hq
      | cons a S =>
        have := hsub a (by rw [hq]; exact List.mem_cons_self _ _)
        rw [hnil] at this
        simp at this
    · refine ⟨R, ?_, hspec⟩
      unfold fptree_growth_multi_path
      rw [he]
      exact hR

/-- C20: on a non-empty single-path tree built from duplicate-free transactions, for every
threshold and so for every threshold of at least 1, the pattern set of the single-path
enumeration, which is the result of `fptree_growth`, is also the pattern set of the loop over
the header table with the conditional trees mined by `fptree_growth`, and the result of the
variant of `fptree_growth` without the single-path branch (nesting budget above the size of
the header table). -/
theorem single_path_shortcut_is_optimisation (transactions : List (Transaction Item))
    (t fuel : Nat) (hnodup : ∀ tx ∈ transactions, tx.Nodup)
    (hne : (FPTree.new transactions t).empty = false)
    (hs : contains_single_path (FPTree.new transactions t) = some true)
    (hfuel : (FPTree.new transactions t).header_table.length + 1 ≤ fuel) :
    ∃ first R,
      (getNode (FPTree.new transactions t).nodes (FPTree.new transactions t).root).children
        = [first] ∧
      single_path_loop (FPTree.new transactions t).nodes
        (FPTree.new transactions t).nodes.length first [] = some R ∧
      fptree_growth fuel (FPTree.new transactions t) = some R ∧
      forEach (item_patterns (fptree_growth (fuel - 1)) (FPTree.new transactions t))
        (FPTree.new transactions t).header_table [] = some R ∧
      fptree_growth_multi_path fuel (FPTree.new transactions t) = some R := by
  obtain ⟨paths, h, hl⟩ := FPTree.new_shape transactions t
  have hord := nodup_ordered_items transactions t
  have hr : (FPTree.new transactions t).root = 0 := rfl
  obtain ⟨first, l, hroot, _, _⟩ := single_path_chain rfl hne hs
  obtain ⟨R, hR, hspec⟩ := fptree_growth_mined transactions t fuel (by
    rw [Nat.max_le]; omega)
  have hloop : single_path_loop (FPTree.new transactions t).nodes
      (FPTree.new transactions t).nodes.length first [] = some R := by
    obtain ⟨f, rfl⟩ : ∃ f, fuel = f + 1 := ⟨fuel - 1, by omega⟩
    unfold fptree_growth at hR
    rw [hne, hs] at hR
    simp only [Bool.false_eq_true, if_false] at hR
    rw [hr, hroot] at hR
    exact hR
  rw [header_length] at hfuel
  obtain ⟨R1, hR1, hspec1⟩ := multi_path_generic transactions t h hl (fptree_growth (fuel - 1))
    (fun x hx => by
      have hlt := (ordered_items_conditional h hord x t).2 hx
      obtain ⟨Rc, hRc, hc⟩ := fptree_growth_spec ((ordered_items transactions t).length - 1)
        (conditional_txs (FPTree.new transactions t).nodes paths x) t (fuel - 1) (by omega)
        (by rw [Nat.max_le]; omega)
      exact ⟨Rc, hRc, conditional_spec transactions t h hx hc⟩)
  obtain ⟨R2, hR2, hspec2⟩ := fptree_growth_multi_path_spec (ordered_items transactions t).length
    transactions t fuel (Nat.le_refl _) hfuel
  have e1 : R1 = R := sorted_unique strictTotal_patternLt hspec1.1 hspec.1 (fun q => by
    rw [hspec1.frequent hnodup, hspec.nodup hnodup])
  have e2 : R2 = R := sorted_unique strictTotal_patternLt hspec2.1 hspec.1 (fun q => by
    rw [hspec2.frequent hnodup, hspec.nodup hnodup])
  exact ⟨first, R, by rw [hr]; exact hroot, hloop, hR, e1 ▸ hR1, e2 ▸ hR2⟩

/-- Witness of C20: the single-path tree of `{1,2}, {1,2}, {1}` with threshold 2. -/
theorem single_path_shortcut_is_optimisation_witness :
    ∃ first R,
      (getNode (FPTree.new ([[1, 2], [1, 2], [1]] : List (Transaction Nat)) 2).nodes
        (FPTree.new ([[1, 2], [1, 2], [1]] : List (Transaction Nat)) 2).root).children
          = [first] ∧
      single_path_loop (FPTree.new ([[1, 2], [1, 2], [1]] : List (Transaction Nat)) 2).nodes
        (FPTree.new ([[1, 2], [1, 2], [1]] : List (Transaction Nat)) 2).nodes.length first []
          = some R ∧
      fptree_growth 3 (FPTree.new ([[1, 2], [1, 2], [1]] : List (Transaction Nat)) 2) = some R ∧
      forEach (item_patterns (fptree_growth (3 - 1))
          (FPTree.new ([[1, 2], [1, 2], [1]] : List (Transaction Nat)) 2))
        (FPTree.new ([[1, 2], [1, 2], [1]] : List (Transaction Nat)) 2).header_table []
          = some R ∧
      fptree_growth_multi_path 3
        (FPTree.new ([[1, 2], [1, 2], [1]] : List (Transaction Nat)) 2) = some R :=
  single_path_shortcut_is_optimisation [[1, 2], [1, 2], [1]] 2 3 (by decide) (by decide)
    (by decide) (by decide)

end Theory

end FPGrowth
